import Mathlib

/-!
# VerseAxis: layout and interaction core of `src/App.jsx`

A shallow embedding of the layout engine, the overlap resolver, the gap
closer, the pointer state machine and the undo history of `src/App.jsx`,
followed by theorems about them.

Modelling conventions.

* JavaScript numbers are modelled as exact rationals (`ℚ`): every arithmetic
  operation of the source is the corresponding exact operation, so rounding,
  `NaN` and the infinities are outside the model.  `Math.hypot(dx, dy) <= r`
  is the comparison `dx*dx + dy*dy <= r*r`.
* `window.innerWidth` and `window.innerHeight` are explicit parameters.
* A React handler is a function from the application state seen by the
  handler to the state after all queued updates of that handler are applied.
* Loops and recursions of the source that may fail to terminate carry a fuel
  argument and return `none` when the fuel runs out.
-/

namespace VerseAxis

/-! ## Constants and configuration -/

/-- The two view modes, `'canvas'` and `'book'`. -/
inductive Mode where
  | canvas
  | book
  deriving DecidableEq, Repr

/-- One entry of `LAYOUT_CONFIG`. -/
structure Config where
  lineHeight : ℚ
  wordSpacing : ℚ
  rowTolerance : ℚ
  minGap : ℚ
  fontScale : ℚ

/-- The table `LAYOUT_CONFIG` (lines 65-80). -/
def LAYOUT_CONFIG : Mode → Config
  | .canvas => { lineHeight := 80, wordSpacing := 15, rowTolerance := 30, minGap := 25, fontScale := 1 }
  | .book => { lineHeight := 48, wordSpacing := 6, rowTolerance := 15, minGap := 6, fontScale := 23 / 20 }

/-- The ids of `SATELLITE_OPTIONS` in their order (lines 48-55). -/
def SATELLITE_OPTIONS : List String := ["who", "what", "when", "where", "why", "how"]

/-! ## Data model -/

/-- The value of `styles.highlight`: `false`, `null`, the legacy `true`, or a colour id. -/
inductive Highlight where
  | off
  | null
  | legacyTrue
  | color (id : String)
  deriving DecidableEq, Repr

/-- The `styles` object of a node. -/
structure Styles where
  bold : Bool
  italic : Bool
  underline : Bool
  highlight : Highlight
  scale : ℚ
  deriving DecidableEq

/-- A node of the forest: one word with its position, style and optional parent edge. -/
structure Node where
  id : String
  text : String
  parentId : Option String
  relation : Option String
  styles : Styles
  collapsed : Bool
  x : ℚ
  y : ℚ
  deriving DecidableEq

/-- JavaScript truthiness of a value that is `null` or a string. -/
def truthy : Option String → Bool
  | none => false
  | some s => s ≠ ""

/-- The expression `styles.scale || 1`. -/
def scaleOr1 (n : Node) : ℚ := if n.styles.scale = 0 then 1 else n.styles.scale

/-- The `length` of a JavaScript string: its number of UTF-16 code units. -/
def jsLength (s : String) : Nat :=
  (s.toList.map (fun c => if c.val < 0x10000 then 1 else 2)).sum

/-! ## Geometry estimator and layout engine -/

/-- The function `estimateWidth` (lines 86-91). -/
def estimateWidth (text : String) (isBookMode : Bool) : ℚ :=
  let charWidth : ℚ := if isBookMode then 21 / 2 else 9
  let padding : ℚ := if isBookMode then 2 else 24
  (jsLength text : ℚ) * charWidth + padding

/-- The test `mode === 'book'`. -/
def isBook (mode : Mode) : Bool := mode = .book

/-- The container width policy shared by `calculateLayout` and `resolveOverlaps`. -/
def containerWidth (windowWidth : ℚ) (mode : Mode) : ℚ :=
  if isBook mode then min 650 (windowWidth * (55 / 100))
  else if windowWidth > 800 then 800 else windowWidth - 40

/-- The left edge `startX` of the text column. -/
def startX (windowWidth : ℚ) (mode : Mode) : ℚ :=
  (windowWidth - containerWidth windowWidth mode) / 2

/-- The right edge `maxRightEdge` of the text column. -/
def maxRightEdge (windowWidth : ℚ) (mode : Mode) : ℚ :=
  startX windowWidth mode + containerWidth windowWidth mode

/-- The body of the `map` callback of `calculateLayout`, with the cursor
`(currentX, currentY)` passed explicitly. -/
def layoutFrom (windowWidth : ℚ) (mode : Mode) : ℚ → ℚ → List Node → List Node
  | _, _, [] => []
  | currentX, currentY, node :: rest =>
    let w := estimateWidth node.text (isBook mode)
    let wrap : Bool := currentX + w > maxRightEdge windowWidth mode
    let cx := if wrap then startX windowWidth mode else currentX
    let cy := if wrap then currentY + (LAYOUT_CONFIG mode).lineHeight else currentY
    { node with x := cx + w / 2, y := cy } ::
      layoutFrom windowWidth mode (cx + w + (LAYOUT_CONFIG mode).wordSpacing) cy rest

/-- The function `calculateLayout` (lines 94-126). -/
def calculateLayout (windowWidth : ℚ) (nodesToLayout : List Node) (mode : Mode) : List Node :=
  layoutFrom windowWidth mode (startX windowWidth mode) 160 nodesToLayout

/-! ## Overlap resolver -/

/-- Half of the rendered width of a node: `estimateWidth(text, isBook) * scale / 2`. -/
def halfWidth (mode : Mode) (n : Node) : ℚ :=
  estimateWidth n.text (isBook mode) * scaleOr1 n / 2

/-- Right edge of a node. -/
def rightEdge (mode : Mode) (n : Node) : ℚ := n.x + halfWidth mode n

/-- Left edge of a node. -/
def leftEdge (mode : Mode) (n : Node) : ℚ := n.x - halfWidth mode n

/-- A row object `{ y, nodes }` of `sortedRows`. -/
structure Row where
  y : ℚ
  nodes : List Node
  deriving DecidableEq

/-- Whether the string form of a number is an integer index, which
`Object.keys` lists before all other keys, in ascending order. -/
def isArrayIndex (k : ℚ) : Bool := k.den = 1 ∧ 0 ≤ k.num ∧ k.num < 4294967295

/-- The order in which `Object.keys` enumerates keys inserted in the order `ks`. -/
def objectKeys (ks : List ℚ) : List ℚ :=
  (ks.filter isArrayIndex).insertionSort (· ≤ ·) ++ ks.filter (fun k => !isArrayIndex k)

/-- The search `Object.keys(rows).find(key => |parseFloat(key) - node.y| < rowTolerance)`. -/
def findRowKey (mode : Mode) (rows : List Row) (y : ℚ) : Option ℚ :=
  (objectKeys (rows.map Row.y)).find? (fun key => |key - y| < (LAYOUT_CONFIG mode).rowTolerance)

/-- The statement `rows[key].push(node)`, creating the entry when the key is new. -/
def rowPush : List Row → ℚ → Node → List Row
  | [], key, node => [{ y := key, nodes := [node] }]
  | r :: rest, key, node =>
    if r.y = key then { r with nodes := r.nodes ++ [node] } :: rest
    else r :: rowPush rest key node

/-- The `forEach` that buckets the nodes, sorted by `y`, into rows (lines 172-180);
the rows are kept in the order in which their keys were inserted. -/
def bucketRows (mode : Mode) (sortedByY : List Node) : List Row :=
  sortedByY.foldl
    (fun rows node =>
      match findRowKey mode rows node.y with
      | some key => rowPush rows key node
      | none => rowPush rows node.y node)
    []

/-- The spacing loop over one row starting after the node `current` (lines 194-218). -/
def spaceFrom (mode : Mode) (current : Node) : List Node → List Node
  | [] => []
  | next :: rest =>
    let currentRightEdge := rightEdge mode current
    let nextLeftEdge := leftEdge mode next
    let desiredGap := (LAYOUT_CONFIG mode).minGap
    let next1 : Node :=
      if isBook mode then
        { next with x := currentRightEdge + desiredGap + halfWidth mode next }
      else if nextLeftEdge < currentRightEdge + desiredGap then
        { next with x := next.x + ((currentRightEdge + desiredGap) - nextLeftEdge) }
      else next
    next1 :: spaceFrom mode next1 rest

/-- Step 2 of the row loop: resolve overlaps and apply spacing in one sorted row. -/
def applySpacing (mode : Mode) : List Node → List Node
  | [] => []
  | first :: rest => first :: spaceFrom mode first rest

/-- The index of the first node whose right edge is beyond `maxRightEdge` (lines 233-242);
the length of the list plays the role of `-1`. -/
def splitIndex (windowWidth : ℚ) (mode : Mode) (nodes : List Node) : Nat :=
  nodes.findIdx (fun n => rightEdge mode n > maxRightEdge windowWidth mode)

/-- One iteration of the row loop (lines 187-299) on the row at index `i` and the
rows after it: the result is the finished row `i` and the rows after it, into which
overflowing nodes may have been merged or a new row inserted. -/
def processRow (windowWidth : ℚ) (mode : Mode) (row : Row) (rest : List Row) : Row × List Row :=
  let sorted := row.nodes.insertionSort (fun a b => a.x ≤ b.x)
  let spaced := applySpacing mode sorted
  match spaced.getLast? with
  | none => ({ row with nodes := spaced }, rest)
  | some lastNode =>
    if isBook mode ∧ rightEdge mode lastNode > maxRightEdge windowWidth mode then
      let k := splitIndex windowWidth mode spaced
      if ¬ k < spaced.length then ({ row with nodes := spaced }, rest)
      else if k = 0 ∧ spaced.length = 1 then ({ row with nodes := spaced }, rest)
      else
        let overflowNodes := spaced.drop k
        let kept : Row := { row with nodes := spaced.take k }
        let nextY := row.y + (LAYOUT_CONFIG mode).lineHeight
        match rest with
        | nextRow :: rest1 =>
          if |nextRow.y - nextY| < (LAYOUT_CONFIG mode).rowTolerance then
            (kept,
              { nextRow with
                  nodes := nextRow.nodes ++ overflowNodes.map (fun n =>
                    { n with y := nextRow.y, x := startX windowWidth mode - 10000 + n.x }) } :: rest1)
          else
            (kept,
              { y := nextY,
                nodes := overflowNodes.map (fun n =>
                  { n with y := nextY, x := startX windowWidth mode }) } :: nextRow :: rest1)
        | [] =>
          (kept,
            [{ y := nextY,
               nodes := overflowNodes.map (fun n =>
                 { n with y := nextY, x := startX windowWidth mode }) }])
    else ({ row with nodes := spaced }, rest)

/-- The loop `for (let i = 0; i < sortedRows.length; i++)` from index `i` on; the
argument holds the rows at index `i` and after, the result the final rows from
index `i` on.  Rows before `i` are never read or written again by the source. -/
def resolveLoop (windowWidth : ℚ) (mode : Mode) : Nat → List Row → Option (List Row)
  | _, [] => some []
  | 0, _ :: _ => none
  | fuel + 1, row :: rest =>
    match resolveLoop windowWidth mode fuel (processRow windowWidth mode row rest).2 with
    | some done => some ((processRow windowWidth mode row rest).1 :: done)
    | none => none

/-- The rows `sortedRows` before the loop (lines 168-185). -/
def initialRows (mode : Mode) (currentNodes : List Node) : List Row :=
  (bucketRows mode (currentNodes.insertionSort (fun a b => a.y ≤ b.y))).insertionSort
    (fun a b => a.y ≤ b.y)

/-- The final value of `sortedRows` in `resolveOverlaps`. -/
def resolveRows (fuel : Nat) (windowWidth : ℚ) (currentNodes : List Node) (mode : Mode) :
    Option (List Row) :=
  resolveLoop windowWidth mode fuel (initialRows mode currentNodes)

/-- The function `resolveOverlaps` (lines 157-302). -/
def resolveOverlaps (fuel : Nat) (windowWidth : ℚ) (currentNodes : List Node) (mode : Mode) :
    Option (List Node) :=
  (resolveRows fuel windowWidth currentNodes mode).map (fun rows => rows.flatMap Row.nodes)

/-! ## Gap closer -/

/-- A descriptor of `movedRoots`: `{ id, text, oldX, oldY, wasRoot }`. -/
structure MovedItem where
  id : String
  text : String
  oldX : ℚ
  oldY : ℚ
  wasRoot : Bool
  deriving DecidableEq

/-- The body of `movedItems.forEach` in `closeGaps` for one descriptor (lines 310-336). -/
def closeGapsItem (mode : Mode) (adjustedNodes : List Node) (item : MovedItem) : List Node :=
  if !item.wasRoot then adjustedNodes
  else
    let gapX := item.oldX
    let gapY := item.oldY
    let GAP_SIZE := estimateWidth item.text (isBook mode) + (LAYOUT_CONFIG mode).wordSpacing
    let shifted := adjustedNodes.map (fun node =>
      if truthy node.parentId then node
      else if |node.y - gapY| < (LAYOUT_CONFIG mode).rowTolerance ∧ node.x > gapX then
        { node with x := node.x - GAP_SIZE }
      else node)
    let hasNodesOnLine := shifted.any (fun n =>
      !truthy n.parentId && decide (|n.y - gapY| < (LAYOUT_CONFIG mode).rowTolerance))
    if !hasNodesOnLine then
      shifted.map (fun node =>
        if !truthy node.parentId ∧ node.y > gapY then
          { node with y := node.y - (LAYOUT_CONFIG mode).lineHeight }
        else node)
    else shifted

/-- The function `closeGaps` (lines 305-339). -/
def closeGaps (currentNodes : List Node) (movedItems : List MovedItem) (mode : Mode) : List Node :=
  movedItems.foldl (closeGapsItem mode) currentNodes

/-! ## Forest helpers and tokenization -/

/-- The function `getDescendants` (lines 147-154); the recursion has no visited set,
so it carries fuel. -/
def getDescendants : Nat → String → List Node → Option (List Node)
  | 0, _, _ => none
  | fuel + 1, nodeId, allNodes =>
    let children := allNodes.filter (fun n => n.parentId = some nodeId)
    children.foldl
      (fun descendants child =>
        match descendants, getDescendants fuel child.id allNodes with
        | some ds, some more => some (ds ++ more)
        | _, _ => none)
      (some children)

/-- The characters matched by `\s` in a JavaScript regular expression. -/
def isJsSpace (c : Char) : Bool :=
  c.val.toNat ∈ [9, 10, 11, 12, 13, 32, 160, 5760, 8192, 8193, 8194, 8195, 8196, 8197, 8198,
    8199, 8200, 8201, 8202, 8232, 8233, 8239, 8287, 12288, 65279]

/-- The characters matched by `\w`: ASCII letters, digits and the underscore. -/
def isWordChar (c : Char) : Bool := c.isAlphanum || c.val.toNat = 95

/-- The lower-case form of one character as far as `norm` can see it: ASCII letters,
and the two characters outside ASCII whose lower-case form contains an ASCII letter
(the Kelvin sign and the dotted capital I). Every other character outside ASCII is
mapped by `toLowerCase` to characters outside ASCII, which `norm` deletes or, for
white space, keeps unchanged. -/
def lowerChar (c : Char) : List Char :=
  if c.val.toNat = 8490 then [Char.ofNat 107]
  else if c.val.toNat = 304 then [Char.ofNat 105, Char.ofNat 775]
  else [c.toLower]

/-- The normalization `t.toLowerCase().replace(/[^\w\s]/gi, '')`. -/
def norm (t : String) : String :=
  String.mk ((t.toList.flatMap lowerChar).filter (fun c => isWordChar c || isJsSpace c))

/-- The pieces of `text.split(/\s+/)`: `cur` is the piece being read, `inGap` tells
that the previous character was white space. -/
def splitWords : List Char → Bool → List Char → List String
  | cur, _, [] => [String.mk cur]
  | cur, inGap, c :: cs =>
    if isJsSpace c then
      if inGap then splitWords cur true cs
      else String.mk cur :: splitWords [] true cs
    else splitWords (cur ++ [c]) false cs

/-- The call `text.split(/\s+/)`. -/
def jsSplitWhitespace (text : String) : List String := splitWords [] false text.toList

/-- The default `styles` of a new node. -/
def defaultStyles : Styles :=
  { bold := false, italic := false, underline := false, highlight := .off, scale := 1 }

/-- The nodes `rawNodes` of `splitTextToNodes`; `generateId` is random in the source
and is modelled by an id supply `genId`, indexed by the position of the word. The
coordinates, absent in the source at this point, are set by `calculateLayout`. -/
def rawNodes (genId : Nat → String) (words : List String) : List Node :=
  (List.range words.length).zipWith
    (fun i word =>
      { id := genId i, text := word, parentId := none, relation := none,
        styles := defaultStyles, collapsed := false, x := 0, y := 0 })
    words

/-- The function `splitTextToNodes` (lines 128-145). -/
def splitTextToNodes (windowWidth : ℚ) (genId : Nat → String) (text : String) (mode : Mode) :
    List Node :=
  calculateLayout windowWidth (rawNodes genId (jsSplitWhitespace text)) mode

/-! ## History manager -/

/-- The call `history.slice(0, end)`. -/
def sliceTo {α : Type} (history : List α) (stop : Int) : List α :=
  if stop < 0 then history.take (history.length - (-stop).toNat) else history.take stop.toNat

/-- The history state: the entries and the cursor `historyIndex`. A snapshot
`JSON.stringify(nodes)` is modelled by the node list it parses back to. -/
structure History where
  history : List (List Node)
  historyIndex : Int
  deriving DecidableEq

/-- The initial history `useState([])`, `useState(-1)`. -/
def History.empty : History := { history := [], historyIndex := -1 }

/-- The function `saveToHistory` (lines 548-554). -/
def saveToHistory (h : History) (newNodes : List Node) : History :=
  let pushed := sliceTo h.history (h.historyIndex + 1) ++ [newNodes]
  let newHistory := if pushed.length > 20 then pushed.tail else pushed
  { history := newHistory, historyIndex := (newHistory.length : Int) - 1 }

/-! ## Application state -/

/-- The `type` of a drag session. -/
inductive DragType where
  | node
  | boxSelect
  | canvas
  deriving DecidableEq, Repr

/-- The object held by `dragState`. Fields that a session type does not have in the
source keep their default value and are never read for that type. -/
structure DragState where
  type : DragType
  pointerId : Int
  startX : ℚ
  startY : ℚ
  mainNodeId : String := ""
  idsToMove : List String := []
  initialPositions : List (String × ℚ × ℚ) := []
  hasMoved : Bool := false
  pendingDeselect : Bool := false
  pendingClearSelection : Bool := false
  currentX : ℚ := 0
  currentY : ℚ := 0
  initialOffsetX : ℚ := 0
  initialOffsetY : ℚ := 0
  deriving DecidableEq

/-- The values of `connectionMode`. -/
inductive ConnectionMode where
  | hidden
  | tree
  | direct
  | step
  deriving DecidableEq, Repr

/-- The React state of `App` that the layout and interaction core reads or writes,
with the two position caches of `positionsCache`. -/
structure AppState where
  nodes : List Node
  scale : ℚ
  offsetX : ℚ
  offsetY : ℚ
  selection : List String
  multiSelectMode : Bool
  dragState : Option DragState
  hoverTarget : Option String
  satelliteHover : Option String
  lastHighlightColor : String
  connectionMode : ConnectionMode
  viewMode : Mode
  cacheCanvas : List (String × ℚ × ℚ)
  cacheBook : List (String × ℚ × ℚ)
  hist : History
  deriving DecidableEq

/-- The state of `App` before the initial-load effect has run. -/
def AppState.initial : AppState :=
  { nodes := [], scale := 1, offsetX := 0, offsetY := 0, selection := [],
    multiSelectMode := false, dragState := none, hoverTarget := none, satelliteHover := none,
    lastHighlightColor := "yellow", connectionMode := .hidden, viewMode := .book,
    cacheCanvas := [], cacheBook := [], hist := History.empty }

/-- The ambient viewport `window.innerWidth`, `window.innerHeight`. -/
structure Viewport where
  innerWidth : ℚ
  innerHeight : ℚ

/-- A pointer event together with what the handlers read from the canvas element:
the bounding rectangle origin and `scrollTop`. -/
structure PointerEvt where
  pointerId : Int
  clientX : ℚ
  clientY : ℚ
  shiftKey : Bool := false
  rectLeft : ℚ := 0
  rectTop : ℚ := 0
  scrollTop : ℚ := 0

/-- The lookup `obj[id]` in an object filled by assignments in list order: a later
assignment to the same key replaces an earlier one. -/
def lookupPos (obj : List (String × ℚ × ℚ)) (id : String) : Option (ℚ × ℚ) :=
  (obj.reverse.find? (fun entry => entry.1 = id)).map Prod.snd

/-- The expression `nodes.find(n => n.id === id)`. -/
def findNode (nodes : List Node) (id : String) : Option Node :=
  nodes.find? (fun n => n.id = id)

/-- The expression `norm(nodes.find(n => n.id === id)?.text || '')`. -/
def normOfId (nodes : List Node) (id : String) : String :=
  match findNode nodes id with
  | some n => norm n.text
  | none => norm ""

/-- The elements of a list in order of first occurrence: `Array.from(new Set(xs))`. -/
def dedupKeepFirst : List String → List String
  | [] => []
  | a :: l => a :: (dedupKeepFirst l).filter (fun b => b ≠ a)

/-- The function `undo` (lines 556-562). -/
def undo (s : AppState) : AppState :=
  if s.hist.historyIndex > 0 then
    let newIndex := s.hist.historyIndex - 1
    match s.hist.history[newIndex.toNat]? with
    | some snapshot => { s with nodes := snapshot, hist := { s.hist with historyIndex := newIndex } }
    | none => s
  else s

/-- The function `redo` (lines 564-570). -/
def redo (s : AppState) : AppState :=
  if s.hist.historyIndex < (s.hist.history.length : Int) - 1 then
    let newIndex := s.hist.historyIndex + 1
    if newIndex < 0 then s
    else
      match s.hist.history[newIndex.toNat]? with
      | some snapshot => { s with nodes := snapshot, hist := { s.hist with historyIndex := newIndex } }
      | none => s
  else s

/-- The function `updateNodes` (lines 572-579); `none` when `resolveOverlaps` does not
return within the fuel. -/
def updateNodes (fuel : Nat) (vp : Viewport) (s : AppState) (newNodes : List Node)
    (shouldResolve : Bool) : Option AppState :=
  let finalNodes := if shouldResolve then resolveOverlaps fuel vp.innerWidth newNodes s.viewMode
    else some newNodes
  finalNodes.map (fun final => { s with nodes := final, hist := saveToHistory s.hist final })

/-- The initial-load effect (lines 541-546) for the text `text`. -/
def initialLoad (fuel : Nat) (vp : Viewport) (genId : Nat → String) (text : String) :
    Option AppState :=
  (resolveOverlaps fuel vp.innerWidth (splitTextToNodes vp.innerWidth genId text .book) .book).map
    (fun resolvedNodes =>
      { AppState.initial with nodes := resolvedNodes,
                              hist := saveToHistory AppState.initial.hist resolvedNodes })

/-- The synchronous tail of `fetchPassage` once the text is known (lines 990-994). -/
def loadPassage (fuel : Nat) (vp : Viewport) (genId : Nat → String) (s : AppState)
    (text : String) : Option AppState :=
  (updateNodes fuel vp s (splitTextToNodes vp.innerWidth genId text s.viewMode) true).map
    (fun t => { t with offsetX := 0, offsetY := 0, scale := 1, selection := [] })

/-- The positions `currentPositions` recorded by `toggleViewMode`. -/
def currentPositions (nodes : List Node) : List (String × ℚ × ℚ) :=
  nodes.map (fun n => (n.id, n.x, n.y))

/-- The function `toggleViewMode` (lines 581-615). -/
def toggleViewMode (fuel : Nat) (vp : Viewport) (s : AppState) : Option AppState :=
  let nextMode := if s.viewMode = .canvas then Mode.book else Mode.canvas
  let saved := currentPositions s.nodes
  let cacheCanvas := if s.viewMode = .canvas then saved else s.cacheCanvas
  let cacheBook := if s.viewMode = .book then saved else s.cacheBook
  let cachedPositions := if nextMode = .canvas then cacheCanvas else cacheBook
  let hasCache : Bool := cachedPositions.length > 0
  let nextNodes : Option (List Node) :=
    if hasCache then
      resolveOverlaps fuel vp.innerWidth
        (s.nodes.map (fun n =>
          match lookupPos cachedPositions n.id with
          | some pos => { n with x := pos.1, y := pos.2 }
          | none => n))
        nextMode
    else some (calculateLayout vp.innerWidth s.nodes nextMode)
  nextNodes.map (fun next =>
    let t := { s with viewMode := nextMode, nodes := next,
                      cacheCanvas := cacheCanvas, cacheBook := cacheBook }
    if nextMode = .book then { t with offsetX := 0, offsetY := 0, scale := 1 } else t)

/-! ## Style and edge commands -/

/-- The style keys passed to `toggleStyle` by the toolbar. -/
inductive StyleKey where
  | bold
  | italic
  | underline
  deriving DecidableEq, Repr

/-- The update `{ ...styles, [styleKey]: !styles[styleKey] }`. -/
def flipStyle (k : StyleKey) (st : Styles) : Styles :=
  match k with
  | .bold => { st with bold := !st.bold }
  | .italic => { st with italic := !st.italic }
  | .underline => { st with underline := !st.underline }

/-- The function `toggleStyle` (lines 951-955). -/
def toggleStyle (fuel : Nat) (vp : Viewport) (s : AppState) (styleKey : StyleKey) :
    Option AppState :=
  if s.selection.length = 0 then some s
  else
    updateNodes fuel vp s
      (s.nodes.map (fun n =>
        if n.id ∈ s.selection then { n with styles := flipStyle styleKey n.styles } else n))
      true

/-- The function `changeFontSize` (lines 956-960). -/
def changeFontSize (fuel : Nat) (vp : Viewport) (s : AppState) (delta : ℚ) : Option AppState :=
  if s.selection.length = 0 then some s
  else
    updateNodes fuel vp s
      (s.nodes.map (fun n =>
        if n.id ∈ s.selection then
          { n with styles := { n.styles with scale := max (1 / 2) (scaleOr1 n + delta) } }
        else n))
      true

/-- The function `clearFormatting` (lines 936-949). -/
def clearFormatting (fuel : Nat) (vp : Viewport) (s : AppState) : Option AppState :=
  if s.selection.length = 0 then some s
  else
    updateNodes fuel vp s
      (s.nodes.map (fun n =>
        if n.id ∈ s.selection then
          { n with styles := { bold := false, italic := false, underline := false,
                               highlight := .null, scale := 1 } }
        else n))
      true

/-- The function `detachNode` (lines 961-965). -/
def detachNode (fuel : Nat) (vp : Viewport) (s : AppState) : Option AppState :=
  if s.selection.length = 0 then some s
  else
    updateNodes fuel vp s
      (s.nodes.map (fun n =>
        if n.id ∈ s.selection then { n with parentId := none, relation := none } else n))
      true

/-- The function `setHighlight` (lines 915-934). -/
def setHighlight (fuel : Nat) (vp : Viewport) (s : AppState) (colorId : String) :
    Option AppState :=
  if s.selection.length = 0 then some s
  else
    let selectedNodes := s.nodes.filter (fun n => n.id ∈ s.selection)
    let sameWordSelection : Bool :=
      match selectedNodes with
      | [] => false
      | first :: _ => selectedNodes.all (fun n => norm n.text = norm first.text)
    let idsToApply := if sameWordSelection then s.selection.take 1 else s.selection
    let alreadyThisColor : Bool := idsToApply.all (fun id =>
      match findNode s.nodes id with
      | some node =>
        node.styles.highlight = .color colorId ||
          (node.styles.highlight = .legacyTrue && colorId = "yellow")
      | none => false)
    let newHighlight : Highlight := if alreadyThisColor then .off else .color colorId
    let s1 := if alreadyThisColor then s else { s with lastHighlightColor := colorId }
    updateNodes fuel vp s1
      (s.nodes.map (fun n =>
        if n.id ∈ idsToApply then { n with styles := { n.styles with highlight := newHighlight } }
        else n))
      true

/-! ## Selection and drag controller -/

/-- The function `getCanvasCoordinates` (lines 666-678). -/
def getCanvasCoordinates (s : AppState) (e : PointerEvt) : ℚ × ℚ :=
  if s.viewMode = .book then (e.clientX - e.rectLeft, e.clientY - e.rectTop + e.scrollTop)
  else ((e.clientX - e.rectLeft - s.offsetX) / s.scale, (e.clientY - e.rectTop - s.offsetY) / s.scale)

/-- The local function `gatherDescendants` of `handlePointerDown` (lines 729-736), with
the set `idsToMove` passed through. In the source every call adds a new id to the set
before it recurses, so the recursion depth is at most the number of nodes; `fuel`
bounds that depth. -/
def gatherDescendants (nodes : List Node) : Nat → String → List String → List String
  | 0, _, idsToMove => idsToMove
  | fuel + 1, pId, idsToMove =>
    nodes.foldl
      (fun ids n =>
        if n.parentId = some pId ∧ n.id ∉ ids then
          gatherDescendants nodes fuel n.id (ids ++ [n.id])
        else ids)
      idsToMove

/-- The moving set built by `handlePointerDown` from `newSelection` (lines 727-737). -/
def gatherAll (nodes : List Node) (newSelection : List String) : List String :=
  newSelection.foldl (fun ids selId => gatherDescendants nodes (nodes.length + 1) selId ids)
    (dedupKeepFirst newSelection)

/-- The selection computed by `handlePointerDown` on a node (lines 686-725). -/
def newSelectionOnDown (s : AppState) (shiftKey : Bool) (nodeId : String) : List String :=
  let isMultiAction := s.multiSelectMode || shiftKey
  let isAlreadySelected : Bool := nodeId ∈ s.selection
  if isMultiAction then
    if isAlreadySelected then s.selection
    else
      let pushed := s.selection ++ [nodeId]
      let firstWordNorm : String :=
        match s.selection.head? with
        | some primaryId => if primaryId ≠ "" then normOfId s.nodes primaryId else ""
        | none => ""
      let hasMultipleWords : Bool := (pushed.map (normOfId s.nodes)).dedup.length > 1
      if hasMultipleWords ∧ firstWordNorm ≠ "" then
        pushed.filter (fun id =>
          some id = s.selection.head? || normOfId s.nodes id ≠ firstWordNorm)
      else pushed
  else if isAlreadySelected then s.selection
  else
    match findNode s.nodes nodeId with
    | some clickedNode =>
      let targetWord := norm clickedNode.text
      let matchingIds := (s.nodes.filter (fun n => norm n.text = targetWord)).map Node.id
      nodeId :: matchingIds.filter (fun id => id ≠ nodeId)
    | none => [nodeId]

/-- The branch of `handlePointerDown` for a pointer-down that is not on a node
(lines 745-750). -/
def pointerDownOnCanvas (s : AppState) (e : PointerEvt) (coords : ℚ × ℚ) : AppState :=
  if s.multiSelectMode || e.shiftKey then
    let d : DragState :=
      { type := .boxSelect, startX := coords.1, startY := coords.2, currentX := coords.1,
        currentY := coords.2, pointerId := e.pointerId }
    { s with dragState := some d }
  else
    let d : DragState :=
      { type := .canvas, startX := e.clientX, startY := e.clientY,
        initialOffsetX := s.offsetX, initialOffsetY := s.offsetY, hasMoved := false,
        pointerId := e.pointerId }
    { s with selection := [], dragState := some d }

/-- The function `handlePointerDown` (lines 680-752). -/
def handlePointerDown (s : AppState) (e : PointerEvt) (nodeId : Option String) : AppState :=
  let coords := getCanvasCoordinates s e
  if truthy nodeId then
    let id := nodeId.getD ""
    let isMultiAction := s.multiSelectMode || e.shiftKey
    let isAlreadySelected : Bool := id ∈ s.selection
    let newSelection := newSelectionOnDown s e.shiftKey id
    let idsToMove := gatherAll s.nodes newSelection
    let initialPositions :=
      (s.nodes.filter (fun n => n.id ∈ idsToMove)).map (fun n => (n.id, n.x, n.y))
    let d : DragState :=
      { type := .node, mainNodeId := id, startX := coords.1, startY := coords.2,
        idsToMove := idsToMove, initialPositions := initialPositions, hasMoved := false,
        pendingDeselect := isMultiAction && isAlreadySelected,
        pendingClearSelection := !isMultiAction && isAlreadySelected,
        pointerId := e.pointerId }
    { s with selection := newSelection, dragState := some d }
  else pointerDownOnCanvas s e coords

/-- The squared distance between two nodes; `Math.hypot` values are compared through it. -/
def sqDist (a b : Node) : ℚ := (a.x - b.x) * (a.x - b.x) + (a.y - b.y) * (a.y - b.y)

/-- The test `sameWordDrag` / `sameWordDrop`: all nodes have the normalized text of the first. -/
def allSameWord (l : List Node) : Bool :=
  match l with
  | [] => true
  | first :: _ => l.all (fun n => norm n.text = norm first.text)

/-- The hover detection of `handlePointerMove` (lines 819-838): the nearest candidate
within 120 units of the lead node and the relation zone under the pointer. -/
def findHover (s : AppState) (idsToMove : List String) (nextNodes : List Node) (mainNode : Node)
    (coordX : ℚ) : Option String × Option String :=
  let potentialTargets := nextNodes.filter (fun n =>
    !(s.connectionMode = .hidden && truthy n.parentId) && !decide (n.id ∈ idsToMove)
      && decide (sqDist n mainNode < 120 * 120))
  match potentialTargets.insertionSort (fun a b => sqDist a mainNode ≤ sqDist b mainNode) with
  | [] => (none, none)
  | target :: _ =>
    let wordWidth := estimateWidth target.text (isBook s.viewMode)
    let leftEdge := target.x - wordWidth / 2
    let relX := coordX - leftEdge
    let zoneIndex : Int := max 0 (min 5 ⌊relX / wordWidth * 6⌋)
    (some target.id, SATELLITE_OPTIONS[zoneIndex.toNat]?)

/-- The same-word narrowing of `handlePointerMove` (lines 768-785), taken when the drag
leaves the dead-zone with more than one moving root, all of one word; `none` when
`getDescendants` does not return within the fuel. -/
def narrowDrag (fuel : Nat) (s : AppState) (d : DragState) (dx dy : ℚ) : Option AppState :=
  match getDescendants fuel d.mainNodeId s.nodes with
  | none => none
  | some descendants =>
    let narrowedIds := dedupKeepFirst (d.mainNodeId :: descendants.map Node.id)
    let nextNodes := s.nodes.map (fun n =>
      if n.id ∈ d.idsToMove ∧ n.id ∉ narrowedIds then
        match lookupPos d.initialPositions n.id with
        | some init => { n with x := init.1, y := init.2 }
        | none => n
      else if n.id ∈ narrowedIds then
        match lookupPos d.initialPositions n.id with
        | some init => { n with x := init.1 + dx, y := init.2 + dy }
        | none => n
      else n)
    let d2 : DragState := { d with hasMoved := true, idsToMove := narrowedIds }
    some { s with nodes := nextNodes, selection := [d.mainNodeId], dragState := some d2 }

/-- The group translation and hover detection of `handlePointerMove` (lines 789-840).
A `TypeError` raised by a missing start position or a missing lead node ends the
handler with the updates queued so far. -/
def moveDrag (vp : Viewport) (s : AppState) (d : DragState) (coords : ℚ × ℚ) : AppState :=
  let rawDx := coords.1 - d.startX
  let rawDy := coords.2 - d.startY
  let d1 : DragState := { d with hasMoved := true }
  match lookupPos d.initialPositions d.mainNodeId with
  | none => { s with dragState := some d1 }
  | some mainInitPos =>
    let proposedX := mainInitPos.1 + rawDx
    let proposedY := mainInitPos.2 + rawDy
    let dx := if s.viewMode = .canvas then
        max (-s.offsetX / s.scale + 20)
          (min ((vp.innerWidth - s.offsetX) / s.scale - 20) proposedX) - mainInitPos.1
      else rawDx
    let dy := if s.viewMode = .canvas then
        max (-s.offsetY / s.scale + 20)
          (min ((vp.innerHeight - s.offsetY) / s.scale - 20) proposedY) - mainInitPos.2
      else rawDy
    if s.nodes.any (fun n =>
        decide (n.id ∈ d.idsToMove) && (lookupPos d.initialPositions n.id).isNone) then
      { s with dragState := some d1 }
    else
      let nextNodes := s.nodes.map (fun n =>
        if n.id ∈ d.idsToMove then
          match lookupPos d.initialPositions n.id with
          | some init => { n with x := init.1 + dx, y := init.2 + dy }
          | none => n
        else n)
      match findNode nextNodes d.mainNodeId with
      | none =>
        if nextNodes.any (fun n =>
            !(s.connectionMode = .hidden && truthy n.parentId)
              && !decide (n.id ∈ d.idsToMove)) then
          { s with nodes := nextNodes, dragState := some d1 }
        else
          { s with nodes := nextNodes, dragState := some d1,
                   hoverTarget := none, satelliteHover := none }
      | some mainNode =>
        let found := findHover s d.idsToMove nextNodes mainNode coords.1
        { s with nodes := nextNodes, dragState := some d1,
                 hoverTarget := found.1, satelliteHover := found.2 }

/-- The roots of the moving set of a node drag session (line 765). -/
def movingRootsOf (nodes : List Node) (d : DragState) : List Node :=
  nodes.filter (fun n => decide (n.id ∈ d.idsToMove) && !truthy n.parentId)

/-- The function `handlePointerMove` (lines 754-849); `none` when `getDescendants` does
not return within the fuel. -/
def handlePointerMove (fuel : Nat) (vp : Viewport) (s : AppState) (e : PointerEvt) :
    Option AppState :=
  match s.dragState with
  | none => some s
  | some d =>
    if e.pointerId ≠ d.pointerId then some s
    else
      let coords := getCanvasCoordinates s e
      match d.type with
      | .node =>
        let dx := coords.1 - d.startX
        let dy := coords.2 - d.startY
        if !d.hasMoved ∧ dx * dx + dy * dy ≤ 3 * 3 then some s
        else
          let movingRoots := movingRootsOf s.nodes d
          let sameWordDrag : Bool := movingRoots.length > 1 && allSameWord movingRoots
          if !d.hasMoved ∧ sameWordDrag then narrowDrag fuel s d dx dy
          else some (moveDrag vp s d coords)
      | .boxSelect =>
        let d3 : DragState := { d with currentX := coords.1, currentY := coords.2 }
        some { s with dragState := some d3 }
      | .canvas =>
        some { s with offsetX := d.initialOffsetX + (e.clientX - d.startX),
                      offsetY := d.initialOffsetY + (e.clientY - d.startY) }

/-- The nodes `nextNodes` of a drop commit (lines 883-890). -/
def nestNodes (d : DragState) (nodes : List Node) (idsToNest : List String)
    (hoverTarget satelliteHover : String) (snapX snapY : ℚ) : List Node :=
  nodes.map (fun n =>
    if n.id ∈ d.idsToMove then
      if n.id ∈ idsToNest then
        { n with parentId := some hoverTarget, relation := some satelliteHover, x := snapX, y := snapY }
      else
        match lookupPos d.initialPositions n.id with
        | some orig => { n with x := orig.1, y := orig.2 }
        | none => { n with x := snapX, y := snapY }
    else n)

/-- The id set `idsToNest` of a drop commit (lines 870-873). -/
def idsToNestOf (d : DragState) (nodes : List Node) (selection : List String) : List String :=
  let selectedMoving := nodes.filter (fun n => decide (n.id ∈ d.idsToMove) && decide (n.id ∈ selection))
  let sameWordDrop : Bool := selectedMoving.length > 0 && allSameWord selectedMoving
  if sameWordDrop then [d.mainNodeId] else selectedMoving.map Node.id

/-- The descriptors `movedRoots` of a drop commit (lines 875-881). -/
def movedRootsOf (d : DragState) (nodes : List Node) (idsToNest : List String) : List MovedItem :=
  idsToNest.filterMap (fun id =>
    match findNode nodes id, lookupPos d.initialPositions id with
    | some currentNode, some pos =>
      if !truthy currentNode.parentId then
        some { id := id, text := currentNode.text, oldX := pos.1, oldY := pos.2, wasRoot := true }
      else none
    | _, _ => none)

/-- The drop commit of `handlePointerUp` (lines 864-893) onto the node `parent`. -/
def dropCommit (fuel : Nat) (vp : Viewport) (s : AppState) (d : DragState)
    (hoverTarget satelliteHover : String) (parent : Node) : Option AppState :=
  let gap : ℚ := if s.viewMode = .book then 40 else 120
  let snapY := parent.y + gap
  let snapX := parent.x
  let idsToNest := idsToNestOf d s.nodes s.selection
  let movedRoots := movedRootsOf d s.nodes idsToNest
  let nextNodes := nestNodes d s.nodes idsToNest hoverTarget satelliteHover snapX snapY
  let filledNodes := closeGaps nextNodes movedRoots s.viewMode
  updateNodes fuel vp s filledNodes true

/-- The part of `handlePointerUp` for a node drag that has moved (lines 862-897): the
state after `updateNodes`, before the selection and the drag session are reset. A
hover target that is not a node of the forest raises a `TypeError` at `parent.y`, which
ends the handler with nothing queued. -/
def releaseMoved (fuel : Nat) (vp : Viewport) (s : AppState) (d : DragState) :
    Option (AppState × Bool) :=
  if truthy s.hoverTarget ∧ truthy s.satelliteHover then
    match findNode s.nodes (s.hoverTarget.getD "") with
    | none => some (s, false)
    | some parent =>
      (dropCommit fuel vp s d (s.hoverTarget.getD "") (s.satelliteHover.getD "") parent).map
        (fun t => (t, true))
  else (updateNodes fuel vp s s.nodes false).map (fun t => (t, true))

/-- The last three statements of `handlePointerUp` (lines 910-912). -/
def endDrag (s : AppState) : AppState :=
  { s with dragState := none, hoverTarget := none, satelliteHover := none }

/-- The function `handlePointerUp` (lines 851-913); also the handler of pointer-leave.
`none` when `resolveOverlaps` does not return within the fuel. -/
def handlePointerUp (fuel : Nat) (vp : Viewport) (s : AppState) (e : PointerEvt) :
    Option AppState :=
  match s.dragState with
  | none => some s
  | some d =>
    if e.pointerId ≠ d.pointerId then some s
    else
      match d.type with
      | .node =>
        if d.hasMoved then
          (releaseMoved fuel vp s d).map (fun r => if r.2 then endDrag r.1 else r.1)
        else
          let selection1 :=
            if d.pendingClearSelection then []
            else if d.pendingDeselect then s.selection.filter (fun id => id ≠ d.mainNodeId)
            else s.selection
          some (endDrag { s with selection := selection1 })
      | .boxSelect =>
        let minX := min d.startX d.currentX
        let maxX := max d.startX d.currentX
        let minY := min d.startY d.currentY
        let maxY := max d.startY d.currentY
        let intersectedIds := (s.nodes.filter (fun n =>
          !(decide (n.x - 30 > maxX) || decide (n.x + 30 < minX) || decide (n.y - 15 > maxY)
            || decide (n.y + 15 < minY)))).map Node.id
        some (endDrag { s with selection := dedupKeepFirst (s.selection ++ intersectedIds) })
      | .canvas => some (endDrag s)

/-! ## Example inputs and auxiliary notions for the theorems -/

/-- Recording `snaps` one after the other, starting from the history `h`. -/
def recordAll (h : History) (snaps : List (List Node)) : History := snaps.foldl saveToHistory h

/-- A forest of one root node at horizontal position `i`, used as the `i`-th snapshot
in examples. -/
def sampleSnapshot (i : Nat) : List Node :=
  [{ id := "n", text := "God", parentId := none, relation := none, styles := defaultStyles,
     collapsed := false, x := i, y := 160 }]

/-- Twenty-five distinct snapshots. -/
def sampleSnapshots : List (List Node) := (List.range 25).map sampleSnapshot

/-- A root node with default styles. -/
def mkNode (id text : String) (x y : ℚ) : Node :=
  { id := id, text := text, parentId := none, relation := none, styles := defaultStyles,
    collapsed := false, x := x, y := y }

/-- A root node with default styles except for the font scale. -/
def mkScaled (id text : String) (scale x y : ℚ) : Node :=
  { id := id, text := text, parentId := none, relation := none,
    styles := { defaultStyles with scale := scale }, collapsed := false, x := x, y := y }

/-- Two root nodes on one book-mode row of a 360 pixel wide viewport: an 11-character
word enlarged to scale 4, and a short word to its right. -/
def wideRowInput : List Node :=
  [mkScaled "w" "reconciled," 4 100 160, mkNode "b" "us" 300 160]

/-- The row that the overflow handling creates at height `y` from `wideRowInput`: both
nodes moved to the start of the column. -/
def wideRowAt (y : ℚ) : Row :=
  { y := y, nodes := [mkScaled "w" "reconciled," 4 81 y, mkNode "b" "us" 81 y] }

/-- Four root nodes in book mode at a 1000 pixel wide viewport: a row at 160 whose
second node overflows, and rows at 190 and 222. -/
def closeRowsInput : List Node :=
  [mkNode "a" "aaaa" 720 160, mkNode "b" "bbbb" 760 160, mkNode "c" "cccc" 300 190,
   mkNode "d" "dddd" 400 222]

/-- The node `m` is the node `n` pushed to the right: same data, same `y`, `x` not smaller. -/
def Pushed (n m : Node) : Prop := m = { n with x := m.x } ∧ n.x ≤ m.x

/-- Three root nodes in canvas mode: two overlapping nodes on one row and one further down. -/
def canvasInput : List Node :=
  [mkNode "a" "God" 100 160, mkNode "b" "shows" 120 170, mkNode "c" "love" 90 300]

/-- Steps 1 and 2 of the row loop on one row: sort by `x`, then apply the spacing. -/
def spaceRow (mode : Mode) (row : Row) : Row :=
  { row with nodes := applySpacing mode (row.nodes.insertionSort (fun a b => a.x ≤ b.x)) }

/-- The row that receives the overflowing nodes when the next row is close enough
(lines 263-280). -/
def mergedRow (windowWidth : ℚ) (mode : Mode) (nextRow : Row) (overflowNodes : List Node) : Row :=
  { nextRow with
    nodes := nextRow.nodes ++ overflowNodes.map (fun n =>
      { n with y := nextRow.y, x := startX windowWidth mode - 10000 + n.x }) }

/-- The row created for the overflowing nodes (lines 287-288 and 292-293). -/
def createdRow (windowWidth : ℚ) (mode : Mode) (nextY : ℚ) (overflowNodes : List Node) : Row :=
  { y := nextY,
    nodes := overflowNodes.map (fun n => { n with y := nextY, x := startX windowWidth mode }) }

/-- The part of a spaced row that stays in the row when it is split at index `k`. -/
def keptRow (mode : Mode) (row : Row) (k : Nat) : Row :=
  { row with nodes := (spaceRow mode row).nodes.take k }

/-- The edge gap between `a` and a node `b` to its right is exactly `minGap`. -/
def GapExact (mode : Mode) (a b : Node) : Prop :=
  leftEdge mode b - rightEdge mode a = (LAYOUT_CONFIG mode).minGap

/-- The edge gap between `a` and a node `b` to its right is at least `minGap`. -/
def GapAtLeast (mode : Mode) (a b : Node) : Prop :=
  leftEdge mode b - rightEdge mode a ≥ (LAYOUT_CONFIG mode).minGap

/-- A property of nodes that does not depend on the position of the node. -/
def PositionFree (P : Node → Prop) : Prop :=
  ∀ (n : Node) (x y : ℚ), P n → P { n with x := x, y := y }

/-- Three root nodes in book mode at a 1000 pixel wide viewport: `a` and `b` fall into
the row keyed 160, `c` at 175 opens its own row although it is one unit below `b`. -/
def nearRowsInput : List Node :=
  [mkNode "a" "aaaa" 300 160, mkNode "b" "bbbb" 400 174, mkNode "c" "cccc" 340 175]

/-- A property `Q y n` of a node `n` in a row with key `y` that survives a change of
the `x` of the node, and holds again when the node is moved into any row and given
the `y` of that row. -/
def RowStable (Q : ℚ → Node → Prop) : Prop :=
  (∀ (y : ℚ) (n : Node) (x : ℚ), Q y n → Q y { n with x := x }) ∧
  (∀ (y : ℚ) (n : Node) (y1 x : ℚ), Q y n → Q y1 { n with y := y1, x := x })

/-- Every node of every row has the property `Q` for the key of its row. -/
def RowsAll (Q : ℚ → Node → Prop) (rows : List Row) : Prop :=
  ∀ r ∈ rows, ∀ n ∈ r.nodes, Q r.y n

/-- The child relation of a forest on ids: some node with id `c` has `parentId = p`. -/
def ChildOf (nodes : List Node) (p c : String) : Prop :=
  ∃ n ∈ nodes, n.parentId = some p ∧ n.id = c

/-- The id `d` is a transitive descendant of the id `a` in the forest. -/
def DescendantOf (nodes : List Node) (a d : String) : Prop :=
  Relation.TransGen (ChildOf nodes) a d

/-- A set of ids is closed under the child relation of the forest. -/
def ChildClosed (nodes : List Node) (ids : List String) : Prop :=
  ∀ id ∈ ids, ∀ n ∈ nodes, n.parentId = some id → n.id ∈ ids

/-- The number of node ids of the forest that are not yet in the set `ids`. -/
def idsLeft (nodes : List Node) (ids : List String) : Nat :=
  ((nodes.map Node.id).toFinset \ ids.toFinset).card

/-- What one call `gatherDescendants(pId)` achieves, from the set `ids` to the set `res`. -/
def GatherSpec (nodes : List Node) (pId : String) (ids res : List String) : Prop :=
  ids ⊆ res ∧
  (∀ n ∈ nodes, n.parentId = some pId → n.id ∈ res) ∧
  (∀ id ∈ res, id ∉ ids →
    DescendantOf nodes pId id ∧ ∀ n ∈ nodes, n.parentId = some id → n.id ∈ res)

/-- A forest of five nodes: `we1`, `we2` are roots with the same word, `god` is a root,
`love` is nested under `we1` and `for` under `love`. -/
def nestedForest : List Node :=
  [mkNode "we1" "we" 300 160, mkNode "god" "God" 350 160, mkNode "we2" "We" 400 160,
   { mkNode "love" "love" 300 200 with parentId := some "we1", relation := some "what" },
   { mkNode "for" "for" 300 240 with parentId := some "love", relation := some "why" }]

/-- The application state in book mode holding `nestedForest`, nothing selected. -/
def nestedState : AppState := { AppState.initial with nodes := nestedForest }

/-- A 1000 by 800 viewport. -/
def sampleViewport : Viewport := { innerWidth := 1000, innerHeight := 800 }

/-- The state after a pointer-down of pointer 1 on the node `we1` of `nestedState`. -/
def nestedDown : AppState :=
  handlePointerDown nestedState { pointerId := 1, clientX := 300, clientY := 160 } (some "we1")

/-- The drag session of `nestedDown`. -/
def nestedDownDrag : DragState :=
  nestedDown.dragState.getD { type := .canvas, pointerId := 0, startX := 0, startY := 0 }

/-- The state after pointer 1 has then moved 10 units to the right. -/
def nestedMoved : AppState :=
  (handlePointerMove 10 sampleViewport nestedDown { pointerId := 1, clientX := 310, clientY := 160 }).getD
    nestedDown

/-- The forest edge condition on one node: `relation` is non-null exactly when
`parentId` is non-null. -/
def EdgeOK (n : Node) : Prop := n.relation ≠ none ↔ n.parentId ≠ none

/-- The forest edge invariant on a node list. -/
def ForestOK (nodes : List Node) : Prop := ∀ n ∈ nodes, EdgeOK n

/-- The states the application can reach from the initial load by user commands and
pointer events; the viewport and the fuel may differ from one event to the next. -/
inductive Reachable : AppState → Prop where
  | load (fuel : Nat) (vp : Viewport) (genId : Nat → String) (text : String) (s : AppState) :
      initialLoad fuel vp genId text = some s → Reachable s
  | passage (fuel : Nat) (vp : Viewport) (genId : Nat → String) (text : String)
      (s t : AppState) : Reachable s → loadPassage fuel vp genId s text = some t → Reachable t
  | pointerDown (s : AppState) (e : PointerEvt) (nodeId : Option String) :
      Reachable s → Reachable (handlePointerDown s e nodeId)
  | pointerMove (fuel : Nat) (vp : Viewport) (s t : AppState) (e : PointerEvt) :
      Reachable s → handlePointerMove fuel vp s e = some t → Reachable t
  | pointerUp (fuel : Nat) (vp : Viewport) (s t : AppState) (e : PointerEvt) :
      Reachable s → handlePointerUp fuel vp s e = some t → Reachable t
  | style (fuel : Nat) (vp : Viewport) (s t : AppState) (k : StyleKey) :
      Reachable s → toggleStyle fuel vp s k = some t → Reachable t
  | highlight (fuel : Nat) (vp : Viewport) (s t : AppState) (colorId : String) :
      Reachable s → setHighlight fuel vp s colorId = some t → Reachable t
  | fontSize (fuel : Nat) (vp : Viewport) (s t : AppState) (delta : ℚ) :
      Reachable s → changeFontSize fuel vp s delta = some t → Reachable t
  | clear (fuel : Nat) (vp : Viewport) (s t : AppState) :
      Reachable s → clearFormatting fuel vp s = some t → Reachable t
  | detach (fuel : Nat) (vp : Viewport) (s t : AppState) :
      Reachable s → detachNode fuel vp s = some t → Reachable t
  | viewMode (fuel : Nat) (vp : Viewport) (s t : AppState) :
      Reachable s → toggleViewMode fuel vp s = some t → Reachable t
  | undo (s : AppState) : Reachable s → Reachable (undo s)
  | redo (s : AppState) : Reachable s → Reachable (redo s)
  | multiSelect (s : AppState) :
      Reachable s → Reachable { s with multiSelectMode := !s.multiSelectMode }
  | connection (s : AppState) (c : ConnectionMode) :
      Reachable s → Reachable { s with connectionMode := c }
  | zoom (s : AppState) (scale offsetX offsetY : ℚ) :
      Reachable s → Reachable { s with scale := scale, offsetX := offsetX, offsetY := offsetY }

/-- The forest edge invariant on the live forest and on every history entry. -/
def StateOK (s : AppState) : Prop :=
  ForestOK s.nodes ∧ ∀ snapshot ∈ s.hist.history, ForestOK snapshot
/-- An id supply for examples: the ids `n0`, `n1`, ... of the first eight words. -/
def sampleIds (i : Nat) : String := ["n0", "n1", "n2", "n3", "n4", "n5", "n6", "n7"].getD i "n"

/-- The state after the initial load of the text `we We God`. -/
def cycleLoaded : AppState :=
  (initialLoad 10 sampleViewport sampleIds "we We God").getD AppState.initial

/-- The state after a switch to canvas mode. -/
def cycleCanvas : AppState := (toggleViewMode 10 sampleViewport cycleLoaded).getD cycleLoaded

/-- Pointer 1 goes down on `God` (`n2`). -/
def cycleDown1 : AppState :=
  handlePointerDown cycleCanvas { pointerId := 1, clientX := 479 / 2, clientY := 160 } (some "n2")

/-- Pointer 1 drags `God` by (10, 10): the second `We` (`n1`) becomes the hover target. -/
def cycleMove1 : AppState :=
  (handlePointerMove 10 sampleViewport cycleDown1
    { pointerId := 1, clientX := 499 / 2, clientY := 170 }).getD cycleDown1

/-- While pointer 1 is still down, pointer 2 goes down on the hover target `n1`. -/
def cycleDown2 : AppState :=
  handlePointerDown cycleMove1 { pointerId := 2, clientX := 178, clientY := 160 } (some "n1")

/-- Pointer 2 moves 10 units down: the same-word narrowing returns before the hover
target is recomputed. -/
def cycleMove2 : AppState :=
  (handlePointerMove 10 sampleViewport cycleDown2
    { pointerId := 2, clientX := 178, clientY := 170 }).getD cycleDown2

/-- Pointer 2 is released. -/
def cycleUp2 : AppState :=
  (handlePointerUp 10 sampleViewport cycleMove2
    { pointerId := 2, clientX := 178, clientY := 170 }).getD cycleMove2

/-- The state after a switch back to book mode, which finds cached book positions. -/
def cycleBack : AppState := (toggleViewMode 10 sampleViewport cycleCanvas).getD cycleCanvas

/-- The operation leading from `s` to `t` recorded the forest it installed: the history
of `t` is the result of one `saveToHistory` call with the live forest of `t`, whose last
entry is that forest, with the cursor on it. -/
def Recorded (s t : AppState) : Prop :=
  t.hist = saveToHistory s.hist t.nodes ∧
  t.hist.history.getLast? = some t.nodes ∧
  t.hist.historyIndex = (t.hist.history.length : Int) - 1

/-- The estimated width of a node as `calculateLayout` sees it (no style scale). -/
def tokenWidth (mode : Mode) (n : Node) : ℚ := estimateWidth n.text (isBook mode)

/-- Left edge of a node by its estimated width. -/
def tokenLeft (mode : Mode) (n : Node) : ℚ := n.x - tokenWidth mode n / 2

/-- Right edge of a node by its estimated width. -/
def tokenRight (mode : Mode) (n : Node) : ℚ := n.x + tokenWidth mode n / 2

/-- The width of a token sequence set on one line: the sum of the estimated widths plus
`wordSpacing` between consecutive tokens. -/
def lineWidth (mode : Mode) : List Node → ℚ
  | [] => 0
  | [n] => tokenWidth mode n
  | n :: m :: rest => tokenWidth mode n + (LAYOUT_CONFIG mode).wordSpacing + lineWidth mode (m :: rest)

/-- The six root nodes of the sentence `God shows his love for us` before layout. -/
def sentenceRaw : List Node := rawNodes sampleIds (jsSplitWhitespace "God shows his love for us")

/-- Ten tokens that do not fit on one book-mode line of a 1000 pixel wide viewport. -/
def longRaw : List Node :=
  rawNodes (fun _ => "n") (jsSplitWhitespace "Therefore, since we have been justified by faith, we have peace with God through our Lord Jesus Christ.")

/-- The left shift that `closeGaps` applies in book mode for the descriptor `item`: root
nodes of the vacated row that lie right of the gap move left by the gap size. -/
def shiftForGap (item : MovedItem) (node : Node) : Node :=
  if truthy node.parentId then node
  else if |node.y - item.oldY| < 15 ∧ node.x > item.oldX then
    { node with x := node.x - (estimateWidth item.text true + 6) }
  else node

/-- A book-mode forest after a drop: `shows` (formerly between `God` and `his` on the
row at 160) is nested under `love`, which is on the row at 208. -/
def threeRowForest : List Node :=
  [mkNode "g" "God" 100 160,
   { mkNode "s" "shows" 400 248 with parentId := some "l", relation := some "what" },
   mkNode "h" "his" 200 160, mkNode "l" "love" 400 208]

/-- The descriptor of the vacated slot of `shows` in `threeRowForest`. -/
def showsSlot : MovedItem :=
  { id := "s", text := "shows", oldX := 150, oldY := 160, wasRoot := true }

/-- The value `firstWordNorm` of `handlePointerDown` (lines 697-698): the normalized text
of the primary node, or the empty string when there is no primary. -/
def firstWordNormOf (s : AppState) : String :=
  match s.selection.head? with
  | some primaryId => if primaryId ≠ "" then normOfId s.nodes primaryId else ""
  | none => ""

/-- The test `hasMultipleWords` of `handlePointerDown` (line 699) for the selection with
the clicked node pushed. -/
def hasMultipleWordsOf (s : AppState) (nodeId : String) : Bool :=
  ((s.selection ++ [nodeId]).map (normOfId s.nodes)).dedup.length > 1

/-- Three root nodes `love God love` with the first two selected. -/
def loveGodLove : AppState :=
  { AppState.initial with
    nodes := [mkNode "love1" "love" 100 160, mkNode "god1" "God" 150 160,
              mkNode "love2" "love" 200 160],
    selection := ["love1", "god1"] }

/-- Three root nodes `love God God` with the first two selected. -/
def loveGodGod : AppState :=
  { AppState.initial with
    nodes := [mkNode "love1" "love" 100 160, mkNode "god1" "God" 150 160,
              mkNode "god2" "God" 200 160],
    selection := ["love1", "god1"] }

/-- Four root nodes of which three read `love` up to case and punctuation; nothing selected. -/
def threeLoves : AppState :=
  { AppState.initial with
    nodes := [mkNode "a" "Love," 100 160, mkNode "b" "God" 150 160, mkNode "c" "love" 200 160,
              mkNode "d" "LOVE" 250 160] }

/-- The vertical offset of the snap position below the target (line 866). -/
def snapGap (mode : Mode) : ℚ := if mode = .book then 40 else 120

/-- The nodes `selectedMoving` of a drop commit (line 871). -/
def selectedMovingOf (d : DragState) (nodes : List Node) (selection : List String) : List Node :=
  nodes.filter (fun n => decide (n.id ∈ d.idsToMove) && decide (n.id ∈ selection))

/-- What the nesting step of a drop commit does to the node `n`, giving `m`. -/
def NestedAs (d : DragState) (idsToNest : List String) (hoverTarget satelliteHover : String)
    (snapX snapY : ℚ) (n m : Node) : Prop :=
  (n.id ∈ d.idsToMove → n.id ∈ idsToNest →
    m = { n with parentId := some hoverTarget, relation := some satelliteHover,
                 x := snapX, y := snapY }) ∧
  (n.id ∈ d.idsToMove → n.id ∉ idsToNest →
    ∀ p, lookupPos d.initialPositions n.id = some p → m = { n with x := p.1, y := p.2 }) ∧
  (n.id ∉ d.idsToMove → m = n)

/-- A book-mode state in the middle of a drag of `love` (`n3`) of the sentence
`God shows his love for us`: the node has been moved onto `God` (`n0`), which is the
hover target, with the pending relation `when`. -/
def sentenceDragged : AppState :=
  { AppState.initial with
    nodes := (calculateLayout 1000 sentenceRaw .book).map (fun n =>
      if n.id = "n3" then { n with x := 967 / 4, y := 170 } else n),
    selection := ["n3"],
    dragState := some
      { type := .node, pointerId := 1, startX := 773 / 2, startY := 160, mainNodeId := "n3",
        idsToMove := ["n3"], initialPositions := [("n3", 773 / 2, 160)], hasMoved := true },
    hoverTarget := some "n0",
    satelliteHover := some "when",
    hist := { history := [calculateLayout 1000 sentenceRaw .book], historyIndex := 0 } }

/-- The drag session of `sentenceDragged`. -/
def sentenceDrag : DragState :=
  { type := .node, pointerId := 1, startX := 773 / 2, startY := 160, mainNodeId := "n3",
    idsToMove := ["n3"], initialPositions := [("n3", 773 / 2, 160)], hasMoved := true }

/-- What the same-word narrowing does to the node `n`, giving `m` (lines 771-781): a node
of the old moving set outside the narrowed set gets its recorded start position, a node
of the narrowed set its recorded start position plus the displacement, and a node with
no recorded position or outside both sets is unchanged. -/
def NarrowedAs (d : DragState) (narrowedIds : List String) (dx dy : ℚ) (n m : Node) : Prop :=
  (n.id ∈ d.idsToMove → n.id ∉ narrowedIds → ∀ p, lookupPos d.initialPositions n.id = some p →
    m = { n with x := p.1, y := p.2 }) ∧
  (n.id ∈ narrowedIds → ∀ p, lookupPos d.initialPositions n.id = some p →
    m = { n with x := p.1 + dx, y := p.2 + dy }) ∧
  (n.id ∉ d.idsToMove → n.id ∉ narrowedIds → m = n) ∧
  (lookupPos d.initialPositions n.id = none → m = n)

/-- Three root nodes `love God Love`, nothing selected. -/
def twoLoves : AppState :=
  { AppState.initial with
    nodes := [mkNode "love1" "love" 100 160, mkNode "god1" "God" 150 160,
              mkNode "love2" "Love" 200 160] }

/-- The state after a click (pointer-down, pointer-up) on `love1` in `twoLoves`. -/
def twoLovesClicked : Option AppState :=
  handlePointerUp 10 sampleViewport
    (handlePointerDown twoLoves { pointerId := 1, clientX := 100, clientY := 160 } (some "love1"))
    { pointerId := 1, clientX := 100, clientY := 160 }

/-- The state after a following pointer-down on the selected node `love2`. -/
def twoLovesPressed : Option AppState :=
  twoLovesClicked.map (fun s =>
    handlePointerDown s { pointerId := 2, clientX := 200, clientY := 160 } (some "love2"))

/-- The state after the pointer then moves 10 units to the right. -/
def twoLovesDragged : Option AppState :=
  twoLovesPressed.bind (fun s =>
    handlePointerMove 10 sampleViewport s { pointerId := 2, clientX := 210, clientY := 160 })

/-- A rank on the ids of `nestedForest` that decreases from parent to child. -/
def nestedRank (id : String) : Nat :=
  if id = "we1" then 2 else if id = "love" then 1 else 0

/-- Two consecutive nodes of one settled book-mode line: the same `y`, `b` right of `a`
with an edge gap of exactly `minGap`, both inside the right edge of the text column. -/
def SameLine (windowWidth : ℚ) (a b : Node) : Prop :=
  b.y = a.y ∧ a.x ≤ b.x ∧
  b.x = rightEdge .book a + (LAYOUT_CONFIG .book).minGap + halfWidth .book b ∧
  rightEdge .book a ≤ maxRightEdge windowWidth .book ∧
  rightEdge .book b ≤ maxRightEdge windowWidth .book

/-- Two consecutive nodes of a settled book-mode node list: on one line, or the second
lower by at least `rowTolerance`. -/
def LineStep (windowWidth : ℚ) (a b : Node) : Prop :=
  SameLine windowWidth a b ∨ a.y + (LAYOUT_CONFIG .book).rowTolerance ≤ b.y

/-- A settled book-mode row: not empty, every node at the `y` of the row, consecutive
nodes as in `SameLine`. -/
def SettledRow (windowWidth : ℚ) (r : Row) : Prop :=
  r.nodes ≠ [] ∧ (∀ n ∈ r.nodes, n.y = r.y) ∧ List.Chain' (SameLine windowWidth) r.nodes

/-- The callback of the bucketing `forEach` of `resolveOverlaps` in book mode. -/
def bucketStep (rows : List Row) (node : Node) : List Row :=
  match findRowKey .book rows node.y with
  | some key => rowPush rows key node
  | none => rowPush rows node.y node

/-- The state after the initial load of the sentence `God shows his love for us`. -/
def sentenceLoaded : Option AppState :=
  initialLoad 10 sampleViewport sampleIds "God shows his love for us"

/-- The state after a switch to canvas mode, for which no positions are cached. -/
def sentenceCanvas : Option AppState :=
  sentenceLoaded.bind (toggleViewMode 10 sampleViewport)

/-- The state after the same sentence is loaded again while in canvas mode. -/
def sentenceReloaded : Option AppState :=
  sentenceCanvas.bind (fun s =>
    loadPassage 10 sampleViewport sampleIds s "God shows his love for us")

/-- The forest in which the node with id `id` has been carried to `(x, y)` by a drag of
that node alone. -/
def draggedTo (nodes : List Node) (id : String) (x y : ℚ) : List Node :=
  nodes.map (fun n => if n.id = id then { n with x := x, y := y } else n)

/-- The root nodes of a forest, in forest order. -/
def rootsOf (nodes : List Node) : List Node := nodes.filter (fun n => !truthy n.parentId)

/-- The left shift by the slot of the node `d` that `closeGaps` applies in book mode. -/
def shiftLeftBy (d : Node) (n : Node) : Node :=
  { n with x := n.x - (estimateWidth d.text true + 6) }

/-- The candidates `potentialTargets` of `handlePointerMove`, sorted by their distance to
the lead node (lines 821-828). -/
def hoverCandidates (s : AppState) (idsToMove : List String) (nextNodes : List Node)
    (mainNode : Node) : List Node :=
  (nextNodes.filter (fun n =>
    !(s.connectionMode = .hidden && truthy n.parentId) && !decide (n.id ∈ idsToMove)
      && decide (sqDist n mainNode < 120 * 120))).insertionSort
    (fun a b => sqDist a mainNode ≤ sqDist b mainNode)

/-- The horizontal pointer displacement since the start of the drag session `ds`. -/
def dragDx (s : AppState) (ds : DragState) (e : PointerEvt) : ℚ :=
  (getCanvasCoordinates s e).1 - ds.startX

/-- The vertical pointer displacement since the start of the drag session `ds`. -/
def dragDy (s : AppState) (ds : DragState) (e : PointerEvt) : ℚ :=
  (getCanvasCoordinates s e).2 - ds.startY

/-- The state after the initial load of `God shows his love for us` at a viewport of
1000 by 800. -/
def sentenceState : AppState := sentenceLoaded.getD AppState.initial

/-- Pointer 1 goes down on `love` (`n3`). -/
def dropDown : AppState :=
  handlePointerDown sentenceState { pointerId := 1, clientX := 773 / 2, clientY := 160 } (some "n3")

/-- The pointer leaves the dead-zone: `love` follows it 50 units to the left. -/
def dropMove1 : AppState :=
  (handlePointerMove 10 sampleViewport dropDown
    { pointerId := 1, clientX := 673 / 2, clientY := 165 }).getD dropDown

/-- The pointer reaches the third of the six zones of `God` (`n0`). -/
def dropMove2 : AppState :=
  (handlePointerMove 10 sampleViewport dropMove1
    { pointerId := 1, clientX := 240, clientY := 170 }).getD dropMove1

/-- The pointer is released. -/
def dropUp : AppState :=
  (handlePointerUp 10 sampleViewport dropMove2
    { pointerId := 1, clientX := 240, clientY := 170 }).getD dropMove2

/-- The drag session of `dropMove1`. -/
def dropDrag : DragState :=
  dropMove1.dragState.getD { type := .canvas, pointerId := 0, startX := 0, startY := 0 }

/-- The zone index of the relation zones as the specification words it: the floor of
`6 * (p - (x - w / 2)) / w`, clamped to the range 0..5, for a target centred at `x` with
width `w` and a pointer at `p`. -/
def specZone (x w p : ℚ) : Int := max 0 (min 5 ⌊6 * (p - (x - w / 2)) / w⌋)

/-- A run of pointer-move events, one handler call after the other. -/
def runMoves (fuel : Nat) (vp : Viewport) : AppState → List PointerEvt → Option AppState
  | s, [] => some s
  | s, e :: es => (handlePointerMove fuel vp s e).bind (fun t => runMoves fuel vp t es)

/-- A complete pointer session that starts on the empty canvas: the pointer-down `e0` not
on a node, the pointer-moves `moves`, the pointer-up `eUp`. -/
def panSession (fuel : Nat) (vp : Viewport) (s : AppState) (e0 : PointerEvt)
    (moves : List PointerEvt) (eUp : PointerEvt) : Option AppState :=
  (runMoves fuel vp (handlePointerDown s e0 none) moves).bind
    (fun t => handlePointerUp fuel vp t eUp)

/-- The offset after the pointer-moves `moves` of a canvas-pan that started at the offset
`start` with the pointer-down `e0`: every move of the pointer of `e0` sets the offset to
`start` plus the displacement of the pointer since `e0`, other moves leave it. -/
def panOffset (start : ℚ × ℚ) (e0 : PointerEvt) (moves : List PointerEvt) : ℚ × ℚ :=
  moves.foldl
    (fun off m =>
      if m.pointerId = e0.pointerId then
        (start.1 + (m.clientX - e0.clientX), start.2 + (m.clientY - e0.clientY))
      else off)
    start

/-- The state of `dropUp` (selection `n3`) switched to canvas mode. -/
def canvasSelected : AppState := (toggleViewMode 10 sampleViewport dropUp).getD dropUp

/-- While pointer 1 is dragging `love` in `dropMove1`, pointer 2 goes down on `us` (`n5`). -/
def stolenDown : AppState :=
  handlePointerDown dropMove1 { pointerId := 2, clientX := 831 / 2, clientY := 160 } (some "n5")

/-- The maximal runs of non-whitespace characters of a character sequence, in order, as
the specification words the tokens; `cur` is the run being read. -/
def wordRuns : List Char → List Char → List String
  | cur, [] => if cur = [] then [] else [String.mk cur]
  | cur, c :: cs =>
    if isJsSpace c then
      if cur = [] then wordRuns [] cs else String.mk cur :: wordRuns [] cs
    else wordRuns (cur ++ [c]) cs

/-- Whether a character sequence starts with a whitespace character. -/
def startsInGap (cs : List Char) : Bool :=
  match cs.head? with
  | some c => isJsSpace c
  | none => false

/-- Whether a character sequence ends with a whitespace character. -/
def endsInGap (cs : List Char) : Bool :=
  match cs.getLast? with
  | some c => isJsSpace c
  | none => false

/-- After the drop of `dropUp` (`love` nested under `God`), pointer 1 goes down on `us`
(`n5`). -/
def secondDown : AppState :=
  handlePointerDown dropUp { pointerId := 1, clientX := 831 / 2, clientY := 160 } (some "n5")

/-- The pointer drags `us` into the third zone of `his` (`n2`). -/
def secondMove : AppState :=
  (handlePointerMove 10 sampleViewport secondDown
    { pointerId := 1, clientX := 340, clientY := 170 }).getD secondDown

/-- The drag session of `secondMove`. -/
def secondDrag : DragState :=
  secondMove.dragState.getD { type := .canvas, pointerId := 0, startX := 0, startY := 0 }

/-- The forest that the drop commit of `secondMove` passes to `updateNodes`: `us` nested
under `his` at the snap position, gaps closed. -/
def secondDropInput : List Node :=
  closeGaps
    (nestNodes secondDrag secondMove.nodes
      (idsToNestOf secondDrag secondMove.nodes secondMove.selection) "n2" "when" (1367 / 4)
      (160 + 40))
    (movedRootsOf secondDrag secondMove.nodes
      (idsToNestOf secondDrag secondMove.nodes secondMove.selection))
    .book

/-- The pointer is released. -/
def secondUp : AppState :=
  (handlePointerUp 10 sampleViewport secondMove
    { pointerId := 1, clientX := 340, clientY := 170 }).getD secondMove

/-- The reference definition of gap closing for one descriptor, as the specification
words it: a descriptor not flagged `wasRoot` changes nothing; otherwise `x` is reduced by
the estimated width of the descriptor's text plus `wordSpacing` for exactly the nodes
without parent within `rowTolerance` of the old `y` and right of the old `x`, then, only if
no node without parent is within `rowTolerance` of the old `y`, `y` is reduced by
`lineHeight` for exactly the nodes without parent below the old `y`; a node with a parent
is returned unchanged. -/
def closeGapsRef (mode : Mode) (nodes : List Node) (item : MovedItem) : List Node :=
  if item.wasRoot = false then nodes
  else
    let gapSize := estimateWidth item.text (isBook mode) + (LAYOUT_CONFIG mode).wordSpacing
    let rowEmpty : Bool := decide (∀ n ∈ nodes,
      ¬ (n.parentId = none ∧ |n.y - item.oldY| < (LAYOUT_CONFIG mode).rowTolerance))
    nodes.map (fun n =>
      if n.parentId ≠ none then n
      else
        let shifted : Node :=
          if |n.y - item.oldY| < (LAYOUT_CONFIG mode).rowTolerance ∧ n.x > item.oldX then
            { n with x := n.x - gapSize }
          else n
        if rowEmpty = true ∧ n.y > item.oldY then
          { shifted with y := n.y - (LAYOUT_CONFIG mode).lineHeight }
        else shifted)

/-- A book-mode forest in which the only root of the row 160 has just been nested: `God`
is nested under `love` of the row 208, `his` is a root of the row 256. -/
def lastOfRowForest : List Node :=
  [{ mkNode "g" "God" 400 248 with parentId := some "l", relation := some "who" },
   mkNode "l" "love" 400 208, mkNode "h" "his" 300 256]

/-- The descriptor of the vacated slot of `God` in `lastOfRowForest`. -/
def godSlot : MovedItem := { id := "g", text := "God", oldX := 300, oldY := 160, wasRoot := true }

/-- A node without its position: `x` and `y` set to 0, every other field kept. -/
def unplaced (n : Node) : Node := { n with x := 0, y := 0 }
/-- The state after the initial load, at a viewport of 1000 by 800, of eight words that
fill one book-mode line up to 4 units and start a second one. -/
def twoLineState : AppState :=
  (initialLoad 10 sampleViewport sampleIds
    "Therefore, justified reconciled, sufferings, hope for endurance ungodly").getD AppState.initial

/-- The first word (`n0`) is selected by a pointer-down on it. -/
def twoLineSelected : AppState :=
  handlePointerDown twoLineState { pointerId := 1, clientX := 557 / 2, clientY := 160 } (some "n0")

/-- The forest that `changeFontSize(0.1)` passes to `updateNodes`: the scale of `n0` is
raised to 1.1. -/
def enlargedInput : List Node :=
  twoLineSelected.nodes.map (fun n =>
    if n.id ∈ twoLineSelected.selection then
      { n with styles := { n.styles with scale := max (1 / 2) (scaleOr1 n + 1 / 10) } }
    else n)

/-- The state after the font size of the selection is raised by one step. -/
def twoLineEnlarged : AppState :=
  (changeFontSize 10 sampleViewport twoLineSelected (1 / 10)).getD twoLineSelected

/-- The state after the initial load of `love God Love` at a viewport of 1000 by 800. -/
def leadLoaded : AppState :=
  (initialLoad 10 sampleViewport sampleIds "love God Love").getD AppState.initial

/-- A click on `love` (`n0`), which selects both occurrences of the word. -/
def leadClick1 : AppState :=
  (handlePointerUp 10 sampleViewport
    (handlePointerDown leadLoaded { pointerId := 1, clientX := 247, clientY := 160 } (some "n0"))
    { pointerId := 1, clientX := 247, clientY := 160 }).getD leadLoaded

/-- A click with the shift key on `God` (`n1`). -/
def leadClick2 : AppState :=
  (handlePointerUp 10 sampleViewport
    (handlePointerDown leadClick1
      { pointerId := 1, clientX := 1167 / 4, clientY := 160, shiftKey := true } (some "n1"))
    { pointerId := 1, clientX := 1167 / 4, clientY := 160, shiftKey := true }).getD leadClick1

/-- A pointer-down with the shift key on the second `Love` (`n2`). -/
def leadDown : AppState :=
  handlePointerDown leadClick2
    { pointerId := 1, clientX := 1345 / 4, clientY := 160, shiftKey := true } (some "n2")

/-- The drag session of `leadDown`. -/
def leadDrag : DragState :=
  leadDown.dragState.getD { type := .canvas, pointerId := 0, startX := 0, startY := 0 }

/-- Three tokens of which the second, `reconciled,`, is wider (117.5) than the book-mode
text column of a 200 pixel wide viewport (110). -/
def wideTokenRaw : List Node := rawNodes sampleIds (jsSplitWhitespace "we reconciled, us")

/-! # Theorems -/

/-! ## History -/

theorem sliceTo_length {α : Type} (l : List α) : sliceTo l ((l.length : Int) - 1 + 1) = l := by
  unfold sliceTo
  have h : ¬ ((l.length : Int) - 1 + 1 < 0) := by omega
  simp [h]

theorem recordAll_append (h : History) (a : List (List Node)) (s : List Node) :
    recordAll h (a ++ [s]) = saveToHistory (recordAll h a) s := by
  simp [recordAll, List.foldl_append]

theorem recordAll_empty_spec (snaps : List (List Node)) :
    (recordAll History.empty snaps).history = snaps.drop (snaps.length - 20) ∧
    (recordAll History.empty snaps).historyIndex = ((snaps.drop (snaps.length - 20)).length : Int) - 1 := by
  induction snaps using List.reverseRecOn with
  | nil => simp [recordAll, History.empty]
  | append_singleton l s ih =>
    obtain ⟨ih1, ih2⟩ := ih
    rw [recordAll_append]
    have hs : sliceTo (recordAll History.empty l).history ((recordAll History.empty l).historyIndex + 1)
        = l.drop (l.length - 20) := by
      rw [ih2, ih1]; exact sliceTo_length _
    have key : (saveToHistory (recordAll History.empty l) s).history
        = (l ++ [s]).drop ((l ++ [s]).length - 20) := by
      simp only [saveToHistory, hs, List.length_append, List.length_drop, List.length_singleton]
      by_cases h : l.length < 20
      · have h1 : l.length - 20 = 0 := by omega
        have h2 : l.length + 1 - 20 = 0 := by omega
        have h3 : ¬ (l.length - (l.length - 20) + 1 > 20) := by omega
        simp [h1, h2]
        intro h'; omega
      · have h3 : l.length - (l.length - 20) + 1 > 20 := by omega
        have h4 : l.length + 1 - 20 = (l.length - 20) + 1 := by omega
        have h5 : l.length - 20 ≤ l.length := by omega
        simp only [h3, if_true, h4]
        rw [← List.drop_one, ← List.drop_append_of_le_length h5, List.drop_drop]
    refine ⟨key, ?_⟩
    simp only [saveToHistory] at key ⊢
    rw [key]

theorem undo_iterate (k : Nat) :
    ∀ s : AppState, (k : Int) ≤ s.hist.historyIndex →
      s.hist.historyIndex < s.hist.history.length →
      (undo^[k] s).hist.history = s.hist.history ∧
      (undo^[k] s).hist.historyIndex = s.hist.historyIndex - k ∧
      (0 < k → (undo^[k] s).nodes = (s.hist.history[(s.hist.historyIndex - k).toNat]?).getD []) := by
  induction k with
  | zero => intro s _ _; simp
  | succ k ih =>
    intro s hk hlt
    have hpos : s.hist.historyIndex > 0 := by omega
    have hidx : (s.hist.historyIndex - 1).toNat < s.hist.history.length := by omega
    obtain ⟨snap, hsnap⟩ : ∃ snap, s.hist.history[(s.hist.historyIndex - 1).toNat]? = some snap :=
      ⟨_, List.getElem?_eq_getElem hidx⟩
    obtain ⟨t, ht, htn, hth, hti⟩ : ∃ t : AppState, undo s = t ∧ t.nodes = snap ∧
        t.hist.history = s.hist.history ∧ t.hist.historyIndex = s.hist.historyIndex - 1 := by
      refine ⟨_, rfl, ?_, ?_, ?_⟩ <;> simp only [undo, if_pos hpos, hsnap]
    rw [Function.iterate_succ_apply, ht]
    obtain ⟨a, b, c⟩ := ih t (by rw [hti]; omega) (by rw [hti, hth]; omega)
    refine ⟨by rw [a, hth], by rw [b, hti]; omega, ?_⟩
    intro _
    rcases Nat.eq_zero_or_pos k with h0 | h0
    · subst h0
      simp only [Function.iterate_zero, id, htn, hsnap, Nat.cast_zero, zero_add, Nat.cast_one, Option.getD_some]
    · rw [c h0, hth, hti]
      congr 3
      omega

/-- C8: History bound. Starting from the empty history, after recording the snapshots
`snaps` one after the other the history holds exactly the last `min n 20` of them in
recording order and the cursor is on the last entry, which is the last snapshot
recorded; after 25 records the entries are the 20 snapshots from the sixth on, and
19 undos make the sixth snapshot, the first retained one, the live forest. -/
theorem history_bound (snaps : List (List Node)) :
    (recordAll History.empty snaps).history = snaps.drop (snaps.length - 20) ∧
    (recordAll History.empty snaps).history.length = min snaps.length 20 ∧
    (recordAll History.empty snaps).historyIndex = (min snaps.length 20 : Nat) - 1 ∧
    (∀ last, snaps.getLast? = some last →
      (recordAll History.empty snaps).history[
        (recordAll History.empty snaps).historyIndex.toNat]? = some last) ∧
    (snaps.length = 25 → ∀ s : AppState, s.hist = recordAll History.empty snaps →
      (recordAll History.empty snaps).history = snaps.drop 5 ∧
      (recordAll History.empty snaps).history.length = 20 ∧
      some (undo^[19] s).nodes = snaps[5]? ∧
      (undo^[19] s).hist.historyIndex = 0) := by
  obtain ⟨h1, h2⟩ := recordAll_empty_spec snaps
  have hlen : (snaps.drop (snaps.length - 20)).length = min snaps.length 20 := by
    simp [List.length_drop]; omega
  refine ⟨h1, by rw [h1, hlen], by rw [h2, hlen], ?_, ?_⟩
  · intro last hlast
    rw [h2, h1]
    have hne : snaps ≠ [] := by rintro rfl; simp at hlast
    have hpos : 0 < snaps.length := List.length_pos.mpr hne
    have hdl : (List.drop (snaps.length - 20) snaps).length = min snaps.length 20 := hlen
    have e1 : ((((List.drop (snaps.length - 20) snaps).length : Nat) : Int) - 1).toNat
        = min snaps.length 20 - 1 := by rw [hdl]; omega
    rw [e1, List.getElem?_drop]
    have e2 : snaps.length - 20 + (min snaps.length 20 - 1) = snaps.length - 1 := by omega
    rw [e2, List.getLast?_eq_getElem?] at *
    simpa using hlast
  · intro h25 s hs
    have e5 : snaps.length - 20 = 5 := by omega
    rw [e5] at h1
    have hl20 : (recordAll History.empty snaps).history.length = 20 := by
      rw [h1, List.length_drop]; omega
    have hidx : (recordAll History.empty snaps).historyIndex = 19 := by
      rw [h2, hlen]; omega
    obtain ⟨_, b, c⟩ := undo_iterate 19 s (by rw [hs, hidx]; norm_num) (by rw [hs, hidx, hl20]; norm_num)
    refine ⟨h1, hl20, ?_, ?_⟩
    · rw [c (by norm_num), hs, hidx, h1]
      have : 5 < snaps.length := by omega
      simp [List.getElem?_drop, List.getElem?_eq_getElem this]
    · rw [b, hs, hidx]; norm_num

/-- Instance of `history_bound`: 25 distinct records leave the 20 snapshots from the sixth
on, and 19 undos bring back the sixth. -/
theorem history_bound_witness :
    sampleSnapshots.length = 25 ∧
    (recordAll History.empty sampleSnapshots).history = sampleSnapshots.drop 5 ∧
    (recordAll History.empty sampleSnapshots).history.length = 20 ∧
    (undo^[19] { AppState.initial with hist := recordAll History.empty sampleSnapshots }).nodes
      = sampleSnapshot 5 := by
  have h := (history_bound sampleSnapshots).2.2.2.2 (by decide)
    { AppState.initial with hist := recordAll History.empty sampleSnapshots } rfl
  refine ⟨by decide, h.1, h.2.1, ?_⟩
  have h5 : sampleSnapshots[5]? = some (sampleSnapshot 5) := by decide
  exact Option.some.inj (h.2.2.1.trans h5)

/-- C9: Recording discards the redo branch. For a history with cursor `i` in range,
`saveToHistory` yields the old entries `0..i` followed by the new snapshot, with the
oldest entry dropped when that makes more than 20, and puts the cursor on the new
snapshot; a redo right after the record changes nothing (forest, entries, cursor). -/
theorem record_discards_redo (s : AppState) (snap : List Node)
    (h0 : 0 ≤ s.hist.historyIndex) (h1 : s.hist.historyIndex < s.hist.history.length) :
    (saveToHistory s.hist snap).history =
      (if (s.hist.history.take (s.hist.historyIndex.toNat + 1) ++ [snap]).length > 20
        then (s.hist.history.take (s.hist.historyIndex.toNat + 1) ++ [snap]).tail
        else s.hist.history.take (s.hist.historyIndex.toNat + 1) ++ [snap]) ∧
    (saveToHistory s.hist snap).history.getLast? = some snap ∧
    (saveToHistory s.hist snap).historyIndex = ((saveToHistory s.hist snap).history.length : Int) - 1 ∧
    (saveToHistory s.hist snap).history[(saveToHistory s.hist snap).historyIndex.toNat]? = some snap ∧
    redo { s with nodes := snap, hist := saveToHistory s.hist snap }
      = { s with nodes := snap, hist := saveToHistory s.hist snap } := by
  have hs : sliceTo s.hist.history (s.hist.historyIndex + 1)
      = s.hist.history.take (s.hist.historyIndex.toNat + 1) := by
    unfold sliceTo
    have : ¬ (s.hist.historyIndex + 1 < 0) := by omega
    rw [if_neg this]
    congr 1
    omega
  have hlast : ∀ l : List (List Node), l ≠ [] →
      (if (l ++ [snap]).length > 20 then (l ++ [snap]).tail else l ++ [snap]).getLast? = some snap := by
    intro l hl
    split
    · obtain ⟨a, l', rfl⟩ := List.exists_cons_of_ne_nil hl
      simp
    · simp
  have hne : s.hist.history.take (s.hist.historyIndex.toNat + 1) ≠ [] := by
    intro h
    rcases List.take_eq_nil_iff.mp h with h | h
    · omega
    · rw [h] at h1
      simp at h1
      omega
  have e1 : (saveToHistory s.hist snap).history =
      (if (s.hist.history.take (s.hist.historyIndex.toNat + 1) ++ [snap]).length > 20
        then (s.hist.history.take (s.hist.historyIndex.toNat + 1) ++ [snap]).tail
        else s.hist.history.take (s.hist.historyIndex.toNat + 1) ++ [snap]) := by
    simp only [saveToHistory, hs]
  have e2 : (saveToHistory s.hist snap).historyIndex
      = ((saveToHistory s.hist snap).history.length : Int) - 1 := by
    simp only [saveToHistory]
  have e3 : (saveToHistory s.hist snap).history.getLast? = some snap := by
    rw [e1]; exact hlast _ hne
  refine ⟨e1, e3, e2, ?_, ?_⟩
  · rw [e2, ← e3, List.getLast?_eq_getElem?]
    congr 1
    omega
  · have : ¬ ((saveToHistory s.hist snap).historyIndex
        < ((saveToHistory s.hist snap).history.length : Int) - 1) := by rw [e2]; omega
    simp only [redo, if_neg this]

/-- Instance of `record_discards_redo`: a record at cursor 0 of a two-entry history. -/
theorem record_discards_redo_witness :
    (saveToHistory { history := [sampleSnapshot 0, sampleSnapshot 1], historyIndex := 0 }
        (sampleSnapshot 2)).history = [sampleSnapshot 0, sampleSnapshot 2] ∧
    redo { AppState.initial with
            nodes := sampleSnapshot 2,
            hist := saveToHistory { history := [sampleSnapshot 0, sampleSnapshot 1], historyIndex := 0 }
              (sampleSnapshot 2) }
      = { AppState.initial with
            nodes := sampleSnapshot 2,
            hist := saveToHistory { history := [sampleSnapshot 0, sampleSnapshot 1], historyIndex := 0 }
              (sampleSnapshot 2) } := by
  have h := record_discards_redo
    { AppState.initial with hist := { history := [sampleSnapshot 0, sampleSnapshot 1], historyIndex := 0 } }
    (sampleSnapshot 2) (by decide) (by decide)
  exact ⟨h.1.trans (by decide!), h.2.2.2.2⟩

theorem estimateWidth_reconciled : estimateWidth "reconciled," true = 235 / 2 := by decide!

theorem estimateWidth_us : estimateWidth "us" true = 23 := by decide!

theorem initialRows_wideRowInput :
    initialRows .book wideRowInput
      = [{ y := 160, nodes := [mkScaled "w" "reconciled," 4 100 160, mkNode "b" "us" 300 160] }] := by
  decide!

theorem processRow_wideRowInput :
    processRow 360 .book
        { y := 160, nodes := [mkScaled "w" "reconciled," 4 100 160, mkNode "b" "us" 300 160] } []
      = ({ y := 160, nodes := [] }, [wideRowAt 208]) := by
  decide!

theorem maxRightEdge_360 : maxRightEdge 360 .book = 279 := by decide!

theorem startX_360 : startX 360 .book = 81 := by decide!

theorem processRow_wideRowAt (y : ℚ) :
    processRow 360 .book (wideRowAt y) [] = ({ y := y, nodes := [] }, [wideRowAt (y + 48)]) := by
  norm_num [processRow, wideRowAt, List.insertionSort, List.orderedInsert, applySpacing, spaceFrom,
    isBook, rightEdge, leftEdge, halfWidth, scaleOr1, maxRightEdge_360, startX_360, splitIndex, LAYOUT_CONFIG,
    mkScaled, mkNode, defaultStyles, estimateWidth_reconciled, estimateWidth_us, List.findIdx_cons]

theorem resolveLoop_wideRowAt (fuel : Nat) :
    ∀ y : ℚ, resolveLoop 360 .book fuel [wideRowAt y] = none := by
  induction fuel with
  | zero => intro y; rfl
  | succ fuel ih =>
    intro y
    simp only [resolveLoop, processRow_wideRowAt, ih]

/-- C3 (failing input): on `wideRowInput`, a book-mode row of two nodes whose first node
alone is wider than twice the text column, `resolveOverlaps` never returns: whatever the
fuel, the row loop is still creating rows when the fuel runs out. -/
theorem resolveOverlaps_wideRow_diverges (fuel : Nat) :
    resolveOverlaps fuel 360 wideRowInput .book = none := by
  simp only [resolveOverlaps, resolveRows, initialRows_wideRowInput]
  cases fuel with
  | zero => rfl
  | succ fuel =>
    simp only [resolveLoop, processRow_wideRowInput, resolveLoop_wideRowAt, Option.map_none']

/-- C1 (failing input): on `closeRowsInput` the first pass of `resolveOverlaps` moves the
overflowing node `b` to a new row at 208 that it inserts before the existing row at 190;
the second pass puts the rows in order of `y` and packs `d` after `b`, so the result of
the second pass differs from the result of the first in order and in the `x` of `d`. -/
theorem resolveOverlaps_not_idempotent :
    resolveOverlaps 10 1000 closeRowsInput .book
      = some [mkNode "a" "aaaa" 720 160, mkNode "b" "bbbb" 225 208, mkNode "c" "cccc" 300 190,
              mkNode "d" "dddd" 400 222] ∧
    resolveOverlaps 10 1000
        [mkNode "a" "aaaa" 720 160, mkNode "b" "bbbb" 225 208, mkNode "c" "cccc" 300 190,
         mkNode "d" "dddd" 400 222] .book
      = some [mkNode "a" "aaaa" 720 160, mkNode "c" "cccc" 300 190, mkNode "b" "bbbb" 225 208,
              mkNode "d" "dddd" 275 222] := by
  constructor <;> decide!

/-! ## Overlap resolver: canvas mode -/

theorem rowPush_perm (rows : List Row) (key : ℚ) (node : Node) :
    ((rowPush rows key node).flatMap Row.nodes).Perm (node :: rows.flatMap Row.nodes) := by
  induction rows with
  | nil => simp [rowPush]
  | cons r rest ih =>
    unfold rowPush
    split
    · simp only [List.flatMap_cons, List.append_assoc]
      refine (List.perm_append_comm_assoc _ _ _).trans ?_
      simp
    · simp only [List.flatMap_cons]
      refine (List.Perm.append_left _ ih).trans ?_
      exact List.perm_middle

theorem bucketRows_foldl_perm (mode : Mode) (l : List Node) :
    ∀ rows : List Row,
      ((l.foldl
        (fun rows node =>
          match findRowKey mode rows node.y with
          | some key => rowPush rows key node
          | none => rowPush rows node.y node)
        rows).flatMap Row.nodes).Perm (rows.flatMap Row.nodes ++ l) := by
  induction l with
  | nil => intro rows; simp
  | cons n l ih =>
    intro rows
    simp only [List.foldl_cons]
    refine (ih _).trans ?_
    have h : ∀ key, ((rowPush rows key n).flatMap Row.nodes ++ l).Perm
        (rows.flatMap Row.nodes ++ n :: l) := by
      intro key
      refine (List.Perm.append_right _ (rowPush_perm rows key n)).trans ?_
      simpa using List.perm_middle.symm
    split
    · exact h _
    · exact h _

theorem initialRows_perm (mode : Mode) (nodes : List Node) :
    ((initialRows mode nodes).flatMap Row.nodes).Perm nodes := by
  unfold initialRows bucketRows
  refine (List.Perm.flatMap_right _ (List.perm_insertionSort _ _)).trans ?_
  refine (bucketRows_foldl_perm mode _ []).trans ?_
  simpa using List.perm_insertionSort _ nodes

theorem spaceFrom_canvas_pushed (l : List Node) :
    ∀ current : Node, List.Forall₂ Pushed l (spaceFrom .canvas current l) := by
  induction l with
  | nil => intro _; exact List.Forall₂.nil
  | cons next rest ih =>
    intro current
    simp only [spaceFrom]
    refine List.Forall₂.cons ?_ (ih _)
    simp only [isBook]
    split
    · simp at *
    · split
      · rename_i h
        constructor
        · rfl
        · show next.x ≤ next.x + _
          linarith
      · exact ⟨rfl, le_refl _⟩

theorem applySpacing_canvas_pushed (l : List Node) :
    List.Forall₂ Pushed l (applySpacing .canvas l) := by
  cases l with
  | nil => exact List.Forall₂.nil
  | cons first rest =>
    exact List.Forall₂.cons ⟨rfl, le_refl _⟩ (spaceFrom_canvas_pushed rest first)

theorem processRow_canvas (windowWidth : ℚ) (row : Row) (rest : List Row) :
    processRow windowWidth .canvas row rest
      = (spaceRow .canvas row, rest) := by
  unfold processRow spaceRow
  simp only [isBook]
  split
  · rfl
  · simp

theorem resolveLoop_canvas (windowWidth : ℚ) (fuel : Nat) :
    ∀ rows : List Row, rows.length ≤ fuel →
      resolveLoop windowWidth .canvas fuel rows
        = some (rows.map (spaceRow .canvas)) := by
  induction fuel with
  | zero =>
    intro rows h
    have : rows = [] := List.length_eq_zero.mp (Nat.le_zero.mp h)
    subst this
    rfl
  | succ fuel ih =>
    intro rows h
    cases rows with
    | nil => rfl
    | cons row rest =>
      simp only [resolveLoop, processRow_canvas]
      rw [ih rest (by simpa using h)]
      rfl

theorem Pushed.id_eq {n m : Node} (h : Pushed n m) : m.id = n.id := by
  rw [h.1]

theorem Pushed.y_eq {n m : Node} (h : Pushed n m) : m.y = n.y := by
  rw [h.1]

theorem forall₂_pushed_mem_left {l out : List Node} (h : List.Forall₂ Pushed l out) :
    ∀ n ∈ l, ∃ m ∈ out, Pushed n m := by
  induction h with
  | nil => intro n hn; simp at hn
  | cons hab _ ih =>
    intro n hn
    rcases List.mem_cons.mp hn with rfl | hn
    · exact ⟨_, List.mem_cons_self _ _, hab⟩
    · obtain ⟨m, hm, hp⟩ := ih n hn
      exact ⟨m, List.mem_cons_of_mem _ hm, hp⟩

theorem forall₂_pushed_mem_right {l out : List Node} (h : List.Forall₂ Pushed l out) :
    ∀ m ∈ out, ∃ n ∈ l, Pushed n m := by
  induction h with
  | nil => intro n hn; simp at hn
  | cons hab _ ih =>
    intro m hm
    rcases List.mem_cons.mp hm with rfl | hm
    · exact ⟨_, List.mem_cons_self _ _, hab⟩
    · obtain ⟨n, hn, hp⟩ := ih m hm
      exact ⟨n, List.mem_cons_of_mem _ hn, hp⟩

theorem spaceRows_canvas_pushed (rows : List Row) :
    ∃ l : List Node, l.Perm (rows.flatMap Row.nodes) ∧
      List.Forall₂ Pushed l ((rows.map (spaceRow .canvas)).flatMap Row.nodes) := by
  induction rows with
  | nil => exact ⟨[], by simp, by simp⟩
  | cons row rest ih =>
    obtain ⟨l, hl, hf⟩ := ih
    refine ⟨row.nodes.insertionSort (fun a b => a.x ≤ b.x) ++ l, ?_, ?_⟩
    · simp only [List.flatMap_cons]
      exact List.Perm.append (List.perm_insertionSort _ _) hl
    · simp only [List.map_cons, List.flatMap_cons, spaceRow]
      exact List.rel_append (applySpacing_canvas_pushed _) hf

theorem rowPush_nonempty (rows : List Row) (key : ℚ) (node : Node)
    (h : ∀ r ∈ rows, r.nodes ≠ []) : ∀ r ∈ rowPush rows key node, r.nodes ≠ [] := by
  induction rows with
  | nil => intro r hr; simp [rowPush] at hr; subst hr; simp
  | cons r0 rest ih =>
    intro r hr
    unfold rowPush at hr
    split at hr
    · rcases List.mem_cons.mp hr with rfl | hr
      · simp
      · exact h r (List.mem_cons_of_mem _ hr)
    · rcases List.mem_cons.mp hr with rfl | hr
      · exact h _ (List.mem_cons_self _ _)
      · exact ih (fun r hr => h r (List.mem_cons_of_mem _ hr)) r hr

theorem bucketRows_foldl_nonempty (mode : Mode) (l : List Node) :
    ∀ rows : List Row, (∀ r ∈ rows, r.nodes ≠ []) →
      ∀ r ∈ l.foldl
        (fun rows node =>
          match findRowKey mode rows node.y with
          | some key => rowPush rows key node
          | none => rowPush rows node.y node)
        rows, r.nodes ≠ [] := by
  induction l with
  | nil => intro rows h; simpa using h
  | cons n l ih =>
    intro rows h
    simp only [List.foldl_cons]
    apply ih
    split
    · exact rowPush_nonempty rows _ n h
    · exact rowPush_nonempty rows _ n h

theorem length_le_flatMap_of_nonempty (rows : List Row) (h : ∀ r ∈ rows, r.nodes ≠ []) :
    rows.length ≤ (rows.flatMap Row.nodes).length := by
  induction rows with
  | nil => simp
  | cons r rest ih =>
    have h1 : 0 < r.nodes.length := List.length_pos.mpr (h r (List.mem_cons_self _ _))
    have h2 := ih (fun r hr => h r (List.mem_cons_of_mem _ hr))
    simp only [List.flatMap_cons, List.length_cons, List.length_append]
    omega

theorem initialRows_length_le (mode : Mode) (nodes : List Node) :
    (initialRows mode nodes).length ≤ nodes.length := by
  have h1 : ∀ r ∈ initialRows mode nodes, r.nodes ≠ [] := by
    intro r hr
    unfold initialRows at hr
    rw [List.mem_insertionSort] at hr
    exact bucketRows_foldl_nonempty mode _ [] (by simp) r hr
  have h2 := length_le_flatMap_of_nonempty _ h1
  rw [(initialRows_perm mode nodes).length_eq] at h2
  exact h2

/-- C4: In canvas mode `resolveOverlaps` is non-destructive. With fuel for one loop
iteration per node it returns a list of the same length in which every input node
occurs with the same id and `y` and an `x` that is not smaller, and every output node
comes from such an input node; when the ids are distinct, the output node with the id
of an input node has exactly its `y` and an `x` greater than or equal to its `x`. -/
theorem canvas_non_destructive (fuel : Nat) (windowWidth : ℚ) (nodes : List Node)
    (hfuel : nodes.length ≤ fuel) :
    ∃ out, resolveOverlaps fuel windowWidth nodes .canvas = some out ∧
      out.length = nodes.length ∧
      (∀ n ∈ nodes, ∃ m ∈ out, m.id = n.id ∧ m.y = n.y ∧ n.x ≤ m.x) ∧
      (∀ m ∈ out, ∃ n ∈ nodes, m.id = n.id ∧ m.y = n.y ∧ n.x ≤ m.x) ∧
      ((nodes.map Node.id).Nodup →
        ∀ n ∈ nodes, ∀ m ∈ out, m.id = n.id → m.y = n.y ∧ n.x ≤ m.x) := by
  obtain ⟨l, hl, hf⟩ := spaceRows_canvas_pushed (initialRows .canvas nodes)
  have hperm : l.Perm nodes := hl.trans (initialRows_perm .canvas nodes)
  refine ⟨((initialRows .canvas nodes).map (spaceRow .canvas)).flatMap Row.nodes, ?_, ?_, ?_, ?_, ?_⟩
  · simp only [resolveOverlaps, resolveRows]
    rw [resolveLoop_canvas windowWidth fuel _
      (le_trans (initialRows_length_le .canvas nodes) hfuel)]
    rfl
  · rw [← hf.length_eq, hperm.length_eq]
  · intro n hn
    obtain ⟨m, hm, hp⟩ := forall₂_pushed_mem_left hf n (hperm.mem_iff.mpr hn)
    exact ⟨m, hm, hp.id_eq, hp.y_eq, hp.2⟩
  · intro m hm
    obtain ⟨n, hn, hp⟩ := forall₂_pushed_mem_right hf m hm
    exact ⟨n, hperm.mem_iff.mp hn, hp.id_eq, hp.y_eq, hp.2⟩
  · intro hnd n hn m hm hid
    obtain ⟨n', hn', hp⟩ := forall₂_pushed_mem_right hf m hm
    have hn'' : n' ∈ nodes := hperm.mem_iff.mp hn'
    have : n' = n := List.inj_on_of_nodup_map hnd hn'' hn (hp.id_eq.symm.trans hid)
    subst this
    exact ⟨hp.y_eq, hp.2⟩

/-- Instance of `canvas_non_destructive` on `canvasInput`: the overlapping node `b` is
pushed right and nothing else moves. -/
theorem canvas_non_destructive_witness :
    resolveOverlaps 3 1000 canvasInput .canvas
      = some [mkNode "a" "God" 100 160, mkNode "b" "shows" 185 170, mkNode "c" "love" 90 300] ∧
    ∃ out, resolveOverlaps 3 1000 canvasInput .canvas = some out ∧
      out.length = canvasInput.length ∧
      (∀ n ∈ canvasInput, ∃ m ∈ out, m.id = n.id ∧ m.y = n.y ∧ n.x ≤ m.x) ∧
      (∀ m ∈ out, ∃ n ∈ canvasInput, m.id = n.id ∧ m.y = n.y ∧ n.x ≤ m.x) ∧
      ((canvasInput.map Node.id).Nodup →
        ∀ n ∈ canvasInput, ∀ m ∈ out, m.id = n.id → m.y = n.y ∧ n.x ≤ m.x) :=
  ⟨by decide!, canvas_non_destructive 3 1000 canvasInput (by decide)⟩

/-! ## Overlap resolver: structure of one loop iteration -/

theorem processRow_cases (windowWidth : ℚ) (mode : Mode) (row : Row) (rest : List Row) :
    processRow windowWidth mode row rest = (spaceRow mode row, rest) ∨
    ∃ k, isBook mode = true ∧
      ((∃ nextRow rest1, rest = nextRow :: rest1 ∧
          |nextRow.y - (row.y + (LAYOUT_CONFIG mode).lineHeight)| < (LAYOUT_CONFIG mode).rowTolerance ∧
          processRow windowWidth mode row rest
            = (keptRow mode row k,
                mergedRow windowWidth mode nextRow ((spaceRow mode row).nodes.drop k) :: rest1)) ∨
       processRow windowWidth mode row rest
          = (keptRow mode row k,
              createdRow windowWidth mode (row.y + (LAYOUT_CONFIG mode).lineHeight)
                ((spaceRow mode row).nodes.drop k) :: rest)) := by
  unfold processRow
  simp only [spaceRow, keptRow, mergedRow, createdRow]
  split
  · exact Or.inl rfl
  · split
    · rename_i h
      split
      · exact Or.inl rfl
      · split
        · exact Or.inl rfl
        · split
          · split
            · rename_i htol
              exact Or.inr ⟨_, by simpa using h.1, Or.inl ⟨_, _, rfl, htol, rfl⟩⟩
            · exact Or.inr ⟨_, by simpa using h.1, Or.inr rfl⟩
          · exact Or.inr ⟨_, by simpa using h.1, Or.inr rfl⟩
    · exact Or.inl rfl

theorem spaceFrom_respaced (mode : Mode) (l : List Node) :
    ∀ current : Node,
      List.Forall₂ (fun n m : Node => m = { n with x := m.x }) l (spaceFrom mode current l) := by
  induction l with
  | nil => intro _; exact List.Forall₂.nil
  | cons next rest ih =>
    intro current
    simp only [spaceFrom]
    refine List.Forall₂.cons ?_ (ih _)
    split
    · rfl
    · split <;> rfl

theorem applySpacing_respaced (mode : Mode) (l : List Node) :
    List.Forall₂ (fun n m : Node => m = { n with x := m.x }) l (applySpacing mode l) := by
  cases l with
  | nil => exact List.Forall₂.nil
  | cons first rest => exact List.Forall₂.cons rfl (spaceFrom_respaced mode rest first)

theorem mem_spaceRow (mode : Mode) (row : Row) (m : Node) (hm : m ∈ (spaceRow mode row).nodes) :
    ∃ n ∈ row.nodes, m = { n with x := m.x } := by
  have h := applySpacing_respaced mode (row.nodes.insertionSort (fun a b => a.x ≤ b.x))
  have key : ∀ {l out : List Node},
      List.Forall₂ (fun n m : Node => m = { n with x := m.x }) l out →
      ∀ m ∈ out, ∃ n ∈ l, m = { n with x := m.x } := by
    intro l out h
    induction h with
    | nil => intro m hm; simp at hm
    | cons hab _ ih =>
      intro m hm
      rcases List.mem_cons.mp hm with rfl | hm
      · exact ⟨_, List.mem_cons_self _ _, hab⟩
      · obtain ⟨n, hn, hp⟩ := ih m hm
        exact ⟨n, List.mem_cons_of_mem _ hn, hp⟩
  obtain ⟨n, hn, hp⟩ := key h m hm
  exact ⟨n, (List.mem_insertionSort _).mp hn, hp⟩

theorem spaceRow_stable {Q : ℚ → Node → Prop} (hQ : RowStable Q) (mode : Mode) (row : Row)
    (h : ∀ n ∈ row.nodes, Q row.y n) : ∀ m ∈ (spaceRow mode row).nodes, Q row.y m := by
  intro m hm
  obtain ⟨n, hn, hp⟩ := mem_spaceRow mode row m hm
  rw [hp]
  exact hQ.1 _ _ _ (h n hn)

theorem processRow_stable {Q : ℚ → Node → Prop} (hQ : RowStable Q) (windowWidth : ℚ)
    (mode : Mode) (row : Row) (rest : List Row)
    (hrow : ∀ n ∈ row.nodes, Q row.y n) (hrest : RowsAll Q rest) :
    (∀ n ∈ (processRow windowWidth mode row rest).1.nodes,
        Q (processRow windowWidth mode row rest).1.y n) ∧
      RowsAll Q (processRow windowWidth mode row rest).2 := by
  have hsp := spaceRow_stable hQ mode row hrow
  have hkept : ∀ k, ∀ n ∈ (keptRow mode row k).nodes, Q (keptRow mode row k).y n := by
    intro k n hn
    exact hsp n (List.mem_of_mem_take hn)
  have hcreated : ∀ k y1, ∀ n ∈ (createdRow windowWidth mode y1
      ((spaceRow mode row).nodes.drop k)).nodes, Q y1 n := by
    intro k y1 n hn
    simp only [createdRow, List.mem_map] at hn
    obtain ⟨n0, hn0, rfl⟩ := hn
    exact hQ.2 _ _ _ _ (hsp n0 (List.mem_of_mem_drop hn0))
  rcases processRow_cases windowWidth mode row rest with h | ⟨k, _, h | h⟩
  · rw [h]
    exact ⟨hsp, hrest⟩
  · obtain ⟨nextRow, rest1, hr, _, h⟩ := h
    rw [h]
    subst hr
    refine ⟨hkept k, ?_⟩
    intro r hr n hn
    rcases List.mem_cons.mp hr with rfl | hr
    · simp only [mergedRow, List.mem_append, List.mem_map] at hn
      rcases hn with hn | ⟨n0, hn0, rfl⟩
      · exact hrest nextRow (List.mem_cons_self _ _) n hn
      · exact hQ.2 _ _ _ _ (hsp n0 (List.mem_of_mem_drop hn0))
    · exact hrest r (List.mem_cons_of_mem _ hr) n hn
  · rw [h]
    refine ⟨hkept k, ?_⟩
    intro r hr n hn
    rcases List.mem_cons.mp hr with rfl | hr
    · exact hcreated k _ n hn
    · exact hrest r hr n hn

theorem resolveLoop_stable {Q : ℚ → Node → Prop} (hQ : RowStable Q) (windowWidth : ℚ)
    (mode : Mode) (fuel : Nat) :
    ∀ rows out : List Row, RowsAll Q rows →
      resolveLoop windowWidth mode fuel rows = some out → RowsAll Q out := by
  induction fuel with
  | zero =>
    intro rows out hrows h
    cases rows with
    | nil => simp only [resolveLoop, Option.some.injEq] at h; subst h; exact hrows
    | cons row rest => simp [resolveLoop] at h
  | succ fuel ih =>
    intro rows out hrows h
    cases rows with
    | nil => simp only [resolveLoop, Option.some.injEq] at h; subst h; exact hrows
    | cons row rest =>
      simp only [resolveLoop] at h
      obtain ⟨h1, h2⟩ := processRow_stable hQ windowWidth mode row rest
        (hrows row (List.mem_cons_self _ _)) (fun r hr => hrows r (List.mem_cons_of_mem _ hr))
      split at h
      · rename_i done hdone
        simp only [Option.some.injEq] at h
        subst h
        intro r hr
        rcases List.mem_cons.mp hr with rfl | hr
        · exact h1
        · exact ih _ _ h2 hdone r hr
      · simp at h

/-! ## Overlap resolver: invariants of the rows -/

theorem positionFree_rowStable {P : Node → Prop} (hP : PositionFree P) :
    RowStable (fun _ n => P n) :=
  ⟨fun _ n x h => hP n x n.y h, fun _ n y1 x h => hP n x y1 h⟩

theorem rowTolerance_pos (mode : Mode) : 0 < (LAYOUT_CONFIG mode).rowTolerance := by
  cases mode <;> simp [LAYOUT_CONFIG]

theorem tolerance_rowStable (mode : Mode) :
    RowStable (fun y n => |y - n.y| < (LAYOUT_CONFIG mode).rowTolerance) := by
  refine ⟨fun _ _ _ h => h, fun _ _ y1 _ _ => ?_⟩
  simpa using rowTolerance_pos mode

theorem rowPush_rowsAll {Q : ℚ → Node → Prop} (rows : List Row) (key : ℚ) (node : Node)
    (h : RowsAll Q rows) (hn : Q key node) : RowsAll Q (rowPush rows key node) := by
  induction rows with
  | nil =>
    intro r hr n hm
    simp only [rowPush, List.mem_singleton] at hr
    subst hr
    simp only [List.mem_singleton] at hm
    subst hm
    exact hn
  | cons r0 rest ih =>
    intro r hr n hm
    unfold rowPush at hr
    split at hr
    · rename_i hkey
      rcases List.mem_cons.mp hr with rfl | hr
      · simp only [List.mem_append, List.mem_singleton] at hm
        rcases hm with hm | rfl
        · exact h r0 (List.mem_cons_self _ _) n hm
        · exact hkey ▸ hn
      · exact h r (List.mem_cons_of_mem _ hr) n hm
    · rcases List.mem_cons.mp hr with rfl | hr
      · exact h _ (List.mem_cons_self _ _) n hm
      · exact ih (fun r hr => h r (List.mem_cons_of_mem _ hr)) r hr n hm

theorem bucketRows_tolerance (mode : Mode) (l : List Node) :
    ∀ rows : List Row,
      RowsAll (fun y n => |y - n.y| < (LAYOUT_CONFIG mode).rowTolerance) rows →
      RowsAll (fun y n => |y - n.y| < (LAYOUT_CONFIG mode).rowTolerance)
        (l.foldl
          (fun rows node =>
            match findRowKey mode rows node.y with
            | some key => rowPush rows key node
            | none => rowPush rows node.y node)
          rows) := by
  induction l with
  | nil => intro rows h; exact h
  | cons n l ih =>
    intro rows h
    simp only [List.foldl_cons]
    apply ih
    split
    · rename_i key hkey
      apply rowPush_rowsAll rows key n h
      have := List.find?_some hkey
      simpa using this
    · apply rowPush_rowsAll rows n.y n h
      simpa using rowTolerance_pos mode

theorem initialRows_tolerance (mode : Mode) (nodes : List Node) :
    RowsAll (fun y n => |y - n.y| < (LAYOUT_CONFIG mode).rowTolerance) (initialRows mode nodes) := by
  intro r hr
  unfold initialRows at hr
  rw [List.mem_insertionSort] at hr
  exact bucketRows_tolerance mode _ [] (fun r hr => by simp at hr) r hr

theorem initialRows_mem (mode : Mode) (nodes : List Node) :
    ∀ r ∈ initialRows mode nodes, ∀ n ∈ r.nodes, n ∈ nodes := by
  intro r hr n hn
  exact (initialRows_perm mode nodes).mem_iff.mp (List.mem_flatMap.mpr ⟨r, hr, hn⟩)

/-- A position-free property of all input nodes holds for all nodes of the final rows. -/
theorem resolveRows_positionFree {P : Node → Prop} (hP : PositionFree P) (fuel : Nat)
    (windowWidth : ℚ) (nodes : List Node) (mode : Mode) (rows : List Row)
    (hin : ∀ n ∈ nodes, P n) (h : resolveRows fuel windowWidth nodes mode = some rows) :
    ∀ r ∈ rows, ∀ n ∈ r.nodes, P n :=
  resolveLoop_stable (positionFree_rowStable hP) windowWidth mode fuel _ rows
    (fun r hr n hn => hin n (initialRows_mem mode nodes r hr n hn)) h

/-- A position-free property of all input nodes holds for all nodes of the result. -/
theorem resolveOverlaps_positionFree {P : Node → Prop} (hP : PositionFree P) (fuel : Nat)
    (windowWidth : ℚ) (nodes : List Node) (mode : Mode) (out : List Node)
    (hin : ∀ n ∈ nodes, P n) (h : resolveOverlaps fuel windowWidth nodes mode = some out) :
    ∀ n ∈ out, P n := by
  simp only [resolveOverlaps, Option.map_eq_some'] at h
  obtain ⟨rows, hrows, rfl⟩ := h
  intro n hn
  obtain ⟨r, hr, hnr⟩ := List.mem_flatMap.mp hn
  exact resolveRows_positionFree hP fuel windowWidth nodes mode rows hin hrows r hr n hnr

theorem spaceFrom_book_chain (l : List Node) :
    ∀ current : Node, List.Chain (GapExact .book) current (spaceFrom .book current l) := by
  induction l with
  | nil => intro _; exact List.Chain.nil
  | cons next rest ih =>
    intro current
    simp only [spaceFrom]
    refine List.Chain.cons ?_ (ih _)
    simp only [isBook, decide_True, if_true, GapExact, leftEdge, halfWidth, scaleOr1]
    ring

theorem spaceRow_book_chain (row : Row) : List.Chain' (GapExact .book) (spaceRow .book row).nodes := by
  simp only [spaceRow]
  cases row.nodes.insertionSort (fun a b => a.x ≤ b.x) with
  | nil => exact List.chain'_nil
  | cons first rest => exact spaceFrom_book_chain rest first

theorem processRow_book_chain (windowWidth : ℚ) (row : Row) (rest : List Row) :
    List.Chain' (GapExact .book) (processRow windowWidth .book row rest).1.nodes := by
  rcases processRow_cases windowWidth .book row rest with h | ⟨k, _, h | h⟩
  · rw [h]; exact spaceRow_book_chain row
  · obtain ⟨_, _, _, _, h⟩ := h
    rw [h]; exact (spaceRow_book_chain row).take k
  · rw [h]; exact (spaceRow_book_chain row).take k

theorem resolveLoop_book_chain (windowWidth : ℚ) (fuel : Nat) :
    ∀ rows out : List Row, resolveLoop windowWidth .book fuel rows = some out →
      ∀ r ∈ out, List.Chain' (GapExact .book) r.nodes := by
  induction fuel with
  | zero =>
    intro rows out h
    cases rows with
    | nil => simp only [resolveLoop, Option.some.injEq] at h; subst h; simp
    | cons row rest => simp [resolveLoop] at h
  | succ fuel ih =>
    intro rows out h
    cases rows with
    | nil => simp only [resolveLoop, Option.some.injEq] at h; subst h; simp
    | cons row rest =>
      simp only [resolveLoop] at h
      split at h
      · rename_i done hdone
        simp only [Option.some.injEq] at h
        subst h
        intro r hr
        rcases List.mem_cons.mp hr with rfl | hr
        · exact processRow_book_chain windowWidth row rest
        · exact ih _ _ hdone r hr
      · simp at h

theorem estimateWidth_nonneg (text : String) (b : Bool) : 0 ≤ estimateWidth text b := by
  unfold estimateWidth
  have : (0 : ℚ) ≤ (jsLength text : ℚ) := Nat.cast_nonneg _
  cases b <;> simp <;> positivity

theorem halfWidth_nonneg (mode : Mode) (n : Node) (h : 0 ≤ n.styles.scale) :
    0 ≤ halfWidth mode n := by
  unfold halfWidth scaleOr1
  have := estimateWidth_nonneg n.text (isBook mode)
  split <;> positivity

theorem chain_gapAtLeast (l : List Node) :
    ∀ a : Node, List.Chain (GapExact .book) a l → (∀ n ∈ l, 0 ≤ halfWidth .book n) →
      ∀ b ∈ l, GapAtLeast .book a b := by
  induction l with
  | nil => intro a _ _ b hb; simp at hb
  | cons c rest ih =>
    intro a hc hw b hb
    obtain ⟨hac, hrest⟩ := List.chain_cons.mp hc
    rcases List.mem_cons.mp hb with rfl | hb
    · exact ge_of_eq hac
    · have hcb := ih c hrest (fun n hn => hw n (List.mem_cons_of_mem _ hn)) b hb
      have hwc := hw c (List.mem_cons_self _ _)
      simp only [GapExact, GapAtLeast, leftEdge, rightEdge, LAYOUT_CONFIG] at *
      linarith

theorem chain'_gapAtLeast (l : List Node) (hc : List.Chain' (GapExact .book) l)
    (hw : ∀ n ∈ l, 0 ≤ halfWidth .book n) : List.Pairwise (GapAtLeast .book) l := by
  induction l with
  | nil => exact List.Pairwise.nil
  | cons a rest ih =>
    refine List.Pairwise.cons ?_ (ih (List.Chain'.tail hc) (fun n hn => hw n (List.mem_cons_of_mem _ hn)))
    exact chain_gapAtLeast rest a hc (fun n hn => hw n (List.mem_cons_of_mem _ hn))

/-- C2 (counterexample): on `nearRowsInput` the nodes `b` and `c` of the result are
distinct root nodes whose `y` differ by 1, less than `rowTolerance`, yet the left edge
of `b`, the one further right, is 34 units left of the right edge of `c`: they overlap. -/
theorem book_row_invariant_fails :
    resolveOverlaps 10 1000 nearRowsInput .book
      = some [mkNode "a" "aaaa" 300 160, mkNode "b" "bbbb" 350 174, mkNode "c" "cccc" 340 175] ∧
    (mkNode "b" "bbbb" 350 174).parentId = none ∧ (mkNode "c" "cccc" 340 175).parentId = none ∧
    |(mkNode "b" "bbbb" 350 174).y - (mkNode "c" "cccc" 340 175).y| < 15 ∧
    (mkNode "c" "cccc" 340 175).x ≤ (mkNode "b" "bbbb" 350 174).x ∧
    leftEdge .book (mkNode "b" "bbbb" 350 174) - rightEdge .book (mkNode "c" "cccc" 340 175) = -34 := by
  refine ⟨by decide!, rfl, rfl, by decide!, by decide!, by decide!⟩

/-- C2 (amended): whenever `resolveOverlaps(nodes, 'book')` returns, its result is the
concatenation of the final rows, every node of a final row has its `y` within
`rowTolerance = 15` of the key of the row, consecutive nodes of a final row have an edge
gap of exactly `minGap = 6`, and when no node has a negative scale any two distinct
nodes of one final row keep an edge gap of at least 6. -/
theorem book_rows_keep_min_gap (fuel : Nat) (windowWidth : ℚ) (nodes : List Node)
    (rows : List Row) (h : resolveRows fuel windowWidth nodes .book = some rows) :
    resolveOverlaps fuel windowWidth nodes .book = some (rows.flatMap Row.nodes) ∧
    (∀ r ∈ rows, ∀ n ∈ r.nodes, |r.y - n.y| < 15) ∧
    (∀ r ∈ rows,
      List.Chain' (fun a b => leftEdge .book b - rightEdge .book a = 6) r.nodes) ∧
    ((∀ n ∈ nodes, 0 ≤ n.styles.scale) → ∀ r ∈ rows,
      List.Pairwise (fun a b => leftEdge .book b - rightEdge .book a ≥ 6) r.nodes) := by
  refine ⟨by simp [resolveOverlaps, h], ?_, ?_, ?_⟩
  · exact resolveLoop_stable (tolerance_rowStable .book) windowWidth .book fuel _ rows
      (initialRows_tolerance .book nodes) h
  · exact resolveLoop_book_chain windowWidth fuel _ rows h
  · intro hs r hr
    have hscale : ∀ n ∈ r.nodes, 0 ≤ n.styles.scale :=
      resolveRows_positionFree (P := fun n => 0 ≤ n.styles.scale) (fun _ _ _ h => h)
        fuel windowWidth nodes .book rows hs h r hr
    exact chain'_gapAtLeast r.nodes (resolveLoop_book_chain windowWidth fuel _ rows h r hr)
      (fun n hn => halfWidth_nonneg .book n (hscale n hn))

/-- Instance of `book_rows_keep_min_gap` on `nearRowsInput`: the final rows are the row
keyed 160 with `a` and `b` packed 6 apart, and the row keyed 175 with `c`. -/
theorem book_rows_keep_min_gap_witness :
    resolveRows 10 1000 nearRowsInput .book
      = some [{ y := 160, nodes := [mkNode "a" "aaaa" 300 160, mkNode "b" "bbbb" 350 174] },
              { y := 175, nodes := [mkNode "c" "cccc" 340 175] }] ∧
    (∀ r ∈ [({ y := 160, nodes := [mkNode "a" "aaaa" 300 160, mkNode "b" "bbbb" 350 174] } : Row),
              { y := 175, nodes := [mkNode "c" "cccc" 340 175] }],
      List.Pairwise (fun a b => leftEdge .book b - rightEdge .book a ≥ 6) r.nodes) :=
  ⟨by decide!,
   (book_rows_keep_min_gap 10 1000 nearRowsInput _ (by decide!)).2.2.2 (by decide!)⟩

/-! ## Moving set of a drag -/

theorem mem_dedupKeepFirst (l : List String) (a : String) : a ∈ dedupKeepFirst l ↔ a ∈ l := by
  induction l with
  | nil => simp [dedupKeepFirst]
  | cons b l ih =>
    simp only [dedupKeepFirst, List.mem_cons, List.mem_filter, ih, decide_eq_true_eq]
    constructor
    · rintro (h | ⟨h, _⟩)
      · exact Or.inl h
      · exact Or.inr h
    · intro h
      by_cases hab : a = b
      · exact Or.inl hab
      · rcases h with h | h
        · exact Or.inl h
        · exact Or.inr ⟨h, hab⟩

theorem idsLeft_mono (nodes : List Node) {ids ids1 : List String} (h : ids ⊆ ids1) :
    idsLeft nodes ids1 ≤ idsLeft nodes ids := by
  unfold idsLeft
  apply Finset.card_le_card
  intro x hx
  simp only [Finset.mem_sdiff, List.mem_toFinset] at hx ⊢
  exact ⟨hx.1, fun hc => hx.2 (h hc)⟩

theorem idsLeft_lt (nodes : List Node) (ids : List String) (n : Node) (hn : n ∈ nodes)
    (hid : n.id ∉ ids) : idsLeft nodes (ids ++ [n.id]) < idsLeft nodes ids := by
  unfold idsLeft
  apply Finset.card_lt_card
  rw [Finset.ssubset_iff_of_subset]
  · refine ⟨n.id, ?_, ?_⟩
    · simp only [Finset.mem_sdiff, List.mem_toFinset, List.mem_map]
      exact ⟨⟨n, hn, rfl⟩, hid⟩
    · simp
  · intro x hx
    simp only [Finset.mem_sdiff, List.mem_toFinset, List.mem_append, List.mem_singleton] at hx ⊢
    exact ⟨hx.1, fun hc => hx.2 (Or.inl hc)⟩

theorem idsLeft_le_length (nodes : List Node) (ids : List String) :
    idsLeft nodes ids ≤ nodes.length := by
  unfold idsLeft
  calc ((nodes.map Node.id).toFinset \ ids.toFinset).card
      ≤ (nodes.map Node.id).toFinset.card := Finset.card_le_card Finset.sdiff_subset
    _ ≤ (nodes.map Node.id).length := List.toFinset_card_le _
    _ = nodes.length := List.length_map _ _

theorem gather_fold_spec (nodes : List Node) (fuel : Nat) (pId : String)
    (ih : ∀ (p : String) (ids : List String), idsLeft nodes ids < fuel →
      GatherSpec nodes p ids (gatherDescendants nodes fuel p ids))
    (l : List Node) :
    (∀ n ∈ l, n ∈ nodes) → ∀ ids : List String, idsLeft nodes ids ≤ fuel →
      ids ⊆ l.foldl
        (fun ids n =>
          if n.parentId = some pId ∧ n.id ∉ ids then
            gatherDescendants nodes fuel n.id (ids ++ [n.id])
          else ids) ids ∧
      (∀ n ∈ l, n.parentId = some pId → n.id ∈ l.foldl
        (fun ids n =>
          if n.parentId = some pId ∧ n.id ∉ ids then
            gatherDescendants nodes fuel n.id (ids ++ [n.id])
          else ids) ids) ∧
      (∀ id ∈ l.foldl
        (fun ids n =>
          if n.parentId = some pId ∧ n.id ∉ ids then
            gatherDescendants nodes fuel n.id (ids ++ [n.id])
          else ids) ids, id ∉ ids →
        DescendantOf nodes pId id ∧ ∀ n ∈ nodes, n.parentId = some id → n.id ∈ l.foldl
          (fun ids n =>
            if n.parentId = some pId ∧ n.id ∉ ids then
              gatherDescendants nodes fuel n.id (ids ++ [n.id])
            else ids) ids) := by
  induction l with
  | nil =>
    intro _ ids _
    refine ⟨fun _ h => h, fun n hn => by simp at hn, fun id hid hnot => absurd hid hnot⟩
  | cons n l ihl =>
    intro hl ids hfuel
    have hn : n ∈ nodes := hl n (List.mem_cons_self _ _)
    have hl1 : ∀ m ∈ l, m ∈ nodes := fun m hm => hl m (List.mem_cons_of_mem _ hm)
    simp only [List.foldl_cons]
    by_cases hc : n.parentId = some pId ∧ n.id ∉ ids
    · simp only [if_pos hc]
      obtain ⟨ga, gb, gc⟩ := ih n.id (ids ++ [n.id])
        (lt_of_lt_of_le (idsLeft_lt nodes ids n hn hc.2) hfuel)
      have hsub : ids ⊆ gatherDescendants nodes fuel n.id (ids ++ [n.id]) :=
        fun x hx => ga (List.mem_append_left _ hx)
      obtain ⟨fa, fb, fc⟩ := ihl hl1 (gatherDescendants nodes fuel n.id (ids ++ [n.id]))
        (le_trans (idsLeft_mono nodes hsub) hfuel)
      refine ⟨fun x hx => fa (hsub hx), ?_, ?_⟩
      · intro m hm hpar
        rcases List.mem_cons.mp hm with rfl | hm
        · exact fa (ga (List.mem_append_right _ (List.mem_singleton_self _)))
        · exact fb m hm hpar
      · intro id hid hnot
        by_cases h1 : id ∈ gatherDescendants nodes fuel n.id (ids ++ [n.id])
        · by_cases h2 : id = n.id
          · subst h2
            exact ⟨Relation.TransGen.single ⟨n, hn, hc.1, rfl⟩,
              fun m hm hpar => fa (gb m hm hpar)⟩
          · have h3 : id ∉ ids ++ [n.id] := by
              simp only [List.mem_append, List.mem_singleton, not_or]
              exact ⟨hnot, h2⟩
            obtain ⟨d1, d2⟩ := gc id h1 h3
            exact ⟨Relation.TransGen.head ⟨n, hn, hc.1, rfl⟩ d1,
              fun m hm hpar => fa (d2 m hm hpar)⟩
        · exact fc id hid h1
    · simp only [if_neg hc]
      obtain ⟨fa, fb, fc⟩ := ihl hl1 ids hfuel
      refine ⟨fa, ?_, fc⟩
      intro m hm hpar
      rcases List.mem_cons.mp hm with rfl | hm
      · by_contra hcon
        apply hc
        exact ⟨hpar, fun hmem => hcon (fa hmem)⟩
      · exact fb m hm hpar

theorem gatherDescendants_spec (nodes : List Node) (fuel : Nat) :
    ∀ (pId : String) (ids : List String), idsLeft nodes ids < fuel →
      GatherSpec nodes pId ids (gatherDescendants nodes fuel pId ids) := by
  induction fuel with
  | zero => intro _ _ h; exact absurd h (Nat.not_lt_zero _)
  | succ fuel ih =>
    intro pId ids h
    simp only [gatherDescendants]
    exact gather_fold_spec nodes fuel pId ih nodes (fun _ h => h) ids (Nat.lt_succ_iff.mp h)

theorem gatherAll_fold_spec (nodes : List Node) (sel : List String) (l : List String) :
    ∀ ids : List String,
      (∀ id ∈ ids, id ∈ sel ∨ ∃ a ∈ sel, DescendantOf nodes a id) →
      (∀ a ∈ l, a ∈ sel) →
      (∀ id ∈ ids, id ∈ l ∨ ∀ n ∈ nodes, n.parentId = some id → n.id ∈ ids) →
      ids ⊆ l.foldl (fun ids selId => gatherDescendants nodes (nodes.length + 1) selId ids) ids ∧
      (∀ id ∈ l.foldl (fun ids selId => gatherDescendants nodes (nodes.length + 1) selId ids) ids,
        id ∈ sel ∨ ∃ a ∈ sel, DescendantOf nodes a id) ∧
      ChildClosed nodes
        (l.foldl (fun ids selId => gatherDescendants nodes (nodes.length + 1) selId ids) ids) := by
  induction l with
  | nil =>
    intro ids horigin _ hpending
    refine ⟨fun _ h => h, horigin, ?_⟩
    intro id hid
    rcases hpending id hid with h | h
    · simp at h
    · exact h
  | cons a l ih =>
    intro ids horigin hl hpending
    simp only [List.foldl_cons]
    obtain ⟨ga, gb, gc⟩ := gatherDescendants_spec nodes (nodes.length + 1) a ids
      (Nat.lt_succ_of_le (idsLeft_le_length nodes ids))
    have ha : a ∈ sel := hl a (List.mem_cons_self _ _)
    obtain ⟨fa, fb, fc⟩ := ih (gatherDescendants nodes (nodes.length + 1) a ids)
      (by
        intro id hid
        by_cases h : id ∈ ids
        · exact horigin id h
        · exact Or.inr ⟨a, ha, (gc id hid h).1⟩)
      (fun b hb => hl b (List.mem_cons_of_mem _ hb))
      (by
        intro id hid
        by_cases h : id ∈ ids
        · rcases hpending id h with h1 | h1
          · rcases List.mem_cons.mp h1 with rfl | h1
            · exact Or.inr gb
            · exact Or.inl h1
          · exact Or.inr (fun n hn hpar => ga (h1 n hn hpar))
        · exact Or.inr (gc id hid h).2)
    exact ⟨fun x hx => fa (ga hx), fb, fc⟩

theorem gatherAll_spec (nodes : List Node) (sel : List String) :
    (∀ id ∈ sel, id ∈ gatherAll nodes sel) ∧
    ChildClosed nodes (gatherAll nodes sel) ∧
    (∀ id ∈ gatherAll nodes sel, id ∈ sel ∨ ∃ a ∈ sel, DescendantOf nodes a id) := by
  obtain ⟨fa, fb, fc⟩ := gatherAll_fold_spec nodes sel sel (dedupKeepFirst sel)
    (fun id hid => Or.inl ((mem_dedupKeepFirst sel id).mp hid))
    (fun _ h => h)
    (fun id hid => Or.inl ((mem_dedupKeepFirst sel id).mp hid))
  exact ⟨fun id hid => fa ((mem_dedupKeepFirst sel id).mpr hid), fc, fb⟩

theorem getDescendants_fold_none (fuel : Nat) (nodes : List Node) (cs : List Node) :
    cs.foldl
      (fun descendants child =>
        match descendants, getDescendants fuel child.id nodes with
        | some ds, some more => some (ds ++ more)
        | _, _ => none)
      none = none := by
  induction cs with
  | nil => rfl
  | cons c cs ih => simpa only [List.foldl_cons] using ih

theorem getDescendants_fold_some (fuel : Nat) (nodes : List Node) (cs : List Node) :
    ∀ acc res : List Node,
      cs.foldl
        (fun descendants child =>
          match descendants, getDescendants fuel child.id nodes with
          | some ds, some more => some (ds ++ more)
          | _, _ => none)
        (some acc) = some res →
      acc ⊆ res ∧
      (∀ c ∈ cs, ∃ more, getDescendants fuel c.id nodes = some more ∧ more ⊆ res) ∧
      (∀ m ∈ res, m ∈ acc ∨
        ∃ c ∈ cs, ∃ more, getDescendants fuel c.id nodes = some more ∧ m ∈ more) := by
  induction cs with
  | nil =>
    intro acc res h
    simp only [List.foldl_nil, Option.some.injEq] at h
    subst h
    exact ⟨fun _ h => h, fun c hc => by simp at hc, fun m hm => Or.inl hm⟩
  | cons c cs ih =>
    intro acc res h
    simp only [List.foldl_cons] at h
    cases hg : getDescendants fuel c.id nodes with
    | none =>
      rw [hg] at h
      simp only [getDescendants_fold_none] at h
      exact absurd h (by simp)
    | some more =>
      rw [hg] at h
      obtain ⟨ia, ib, ic⟩ := ih (acc ++ more) res h
      refine ⟨fun x hx => ia (List.mem_append_left _ hx), ?_, ?_⟩
      · intro c1 hc1
        rcases List.mem_cons.mp hc1 with rfl | hc1
        · exact ⟨more, hg, fun x hx => ia (List.mem_append_right _ hx)⟩
        · exact ib c1 hc1
      · intro m hm
        rcases ic m hm with h1 | ⟨c1, hc1, more1, hm1, hmem⟩
        · rcases List.mem_append.mp h1 with h1 | h1
          · exact Or.inl h1
          · exact Or.inr ⟨c, List.mem_cons_self _ _, more, hg, h1⟩
        · exact Or.inr ⟨c1, List.mem_cons_of_mem _ hc1, more1, hm1, hmem⟩

theorem getDescendants_spec (nodes : List Node) (fuel : Nat) :
    ∀ (nodeId : String) (ds : List Node), getDescendants fuel nodeId nodes = some ds →
      (∀ n ∈ nodes, n.parentId = some nodeId → n ∈ ds) ∧
      (∀ m ∈ ds, ∀ n ∈ nodes, n.parentId = some m.id → n ∈ ds) ∧
      (∀ m ∈ ds, m ∈ nodes ∧ DescendantOf nodes nodeId m.id) := by
  induction fuel with
  | zero => intro _ _ h; simp [getDescendants] at h
  | succ fuel ih =>
    intro nodeId ds h
    simp only [getDescendants] at h
    obtain ⟨fa, fb, fc⟩ := getDescendants_fold_some fuel nodes _ _ _ h
    have hchild : ∀ c ∈ nodes.filter (fun n => decide (n.parentId = some nodeId)),
        c ∈ nodes ∧ c.parentId = some nodeId := by
      intro c hc
      simpa using List.mem_filter.mp hc
    refine ⟨?_, ?_, ?_⟩
    · intro n hn hpar
      exact fa (List.mem_filter.mpr ⟨hn, by simpa using hpar⟩)
    · intro m hm n hn hpar
      rcases fc m hm with h1 | ⟨c, hc, more, hmore, hmem⟩
      · obtain ⟨more, hmore, hsub⟩ := fb m h1
        exact hsub ((ih m.id more hmore).1 n hn hpar)
      · obtain ⟨_, hsub⟩ : ∃ more1, getDescendants fuel c.id nodes = some more1 ∧ more1 ⊆ ds :=
          fb c hc
        have : n ∈ more := (ih c.id more hmore).2.1 m hmem n hn hpar
        obtain ⟨more1, hmore1, hsub1⟩ := fb c hc
        rw [hmore] at hmore1
        cases hmore1
        exact hsub1 this
    · intro m hm
      rcases fc m hm with h1 | ⟨c, hc, more, hmore, hmem⟩
      · obtain ⟨hmn, hpar⟩ := hchild m h1
        exact ⟨hmn, Relation.TransGen.single ⟨m, hmn, hpar, rfl⟩⟩
      · obtain ⟨hcn, hpar⟩ := hchild c hc
        obtain ⟨hmn, hdesc⟩ := (ih c.id more hmore).2.2 m hmem
        exact ⟨hmn, Relation.TransGen.head ⟨c, hcn, hpar, rfl⟩ hdesc⟩

theorem narrowed_childClosed (nodes : List Node) (fuel : Nat) (mainNodeId : String)
    (ds : List Node) (h : getDescendants fuel mainNodeId nodes = some ds) :
    ChildClosed nodes (dedupKeepFirst (mainNodeId :: ds.map Node.id)) := by
  obtain ⟨ha, hb, _⟩ := getDescendants_spec nodes fuel mainNodeId ds h
  intro id hid n hn hpar
  rw [mem_dedupKeepFirst] at hid ⊢
  rcases List.mem_cons.mp hid with rfl | hid
  · exact List.mem_cons_of_mem _ (List.mem_map.mpr ⟨n, ha n hn hpar, rfl⟩)
  · obtain ⟨m, hm, rfl⟩ := List.mem_map.mp hid
    exact List.mem_cons_of_mem _ (List.mem_map.mpr ⟨n, hb m hm n hn hpar, rfl⟩)

theorem childClosed_map (nodes : List Node) (ids : List String) (f : Node → Node)
    (hf : ∀ n, (f n).id = n.id ∧ (f n).parentId = n.parentId) (h : ChildClosed nodes ids) :
    ChildClosed (nodes.map f) ids := by
  intro id hid m hm hpar
  obtain ⟨n, hn, rfl⟩ := List.mem_map.mp hm
  rw [(hf n).1]
  rw [(hf n).2] at hpar
  exact h id hid n hn hpar

theorem handlePointerMove_narrow (fuel : Nat) (vp : Viewport) (t : AppState) (d : DragState)
    (e : PointerEvt) (t1 : AppState)
    (hd : t.dragState = some d) (hty : d.type = .node) (hmv : d.hasMoved = false)
    (hp : e.pointerId = d.pointerId)
    (hfar : ((getCanvasCoordinates t e).1 - d.startX) * ((getCanvasCoordinates t e).1 - d.startX)
      + ((getCanvasCoordinates t e).2 - d.startY) * ((getCanvasCoordinates t e).2 - d.startY) > 3 * 3)
    (hmany : (movingRootsOf t.nodes d).length > 1)
    (hsame : allSameWord (movingRootsOf t.nodes d) = true)
    (h : handlePointerMove fuel vp t e = some t1) :
    ∃ ds d1, getDescendants fuel d.mainNodeId t.nodes = some ds ∧
      t1.dragState = some d1 ∧ d1.hasMoved = true ∧ t1.selection = [d.mainNodeId] ∧
      d1.idsToMove = dedupKeepFirst (d.mainNodeId :: ds.map Node.id) ∧
      ChildClosed t1.nodes d1.idsToMove := by
  unfold handlePointerMove at h
  simp only [hd, hp, ne_eq, not_true_eq_false, if_false, hty, hmv] at h
  have hnear : ¬ ((getCanvasCoordinates t e).1 - d.startX) * ((getCanvasCoordinates t e).1 - d.startX)
      + ((getCanvasCoordinates t e).2 - d.startY) * ((getCanvasCoordinates t e).2 - d.startY) ≤ 3 * 3 :=
    not_le.mpr hfar
  simp only [Bool.not_false, true_and, hnear, if_false, hmany, decide_True, Bool.true_and, hsame,
    if_true] at h
  unfold narrowDrag at h
  cases hg : getDescendants fuel d.mainNodeId t.nodes with
  | none => rw [hg] at h; simp at h
  | some ds =>
    rw [hg] at h
    simp only [Option.some.injEq] at h
    subst h
    refine ⟨ds, _, rfl, rfl, rfl, rfl, rfl, ?_⟩
    apply childClosed_map
    · intro n
      split
      · split <;> exact ⟨rfl, rfl⟩
      · split
        · split <;> exact ⟨rfl, rfl⟩
        · exact ⟨rfl, rfl⟩
    · exact narrowed_childClosed t.nodes fuel d.mainNodeId ds hg

theorem handlePointerDown_node (s : AppState) (e : PointerEvt) (nodeId : String)
    (hid : nodeId ≠ "") :
    ∃ d : DragState,
      (handlePointerDown s e (some nodeId)).dragState = some d ∧
      (handlePointerDown s e (some nodeId)).nodes = s.nodes ∧
      (handlePointerDown s e (some nodeId)).selection = newSelectionOnDown s e.shiftKey nodeId ∧
      (handlePointerDown s e (some nodeId)).hist = s.hist ∧
      d.type = .node ∧ d.mainNodeId = nodeId ∧ d.hasMoved = false ∧ d.pointerId = e.pointerId ∧
      d.idsToMove = gatherAll s.nodes (newSelectionOnDown s e.shiftKey nodeId) ∧
      d.initialPositions = (s.nodes.filter (fun n => n.id ∈ d.idsToMove)).map
        (fun n => (n.id, n.x, n.y)) := by
  have htr : truthy (some nodeId) = true := by simp [truthy, hid]
  unfold handlePointerDown
  rw [if_pos htr]
  exact ⟨_, rfl, rfl, rfl, rfl, rfl, rfl, rfl, rfl, rfl, rfl⟩

/-- C7: Descendant inclusion. After a pointer-down on a node the moving set `idsToMove`
of the drag session contains every id of the new selection, is closed under the child
relation of the forest, and contains no id other than the selected ids and their
transitive descendants; and when a same-word drag narrows the moving set at the exit
of the dead-zone, the narrowed set (the lead node and what `getDescendants` returns
for it) is again closed under the child relation. -/
theorem moving_set_is_descendant_closure (s : AppState) (e : PointerEvt) (nodeId : String)
    (hid : nodeId ≠ "") :
    (∃ d, (handlePointerDown s e (some nodeId)).dragState = some d ∧
      d.type = .node ∧ d.mainNodeId = nodeId ∧
      (handlePointerDown s e (some nodeId)).nodes = s.nodes ∧
      (handlePointerDown s e (some nodeId)).selection = newSelectionOnDown s e.shiftKey nodeId ∧
      (∀ id ∈ (handlePointerDown s e (some nodeId)).selection, id ∈ d.idsToMove) ∧
      ChildClosed s.nodes d.idsToMove ∧
      (∀ id ∈ d.idsToMove, id ∈ (handlePointerDown s e (some nodeId)).selection ∨
        ∃ a ∈ (handlePointerDown s e (some nodeId)).selection, DescendantOf s.nodes a id)) ∧
    (∀ (fuel : Nat) (vp : Viewport) (t : AppState) (d : DragState) (e2 : PointerEvt)
      (t1 : AppState),
      t.dragState = some d → d.type = .node → d.hasMoved = false →
      e2.pointerId = d.pointerId →
      ((getCanvasCoordinates t e2).1 - d.startX) * ((getCanvasCoordinates t e2).1 - d.startX)
        + ((getCanvasCoordinates t e2).2 - d.startY) * ((getCanvasCoordinates t e2).2 - d.startY)
        > 3 * 3 →
      (movingRootsOf t.nodes d).length > 1 → allSameWord (movingRootsOf t.nodes d) = true →
      handlePointerMove fuel vp t e2 = some t1 →
      ∃ ds d1, getDescendants fuel d.mainNodeId t.nodes = some ds ∧
        t1.dragState = some d1 ∧ d1.hasMoved = true ∧ t1.selection = [d.mainNodeId] ∧
        d1.idsToMove = dedupKeepFirst (d.mainNodeId :: ds.map Node.id) ∧
        ChildClosed t1.nodes d1.idsToMove) := by
  refine ⟨?_, fun fuel vp t d e2 t1 h1 h2 h3 h4 h5 h6 h7 h8 =>
    handlePointerMove_narrow fuel vp t d e2 t1 h1 h2 h3 h4 h5 h6 h7 h8⟩
  obtain ⟨ga, gb, gc⟩ := gatherAll_spec s.nodes (newSelectionOnDown s e.shiftKey nodeId)
  obtain ⟨d, h1, h2, h3, _, h5, h6, _, _, h9, _⟩ := handlePointerDown_node s e nodeId hid
  refine ⟨d, h1, h5, h6, h2, h3, ?_, ?_, ?_⟩
  · rw [h3, h9]; exact ga
  · rw [h9]; exact gb
  · rw [h3, h9]; exact gc

/-- Instance of `moving_set_is_descendant_closure` on `nestedState`: a pointer-down on
`we1` selects both occurrences of the word and moves them with the two descendants of
`we1`; the first move past the dead-zone narrows the moving set to `we1` and its
descendants. -/
theorem moving_set_is_descendant_closure_witness :
    nestedDown.selection = ["we1", "we2"] ∧
    nestedDownDrag.idsToMove = ["we1", "we2", "love", "for"] ∧
    (∃ d, nestedDown.dragState = some d ∧ ChildClosed nestedState.nodes d.idsToMove) ∧
    ∃ ds d1, getDescendants 10 nestedDownDrag.mainNodeId nestedDown.nodes = some ds ∧
      nestedMoved.dragState = some d1 ∧ d1.hasMoved = true ∧
      nestedMoved.selection = [nestedDownDrag.mainNodeId] ∧
      d1.idsToMove = dedupKeepFirst (nestedDownDrag.mainNodeId :: ds.map Node.id) ∧
      ChildClosed nestedMoved.nodes d1.idsToMove := by
  have h := moving_set_is_descendant_closure nestedState
    { pointerId := 1, clientX := 300, clientY := 160 } "we1" (by decide)
  refine ⟨by decide!, by decide!, ?_, ?_⟩
  · obtain ⟨d, h1, _, _, _, _, _, h7, _⟩ := h.1
    exact ⟨d, h1, h7⟩
  · exact h.2 10 sampleViewport nestedDown nestedDownDrag
      { pointerId := 1, clientX := 310, clientY := 160 } nestedMoved
      (by decide!) (by decide!) (by decide!) (by decide!) (by decide!) (by decide!) (by decide!)
      (by decide!)

/-! ## Forest edge invariant -/

theorem edgeOK_of_same {n m : Node} (hp : m.parentId = n.parentId) (hr : m.relation = n.relation)
    (h : EdgeOK n) : EdgeOK m := by
  unfold EdgeOK at *
  rw [hp, hr]
  exact h

theorem edgeOK_positionFree : PositionFree EdgeOK :=
  fun _ _ _ h => edgeOK_of_same rfl rfl h

theorem forestOK_map {nodes : List Node} (f : Node → Node)
    (hf : ∀ n, EdgeOK n → EdgeOK (f n)) (h : ForestOK nodes) : ForestOK (nodes.map f) := by
  intro m hm
  obtain ⟨n, hn, rfl⟩ := List.mem_map.mp hm
  exact hf n (h n hn)

theorem resolveOverlaps_forestOK (fuel : Nat) (windowWidth : ℚ) (nodes out : List Node)
    (mode : Mode) (h : ForestOK nodes) (hr : resolveOverlaps fuel windowWidth nodes mode = some out) :
    ForestOK out :=
  resolveOverlaps_positionFree edgeOK_positionFree fuel windowWidth nodes mode out h hr

theorem layoutFrom_forestOK (windowWidth : ℚ) (mode : Mode) (nodes : List Node) :
    ∀ cx cy : ℚ, ForestOK nodes → ForestOK (layoutFrom windowWidth mode cx cy nodes) := by
  induction nodes with
  | nil => intro _ _ h; simpa [layoutFrom] using h
  | cons n rest ih =>
    intro cx cy h m hm
    simp only [layoutFrom, List.mem_cons] at hm
    rcases hm with rfl | hm
    · exact edgeOK_of_same rfl rfl (h n (List.mem_cons_self _ _))
    · exact ih _ _ (fun k hk => h k (List.mem_cons_of_mem _ hk)) m hm

theorem calculateLayout_forestOK (windowWidth : ℚ) (mode : Mode) (nodes : List Node)
    (h : ForestOK nodes) : ForestOK (calculateLayout windowWidth nodes mode) :=
  layoutFrom_forestOK windowWidth mode nodes _ _ h

theorem mem_zipWith_exists {α β γ : Type} (f : α → β → γ) (c : γ) :
    ∀ (a : List α) (b : List β), c ∈ List.zipWith f a b → ∃ x y, c = f x y := by
  intro a
  induction a with
  | nil => intro b hc; simp at hc
  | cons x a ih =>
    intro b hc
    cases b with
    | nil => simp at hc
    | cons y b =>
      simp only [List.zipWith_cons_cons, List.mem_cons] at hc
      rcases hc with rfl | hc
      · exact ⟨x, y, rfl⟩
      · exact ih b hc

theorem rawNodes_forestOK (genId : Nat → String) (words : List String) :
    ForestOK (rawNodes genId words) := by
  intro n hn
  obtain ⟨i, w, rfl⟩ := mem_zipWith_exists _ n _ _ hn
  simp [EdgeOK]

theorem splitTextToNodes_forestOK (windowWidth : ℚ) (genId : Nat → String) (text : String)
    (mode : Mode) : ForestOK (splitTextToNodes windowWidth genId text mode) :=
  calculateLayout_forestOK windowWidth mode _ (rawNodes_forestOK genId _)

theorem closeGapsItem_forestOK (mode : Mode) (nodes : List Node) (item : MovedItem)
    (h : ForestOK nodes) : ForestOK (closeGapsItem mode nodes item) := by
  unfold closeGapsItem
  have h1 : ∀ g : ℚ, ForestOK (nodes.map (fun node =>
      if truthy node.parentId then node
      else if |node.y - item.oldY| < (LAYOUT_CONFIG mode).rowTolerance ∧ node.x > item.oldX then
        { node with x := node.x - g }
      else node)) := by
    intro g
    apply forestOK_map _ _ h
    intro n hn
    split
    · exact hn
    · split
      · exact edgeOK_of_same rfl rfl hn
      · exact hn
  split
  · exact h
  · simp only
    split
    · apply forestOK_map _ _ (h1 _)
      intro n hn
      split
      · exact edgeOK_of_same rfl rfl hn
      · exact hn
    · exact h1 _

theorem closeGaps_forestOK (mode : Mode) (items : List MovedItem) :
    ∀ nodes : List Node, ForestOK nodes → ForestOK (closeGaps nodes items mode) := by
  induction items with
  | nil => intro nodes h; exact h
  | cons item rest ih =>
    intro nodes h
    simp only [closeGaps, List.foldl_cons]
    exact ih _ (closeGapsItem_forestOK mode nodes item h)

theorem sliceTo_subset {α : Type} (l : List α) (stop : Int) : sliceTo l stop ⊆ l := by
  unfold sliceTo
  split <;> exact List.take_subset _ _

theorem saveToHistory_mem (h : History) (newNodes snapshot : List Node)
    (hm : snapshot ∈ (saveToHistory h newNodes).history) :
    snapshot ∈ h.history ∨ snapshot = newNodes := by
  simp only [saveToHistory] at hm
  have key : snapshot ∈ sliceTo h.history (h.historyIndex + 1) ++ [newNodes] := by
    split at hm
    · exact List.mem_of_mem_tail hm
    · exact hm
  rcases List.mem_append.mp key with h1 | h1
  · exact Or.inl (sliceTo_subset _ _ h1)
  · exact Or.inr (List.mem_singleton.mp h1)

theorem updateNodes_stateOK (fuel : Nat) (vp : Viewport) (s t : AppState) (newNodes : List Node)
    (shouldResolve : Bool) (hs : ∀ snapshot ∈ s.hist.history, ForestOK snapshot)
    (hn : ForestOK newNodes) (h : updateNodes fuel vp s newNodes shouldResolve = some t) :
    StateOK t ∧ t.selection = s.selection := by
  simp only [updateNodes, Option.map_eq_some'] at h
  obtain ⟨final, hfinal, rfl⟩ := h
  have hf : ForestOK final := by
    split at hfinal
    · exact resolveOverlaps_forestOK fuel _ _ _ _ hn hfinal
    · simp only [Option.some.injEq] at hfinal
      exact hfinal ▸ hn
  refine ⟨⟨hf, ?_⟩, rfl⟩
  intro snapshot hsnap
  rcases saveToHistory_mem _ _ _ hsnap with h1 | h1
  · exact hs snapshot h1
  · exact h1 ▸ hf

theorem forestOK_map_same {nodes : List Node} (f : Node → Node)
    (hf : ∀ n, (f n).parentId = n.parentId ∧ (f n).relation = n.relation)
    (h : ForestOK nodes) : ForestOK (nodes.map f) :=
  forestOK_map f (fun n hn => edgeOK_of_same (hf n).1 (hf n).2 hn) h

theorem narrowDrag_frame (fuel : Nat) (s t : AppState) (d : DragState) (dx dy : ℚ)
    (h : narrowDrag fuel s d dx dy = some t) :
    t.hist = s.hist ∧ (ForestOK s.nodes → ForestOK t.nodes) := by
  unfold narrowDrag at h
  split at h
  · cases h
  · cases h
    refine ⟨rfl, forestOK_map_same _ ?_⟩
    intro n
    dsimp only
    repeat' split
    all_goals exact ⟨rfl, rfl⟩

theorem moveDrag_frame (vp : Viewport) (s : AppState) (d : DragState) (coords : ℚ × ℚ) :
    (moveDrag vp s d coords).hist = s.hist ∧
      (ForestOK s.nodes → ForestOK (moveDrag vp s d coords).nodes) := by
  have hmap : ∀ dx dy : ℚ, ForestOK s.nodes → ForestOK (s.nodes.map (fun n =>
      if n.id ∈ d.idsToMove then
        match lookupPos d.initialPositions n.id with
        | some init => { n with x := init.1 + dx, y := init.2 + dy }
        | none => n
      else n)) := by
    intro dx dy
    refine forestOK_map_same _ ?_
    intro n
    dsimp only
    repeat' split
    all_goals exact ⟨rfl, rfl⟩
  unfold moveDrag
  dsimp only
  repeat' split
  all_goals first | exact ⟨rfl, id⟩ | exact ⟨rfl, hmap _ _⟩

theorem handlePointerMove_frame (fuel : Nat) (vp : Viewport) (s t : AppState) (e : PointerEvt)
    (h : handlePointerMove fuel vp s e = some t) :
    t.hist = s.hist ∧ (ForestOK s.nodes → ForestOK t.nodes) := by
  unfold handlePointerMove at h
  split at h
  · cases h; exact ⟨rfl, id⟩
  · split at h
    · cases h; exact ⟨rfl, id⟩
    · split at h
      · dsimp only at h
        split at h
        · cases h; exact ⟨rfl, id⟩
        · split at h
          · exact narrowDrag_frame fuel s t _ _ _ h
          · cases h; exact moveDrag_frame vp s _ _
      · cases h; exact ⟨rfl, id⟩
      · cases h; exact ⟨rfl, id⟩

theorem handlePointerDown_frame (s : AppState) (e : PointerEvt) (nodeId : Option String) :
    (handlePointerDown s e nodeId).hist = s.hist ∧ (handlePointerDown s e nodeId).nodes = s.nodes := by
  unfold handlePointerDown pointerDownOnCanvas
  dsimp only
  split
  · exact ⟨rfl, rfl⟩
  · split <;> exact ⟨rfl, rfl⟩

theorem nestNodes_forestOK (d : DragState) (nodes : List Node) (idsToNest : List String)
    (hoverTarget satelliteHover : String) (snapX snapY : ℚ) (h : ForestOK nodes) :
    ForestOK (nestNodes d nodes idsToNest hoverTarget satelliteHover snapX snapY) := by
  unfold nestNodes
  apply forestOK_map _ _ h
  intro n hn
  dsimp only
  split
  · split
    · simp [EdgeOK]
    · split <;> exact edgeOK_of_same rfl rfl hn
  · exact hn

theorem dropCommit_stateOK (fuel : Nat) (vp : Viewport) (s t : AppState) (d : DragState)
    (hoverTarget satelliteHover : String) (parent : Node) (hs : StateOK s)
    (h : dropCommit fuel vp s d hoverTarget satelliteHover parent = some t) : StateOK t := by
  unfold dropCommit at h
  exact (updateNodes_stateOK fuel vp s t _ true hs.2
    (closeGaps_forestOK _ _ _ (nestNodes_forestOK _ _ _ _ _ _ _ hs.1)) h).1

theorem releaseMoved_stateOK (fuel : Nat) (vp : Viewport) (s t : AppState) (d : DragState)
    (b : Bool) (hs : StateOK s) (h : releaseMoved fuel vp s d = some (t, b)) : StateOK t := by
  unfold releaseMoved at h
  split at h
  · split at h
    · cases h; exact hs
    · simp only [Option.map_eq_some', Prod.mk.injEq] at h
      obtain ⟨t1, ht1, rfl, _⟩ := h
      exact dropCommit_stateOK fuel vp s t1 d _ _ _ hs ht1
  · simp only [Option.map_eq_some', Prod.mk.injEq] at h
    obtain ⟨t1, ht1, rfl, _⟩ := h
    exact (updateNodes_stateOK fuel vp s t1 _ false hs.2 hs.1 ht1).1

theorem handlePointerUp_stateOK (fuel : Nat) (vp : Viewport) (s t : AppState) (e : PointerEvt)
    (hs : StateOK s) (h : handlePointerUp fuel vp s e = some t) : StateOK t := by
  unfold handlePointerUp at h
  split at h
  · cases h; exact hs
  · split at h
    · cases h; exact hs
    · split at h
      · split at h
        · simp only [Option.map_eq_some'] at h
          obtain ⟨⟨t1, b⟩, ht1, rfl⟩ := h
          have := releaseMoved_stateOK fuel vp s t1 _ b hs ht1
          dsimp only
          split
          · exact this
          · exact this
        · cases h; exact hs
      · cases h; exact hs
      · cases h; exact hs

theorem styleCommand_stateOK (fuel : Nat) (vp : Viewport) (s s1 t : AppState) (f : Node → Node)
    (hf : ∀ n, EdgeOK n → EdgeOK (f n)) (hs : StateOK s) (h1 : s1.hist = s.hist)
    (h : (if s.selection.length = 0 then some s
      else updateNodes fuel vp s1 (s.nodes.map f) true) = some t) : StateOK t := by
  split at h
  · cases h; exact hs
  · exact (updateNodes_stateOK fuel vp s1 t _ true (h1 ▸ hs.2) (forestOK_map f hf hs.1) h).1

theorem toggleViewMode_next_forestOK (fuel : Nat) (w : ℚ) (nodes next : List Node)
    (cached : List (String × ℚ × ℚ)) (m : Mode) (c : Prop) [Decidable c] (hs : ForestOK nodes)
    (h : (if c then
        resolveOverlaps fuel w
          (nodes.map (fun n =>
            match lookupPos cached n.id with
            | some pos => { n with x := pos.1, y := pos.2 }
            | none => n))
          m
      else some (calculateLayout w nodes m)) = some next) : ForestOK next := by
  split at h
  · refine resolveOverlaps_forestOK fuel _ _ _ _ ?_ h
    refine forestOK_map_same _ ?_ hs
    intro n
    split <;> exact ⟨rfl, rfl⟩
  · simp only [Option.some.injEq] at h
    exact h ▸ calculateLayout_forestOK _ _ _ hs

theorem toggleViewMode_stateOK (fuel : Nat) (vp : Viewport) (s t : AppState) (hs : StateOK s)
    (h : toggleViewMode fuel vp s = some t) : StateOK t ∧ t.hist = s.hist := by
  unfold toggleViewMode at h
  simp only [Option.map_eq_some'] at h
  obtain ⟨next, hnext, rfl⟩ := h
  have hn : ForestOK next := toggleViewMode_next_forestOK fuel _ _ _ _ _ _ hs.1 hnext
  by_cases hb : (if s.viewMode = .canvas then Mode.book else Mode.canvas) = .book
  · rw [if_pos hb]
    exact ⟨⟨hn, hs.2⟩, rfl⟩
  · rw [if_neg hb]
    exact ⟨⟨hn, hs.2⟩, rfl⟩

theorem undo_stateOK (s : AppState) (hs : StateOK s) : StateOK (undo s) := by
  unfold undo
  split
  · dsimp only
    split
    · rename_i snapshot hsnap
      exact ⟨hs.2 snapshot (List.getElem?_mem hsnap), hs.2⟩
    · exact hs
  · exact hs

theorem redo_stateOK (s : AppState) (hs : StateOK s) : StateOK (redo s) := by
  unfold redo
  split
  · dsimp only
    split
    · exact hs
    · split
      · rename_i snapshot hsnap
        exact ⟨hs.2 snapshot (List.getElem?_mem hsnap), hs.2⟩
      · exact hs
  · exact hs

theorem initialLoad_stateOK (fuel : Nat) (vp : Viewport) (genId : Nat → String) (text : String)
    (s : AppState) (h : initialLoad fuel vp genId text = some s) : StateOK s := by
  simp only [initialLoad, Option.map_eq_some'] at h
  obtain ⟨resolved, hres, rfl⟩ := h
  have hf : ForestOK resolved :=
    resolveOverlaps_forestOK fuel _ _ _ _ (splitTextToNodes_forestOK _ _ _ _) hres
  refine ⟨hf, ?_⟩
  intro snapshot hsnap
  rcases saveToHistory_mem _ _ _ hsnap with h1 | h1
  · simp [AppState.initial, History.empty] at h1
  · exact h1 ▸ hf

theorem loadPassage_stateOK (fuel : Nat) (vp : Viewport) (genId : Nat → String) (s t : AppState)
    (text : String) (hs : StateOK s) (h : loadPassage fuel vp genId s text = some t) :
    StateOK t := by
  simp only [loadPassage, Option.map_eq_some'] at h
  obtain ⟨t1, ht1, rfl⟩ := h
  exact (updateNodes_stateOK fuel vp s t1 _ true hs.2 (splitTextToNodes_forestOK _ _ _ _) ht1).1

theorem edgeOK_ite_styles (n : Node) (c : Prop) [Decidable c] (st : Styles) (h : EdgeOK n) :
    EdgeOK (if c then { n with styles := st } else n) := by
  split
  · exact edgeOK_of_same rfl rfl h
  · exact h

theorem hist_ite (c : Prop) [Decidable c] (a b : AppState) (P : History → Prop)
    (ha : P a.hist) (hb : P b.hist) : P (if c then a else b).hist := by
  split <;> assumption

theorem setHighlight_stateOK (fuel : Nat) (vp : Viewport) (s t : AppState) (colorId : String)
    (hs : StateOK s) (h : setHighlight fuel vp s colorId = some t) : StateOK t := by
  unfold setHighlight at h
  dsimp only at h
  split at h
  · cases h; exact hs
  · refine (updateNodes_stateOK fuel vp _ t _ true ?_
      (forestOK_map _ (fun n hn => edgeOK_ite_styles n _ _ hn) hs.1) h).1
    exact hist_ite _ _ _ (fun h => ∀ snapshot ∈ h.history, ForestOK snapshot) hs.2 hs.2

theorem reachable_stateOK (s : AppState) (h : Reachable s) : StateOK s := by
  induction h with
  | load fuel vp genId text s h => exact initialLoad_stateOK fuel vp genId text s h
  | passage fuel vp genId text s t _ h ih => exact loadPassage_stateOK fuel vp genId s t text ih h
  | pointerDown s e nodeId _ ih =>
    obtain ⟨h1, h2⟩ := handlePointerDown_frame s e nodeId
    exact ⟨h2 ▸ ih.1, h1 ▸ ih.2⟩
  | pointerMove fuel vp s t e _ h ih =>
    obtain ⟨h1, h2⟩ := handlePointerMove_frame fuel vp s t e h
    exact ⟨h2 ih.1, h1 ▸ ih.2⟩
  | pointerUp fuel vp s t e _ h ih => exact handlePointerUp_stateOK fuel vp s t e ih h
  | style fuel vp s t k _ h ih =>
    refine styleCommand_stateOK fuel vp s s t _ ?_ ih rfl h
    intro n hn
    split
    · exact edgeOK_of_same rfl rfl hn
    · exact hn
  | highlight fuel vp s t colorId _ h ih => exact setHighlight_stateOK fuel vp s t colorId ih h
  | fontSize fuel vp s t delta _ h ih =>
    refine styleCommand_stateOK fuel vp s s t _ ?_ ih rfl h
    intro n hn
    split
    · exact edgeOK_of_same rfl rfl hn
    · exact hn
  | clear fuel vp s t _ h ih =>
    refine styleCommand_stateOK fuel vp s s t _ ?_ ih rfl h
    intro n hn
    split
    · exact edgeOK_of_same rfl rfl hn
    · exact hn
  | detach fuel vp s t _ h ih =>
    refine styleCommand_stateOK fuel vp s s t _ ?_ ih rfl h
    intro n hn
    split
    · simp [EdgeOK]
    · exact hn
  | viewMode fuel vp s t _ h ih => exact (toggleViewMode_stateOK fuel vp s t ih h).1
  | undo s _ ih => exact undo_stateOK s ih
  | redo s _ ih => exact redo_stateOK s ih
  | multiSelect s _ ih => exact ih
  | connection s c _ ih => exact ih
  | zoom s scale offsetX offsetY _ ih => exact ih

/-- C6: Forest edge invariant. In every state the application reaches from the initial
load by passage loads, pointer events (so also drop commits), style commands, detach,
view-mode switches, undo and redo, every node of the live forest, and of every history
entry, has `relation` non-null if and only if `parentId` is non-null. -/
theorem forest_edge_invariant (s : AppState) (h : Reachable s) :
    (∀ n ∈ s.nodes, (n.relation ≠ none ↔ n.parentId ≠ none)) ∧
    (∀ snapshot ∈ s.hist.history, ∀ n ∈ snapshot, (n.relation ≠ none ↔ n.parentId ≠ none)) :=
  reachable_stateOK s h
/-! ## A drop commit that nests a node under itself -/

/-- C5 (failing input): from the initial load of `we We God` and a switch to canvas
mode, pointer 1 drags `God` next to the second `We` (`n1`), which becomes the hover
target; with pointer 1 still down, pointer 2 goes down on `n1`, moves past the
dead-zone (the same-word narrowing returns before the hover target is recomputed) and
is released: the drop commit nests `n1` under the stale hover target `n1`, itself. The
forest had no edge at all when the drag of pointer 2 started. -/
theorem drop_commit_creates_cycle :
    initialLoad 10 sampleViewport sampleIds "we We God" = some cycleLoaded ∧
    toggleViewMode 10 sampleViewport cycleLoaded = some cycleCanvas ∧
    handlePointerMove 10 sampleViewport cycleDown1
      { pointerId := 1, clientX := 499 / 2, clientY := 170 } = some cycleMove1 ∧
    cycleMove1.hoverTarget = some "n1" ∧
    (∀ n ∈ cycleDown2.nodes, n.parentId = none) ∧
    handlePointerMove 10 sampleViewport cycleDown2
      { pointerId := 2, clientX := 178, clientY := 170 } = some cycleMove2 ∧
    handlePointerUp 10 sampleViewport cycleMove2
      { pointerId := 2, clientX := 178, clientY := 170 } = some cycleUp2 ∧
    cycleUp2.nodes.map (fun n => (n.id, n.parentId, n.relation))
      = [("n0", none, none), ("n2", none, none), ("n1", some "n1", some "how")] := by
  refine ⟨by decide!, by decide!, by decide!, by decide!, by decide!, by decide!, by decide!,
    by decide!⟩

/-- Instance of `forest_edge_invariant`: the state after the two-pointer drop of
`drop_commit_creates_cycle` is reachable, and its nodes satisfy the edge invariant. -/
theorem forest_edge_invariant_witness :
    Reachable cycleUp2 ∧
    (∀ n ∈ cycleUp2.nodes, (n.relation ≠ none ↔ n.parentId ≠ none)) ∧
    (∀ snapshot ∈ cycleUp2.hist.history, ∀ n ∈ snapshot,
      (n.relation ≠ none ↔ n.parentId ≠ none)) := by
  have h0 : Reachable cycleLoaded :=
    Reachable.load 10 sampleViewport sampleIds "we We God" _ (by decide!)
  have h1 : Reachable cycleCanvas := Reachable.viewMode 10 sampleViewport _ _ h0 (by decide!)
  have h2 : Reachable cycleDown1 := Reachable.pointerDown _ _ _ h1
  have h3 : Reachable cycleMove1 := Reachable.pointerMove 10 sampleViewport _ _
    { pointerId := 1, clientX := 499 / 2, clientY := 170 } h2 (by decide!)
  have h4 : Reachable cycleDown2 := Reachable.pointerDown _ _ _ h3
  have h5 : Reachable cycleMove2 := Reachable.pointerMove 10 sampleViewport _ _
    { pointerId := 2, clientX := 178, clientY := 170 } h4 (by decide!)
  have h6 : Reachable cycleUp2 := Reachable.pointerUp 10 sampleViewport _ _
    { pointerId := 2, clientX := 178, clientY := 170 } h5 (by decide!)
  exact ⟨h6, forest_edge_invariant cycleUp2 h6⟩

/-! ## History entries per operation -/

theorem saveToHistory_last (h : History) (newNodes : List Node) :
    (saveToHistory h newNodes).history.getLast? = some newNodes ∧
    (saveToHistory h newNodes).historyIndex = ((saveToHistory h newNodes).history.length : Int) - 1 := by
  refine ⟨?_, rfl⟩
  simp only [saveToHistory]
  split
  · rename_i hlen
    cases hl : sliceTo h.history (h.historyIndex + 1) with
    | nil => rw [hl] at hlen; simp at hlen
    | cons a l => simp
  · simp

theorem updateNodes_recorded (fuel : Nat) (vp : Viewport) (s t : AppState) (newNodes : List Node)
    (shouldResolve : Bool) (h : updateNodes fuel vp s newNodes shouldResolve = some t) :
    Recorded s t := by
  simp only [updateNodes, Option.map_eq_some'] at h
  obtain ⟨final, _, rfl⟩ := h
  exact ⟨rfl, (saveToHistory_last _ _).1, (saveToHistory_last _ _).2⟩

theorem toggleStyle_recorded (fuel : Nat) (vp : Viewport) (s t : AppState) (k : StyleKey)
    (hsel : s.selection ≠ []) (h : toggleStyle fuel vp s k = some t) : Recorded s t := by
  unfold toggleStyle at h
  rw [if_neg (by simpa using hsel)] at h
  exact updateNodes_recorded fuel vp s t _ true h

theorem changeFontSize_recorded (fuel : Nat) (vp : Viewport) (s t : AppState) (delta : ℚ)
    (hsel : s.selection ≠ []) (h : changeFontSize fuel vp s delta = some t) : Recorded s t := by
  unfold changeFontSize at h
  rw [if_neg (by simpa using hsel)] at h
  exact updateNodes_recorded fuel vp s t _ true h

theorem clearFormatting_recorded (fuel : Nat) (vp : Viewport) (s t : AppState)
    (hsel : s.selection ≠ []) (h : clearFormatting fuel vp s = some t) : Recorded s t := by
  unfold clearFormatting at h
  rw [if_neg (by simpa using hsel)] at h
  exact updateNodes_recorded fuel vp s t _ true h

theorem detachNode_recorded (fuel : Nat) (vp : Viewport) (s t : AppState)
    (hsel : s.selection ≠ []) (h : detachNode fuel vp s = some t) : Recorded s t := by
  unfold detachNode at h
  rw [if_neg (by simpa using hsel)] at h
  exact updateNodes_recorded fuel vp s t _ true h

theorem recorded_of_hist_eq (s1 s t : AppState) (h1 : s1.hist = s.hist) (h : Recorded s1 t) :
    Recorded s t := by
  unfold Recorded at *
  rw [h1] at h
  exact h

theorem setHighlight_recorded (fuel : Nat) (vp : Viewport) (s t : AppState) (colorId : String)
    (hsel : s.selection ≠ []) (h : setHighlight fuel vp s colorId = some t) : Recorded s t := by
  unfold setHighlight at h
  dsimp only at h
  split at h
  · rename_i h0
    exact absurd (List.length_eq_zero.mp h0) hsel
  · have hr := updateNodes_recorded fuel vp _ t _ true h
    refine recorded_of_hist_eq _ s t ?_ hr
    exact hist_ite _ _ _ (fun h => h = s.hist) rfl rfl

theorem loadPassage_recorded (fuel : Nat) (vp : Viewport) (genId : Nat → String) (s t : AppState)
    (text : String) (h : loadPassage fuel vp genId s text = some t) : Recorded s t := by
  simp only [loadPassage, Option.map_eq_some'] at h
  obtain ⟨t1, ht1, rfl⟩ := h
  exact updateNodes_recorded fuel vp s t1 _ true ht1

theorem initialLoad_recorded (fuel : Nat) (vp : Viewport) (genId : Nat → String) (text : String)
    (t : AppState) (h : initialLoad fuel vp genId text = some t) : Recorded AppState.initial t := by
  simp only [initialLoad, Option.map_eq_some'] at h
  obtain ⟨resolved, _, rfl⟩ := h
  exact ⟨rfl, (saveToHistory_last _ _).1, (saveToHistory_last _ _).2⟩

theorem releaseMoved_recorded (fuel : Nat) (vp : Viewport) (s t : AppState) (d : DragState)
    (b : Bool) (h : releaseMoved fuel vp s d = some (t, b)) :
    (b = true ∧ Recorded s t) ∨ (b = false ∧ t = s) := by
  unfold releaseMoved at h
  split at h
  · split at h
    · simp only [Option.some.injEq, Prod.mk.injEq] at h
      exact Or.inr ⟨h.2.symm, h.1.symm⟩
    · simp only [Option.map_eq_some', Prod.mk.injEq] at h
      obtain ⟨t1, ht1, rfl, rfl⟩ := h
      exact Or.inl ⟨rfl, updateNodes_recorded fuel vp s t1 _ true ht1⟩
  · simp only [Option.map_eq_some', Prod.mk.injEq] at h
    obtain ⟨t1, ht1, rfl, rfl⟩ := h
    exact Or.inl ⟨rfl, updateNodes_recorded fuel vp s t1 _ false ht1⟩

theorem handlePointerUp_recorded (fuel : Nat) (vp : Viewport) (s t : AppState) (e : PointerEvt)
    (d : DragState) (hd : s.dragState = some d) (hty : d.type = .node)
    (hmv : d.hasMoved = true) (hp : e.pointerId = d.pointerId)
    (h : handlePointerUp fuel vp s e = some t) : Recorded s t ∨ t = s := by
  unfold handlePointerUp at h
  simp only [hd, hp, ne_eq, not_true_eq_false, if_false, hty, hmv, if_true,
    Option.map_eq_some'] at h
  obtain ⟨⟨t1, b⟩, ht1, rfl⟩ := h
  rcases releaseMoved_recorded fuel vp s t1 d b ht1 with ⟨rfl, hr⟩ | ⟨rfl, rfl⟩
  · exact Or.inl hr
  · exact Or.inr rfl

/-- C10 (counterexample): the switch from canvas mode back to book mode finds cached
book positions, passes the forest through `resolveOverlaps` and installs the result,
which differs from the forest before the switch, yet the history is unchanged: it still
holds the single entry of the initial load. -/
theorem view_switch_records_nothing :
    toggleViewMode 10 sampleViewport cycleCanvas = some cycleBack ∧
    cycleCanvas.cacheBook ≠ [] ∧
    resolveOverlaps 10 1000
      (cycleCanvas.nodes.map (fun n =>
        match lookupPos cycleCanvas.cacheBook n.id with
        | some pos => { n with x := pos.1, y := pos.2 }
        | none => n)) .book = some cycleBack.nodes ∧
    cycleBack.nodes ≠ cycleCanvas.nodes ∧
    cycleBack.hist = cycleCanvas.hist ∧
    cycleBack.hist.history.length = 1 := by
  refine ⟨by decide!, by decide!, by decide!, by decide!, by decide!, by decide!⟩

/-- C10 (amended): a drop commit, a release without target, a style toggle, a highlight,
a font-size change, clear formatting, a detach (each with a non-empty selection), a
passage load and the initial load record exactly once: the history after the operation
is the result of one `saveToHistory` call with the forest the operation installed,
whose last entry, under the cursor, is that forest (a pointer-up whose hover target is
not a node of the forest installs nothing and leaves the state unchanged); a view-mode
switch and a pointer-move leave the history unchanged. -/
theorem one_history_entry_per_commit (fuel : Nat) (vp : Viewport) (s t : AppState) :
    (∀ (e : PointerEvt) (d : DragState), s.dragState = some d → d.type = .node →
      d.hasMoved = true → e.pointerId = d.pointerId →
      handlePointerUp fuel vp s e = some t → Recorded s t ∨ t = s) ∧
    (∀ k, s.selection ≠ [] → toggleStyle fuel vp s k = some t → Recorded s t) ∧
    (∀ colorId, s.selection ≠ [] → setHighlight fuel vp s colorId = some t → Recorded s t) ∧
    (∀ delta, s.selection ≠ [] → changeFontSize fuel vp s delta = some t → Recorded s t) ∧
    (s.selection ≠ [] → clearFormatting fuel vp s = some t → Recorded s t) ∧
    (s.selection ≠ [] → detachNode fuel vp s = some t → Recorded s t) ∧
    (∀ genId text, loadPassage fuel vp genId s text = some t → Recorded s t) ∧
    (∀ genId text, initialLoad fuel vp genId text = some t → Recorded AppState.initial t) ∧
    (toggleViewMode fuel vp s = some t → t.hist = s.hist) ∧
    (∀ e, handlePointerMove fuel vp s e = some t → t.hist = s.hist) :=
  ⟨fun e d h1 h2 h3 h4 h5 => handlePointerUp_recorded fuel vp s t e d h1 h2 h3 h4 h5,
   fun k h1 h2 => toggleStyle_recorded fuel vp s t k h1 h2,
   fun c h1 h2 => setHighlight_recorded fuel vp s t c h1 h2,
   fun delta h1 h2 => changeFontSize_recorded fuel vp s t delta h1 h2,
   fun h1 h2 => clearFormatting_recorded fuel vp s t h1 h2,
   fun h1 h2 => detachNode_recorded fuel vp s t h1 h2,
   fun genId text h => loadPassage_recorded fuel vp genId s t text h,
   fun genId text h => initialLoad_recorded fuel vp genId text t h,
   fun h => by
     unfold toggleViewMode at h
     simp only [Option.map_eq_some'] at h
     obtain ⟨next, _, rfl⟩ := h
     exact hist_ite _ _ _ (fun h => h = s.hist) rfl rfl,
   fun e h => (handlePointerMove_frame fuel vp s t e h).1⟩

/-- Instance of `one_history_entry_per_commit`: the pointer-up of
`drop_commit_creates_cycle` is a drop commit and appends the forest it installs as the
second history entry; the move before it left the history unchanged. -/
theorem one_history_entry_per_commit_witness :
    (Recorded cycleMove2 cycleUp2 ∨ cycleUp2 = cycleMove2) ∧
    cycleUp2.hist.history = cycleMove2.hist.history ++ [cycleUp2.nodes] ∧
    cycleUp2.hist.historyIndex = 1 := by
  have h := (one_history_entry_per_commit 10 sampleViewport cycleMove2 cycleUp2).1
    { pointerId := 2, clientX := 178, clientY := 170 }
    (cycleMove2.dragState.getD { type := .canvas, pointerId := 0, startX := 0, startY := 0 })
    (by decide!) (by decide!) (by decide!) (by decide!) (by decide!)
  exact ⟨h, by decide!, by decide!⟩

/-! ## Layout engine -/

theorem tokenWidth_pos (mode : Mode) (n : Node) : 0 < tokenWidth mode n := by
  unfold tokenWidth estimateWidth
  have : (0 : ℚ) ≤ (jsLength n.text : ℚ) := Nat.cast_nonneg _
  cases isBook mode <;> simp <;> positivity

theorem wordSpacing_pos (mode : Mode) : 0 < (LAYOUT_CONFIG mode).wordSpacing := by
  cases mode <;> simp [LAYOUT_CONFIG]

theorem lineHeight_pos (mode : Mode) : 0 < (LAYOUT_CONFIG mode).lineHeight := by
  cases mode <;> simp [LAYOUT_CONFIG]

theorem lineWidth_nonneg (mode : Mode) (l : List Node) : 0 ≤ lineWidth mode l := by
  induction l with
  | nil => simp [lineWidth]
  | cons n rest ih =>
    cases rest with
    | nil => simpa [lineWidth] using (tokenWidth_pos mode n).le
    | cons m rest =>
      simp only [lineWidth]
      have := tokenWidth_pos mode n
      have := wordSpacing_pos mode
      linarith

theorem lineWidth_cons (mode : Mode) (n : Node) (rest : List Node) (h : rest ≠ []) :
    lineWidth mode (n :: rest)
      = tokenWidth mode n + (LAYOUT_CONFIG mode).wordSpacing + lineWidth mode rest := by
  cases rest with
  | nil => exact absurd rfl h
  | cons m rest => rfl

theorem tokenWidth_le_lineWidth (mode : Mode) (n : Node) (rest : List Node) :
    tokenWidth mode n ≤ lineWidth mode (n :: rest) := by
  cases rest with
  | nil => simp [lineWidth]
  | cons m rest =>
    simp only [lineWidth]
    have := lineWidth_nonneg mode (m :: rest)
    have := wordSpacing_pos mode
    linarith

theorem layoutFrom_cons_noWrap (windowWidth : ℚ) (mode : Mode) (cx cy : ℚ) (n : Node)
    (rest : List Node) (h : cx + tokenWidth mode n ≤ maxRightEdge windowWidth mode) :
    layoutFrom windowWidth mode cx cy (n :: rest)
      = { n with x := cx + tokenWidth mode n / 2, y := cy } ::
          layoutFrom windowWidth mode (cx + tokenWidth mode n + (LAYOUT_CONFIG mode).wordSpacing)
            cy rest := by
  have hw : ¬ (cx + estimateWidth n.text (isBook mode) > maxRightEdge windowWidth mode) :=
    not_lt.mpr h
  simp only [layoutFrom, tokenWidth, hw, decide_False, Bool.false_eq_true, if_false]

theorem layoutFrom_cons_wrap (windowWidth : ℚ) (mode : Mode) (cx cy : ℚ) (n : Node)
    (rest : List Node) (h : cx + tokenWidth mode n > maxRightEdge windowWidth mode) :
    layoutFrom windowWidth mode cx cy (n :: rest)
      = { n with x := startX windowWidth mode + tokenWidth mode n / 2,
                 y := cy + (LAYOUT_CONFIG mode).lineHeight } ::
          layoutFrom windowWidth mode
            (startX windowWidth mode + tokenWidth mode n + (LAYOUT_CONFIG mode).wordSpacing)
            (cy + (LAYOUT_CONFIG mode).lineHeight) rest := by
  have hw : cx + estimateWidth n.text (isBook mode) > maxRightEdge windowWidth mode := h
  simp only [layoutFrom, tokenWidth, hw, decide_True, if_true]

theorem layoutFrom_single_line (windowWidth : ℚ) (mode : Mode) (l : List Node) :
    ∀ cx cy : ℚ, cx + lineWidth mode l ≤ maxRightEdge windowWidth mode →
      (∀ m ∈ layoutFrom windowWidth mode cx cy l, m.y = cy) ∧
      (∀ m ∈ (layoutFrom windowWidth mode cx cy l).head?, tokenLeft mode m = cx) ∧
      List.Chain' (fun a b => a.x < b.x ∧
        tokenLeft mode b - tokenRight mode a = (LAYOUT_CONFIG mode).wordSpacing)
        (layoutFrom windowWidth mode cx cy l) := by
  induction l with
  | nil => intro cx cy _; simp [layoutFrom]
  | cons n rest ih =>
    intro cx cy h
    have hn : cx + tokenWidth mode n ≤ maxRightEdge windowWidth mode :=
      le_trans (by linarith [tokenWidth_le_lineWidth mode n rest]) h
    rw [layoutFrom_cons_noWrap windowWidth mode cx cy n rest hn]
    cases rest with
    | nil =>
      simp [layoutFrom, tokenLeft, tokenWidth]
    | cons m rest =>
      have hrest : cx + tokenWidth mode n + (LAYOUT_CONFIG mode).wordSpacing
          + lineWidth mode (m :: rest) ≤ maxRightEdge windowWidth mode := by
        rw [lineWidth_cons mode n (m :: rest) (by simp)] at h
        linarith
      obtain ⟨h1, h2, h3⟩ := ih _ cy hrest
      refine ⟨?_, ?_, ?_⟩
      · intro k hk
        rcases List.mem_cons.mp hk with rfl | hk
        · rfl
        · exact h1 k hk
      · intro k hk
        simp only [List.head?_cons, Option.mem_def, Option.some.injEq] at hk
        subst hk
        simp [tokenLeft, tokenWidth]
      · have hm : cx + tokenWidth mode n + (LAYOUT_CONFIG mode).wordSpacing + tokenWidth mode m
            ≤ maxRightEdge windowWidth mode :=
          le_trans (by linarith [tokenWidth_le_lineWidth mode m rest]) hrest
        rw [layoutFrom_cons_noWrap windowWidth mode _ cy m rest hm] at h2 h3 ⊢
        refine List.Chain'.cons ?_ h3
        have hwn := tokenWidth_pos mode n
        have hwm := tokenWidth_pos mode m
        have hsp := wordSpacing_pos mode
        simp only [tokenLeft, tokenRight, tokenWidth] at *
        constructor
        · linarith
        · ring

/-- C13: Single-line layout. When the estimated widths of the tokens plus `wordSpacing`
between consecutive tokens sum to at most the container width, `calculateLayout` gives
every node the `y` 160, puts the left edge of the first node at `startX`, that is its
centre at `startX` plus half its estimated width, with
`startX = (viewportWidth - containerWidth) / 2`, and along the sequence `x` increases
strictly and the edge gap between consecutive nodes is exactly `wordSpacing`. -/
theorem single_line_layout (windowWidth : ℚ) (mode : Mode) (nodes : List Node)
    (h : lineWidth mode nodes ≤ containerWidth windowWidth mode) :
    (∀ m ∈ calculateLayout windowWidth nodes mode, m.y = 160) ∧
    (∀ m ∈ (calculateLayout windowWidth nodes mode).head?,
      m.x = startX windowWidth mode + estimateWidth m.text (isBook mode) / 2) ∧
    startX windowWidth mode = (windowWidth - containerWidth windowWidth mode) / 2 ∧
    List.Chain' (fun a b => a.x < b.x ∧
      (b.x - estimateWidth b.text (isBook mode) / 2) - (a.x + estimateWidth a.text (isBook mode) / 2)
        = (LAYOUT_CONFIG mode).wordSpacing)
      (calculateLayout windowWidth nodes mode) := by
  have hfit : startX windowWidth mode + lineWidth mode nodes ≤ maxRightEdge windowWidth mode := by
    unfold maxRightEdge
    linarith
  obtain ⟨h1, h2, h3⟩ := layoutFrom_single_line windowWidth mode nodes _ 160 hfit
  refine ⟨h1, ?_, rfl, h3⟩
  intro m hm
  have := h2 m hm
  simp only [tokenLeft, tokenWidth] at this
  linarith

/-- Instance of `single_line_layout`: the six tokens of `God shows his love for us` fit
on one book-mode line of a 1000 pixel wide viewport. -/
theorem single_line_layout_witness :
    lineWidth .book sentenceRaw ≤ containerWidth 1000 .book ∧
    (calculateLayout 1000 sentenceRaw .book).map (fun n => (n.text, n.x, n.y))
      = [("God", 967 / 4, 160), ("shows", 1167 / 4, 160), ("his", 1367 / 4, 160),
         ("love", 773 / 2, 160), ("for", 1725 / 4, 160), ("us", 931 / 2, 160)] ∧
    (∀ m ∈ calculateLayout 1000 sentenceRaw .book, m.y = 160) :=
  ⟨by decide!, by decide!, (single_line_layout 1000 .book sentenceRaw (by decide!)).1⟩

theorem layoutFrom_inside (windowWidth : ℚ) (mode : Mode) (l : List Node) :
    ∀ cx cy : ℚ, startX windowWidth mode ≤ cx →
      (∀ m ∈ layoutFrom windowWidth mode cx cy l,
        tokenWidth mode m ≤ containerWidth windowWidth mode →
          startX windowWidth mode ≤ tokenLeft mode m ∧
          tokenRight mode m ≤ maxRightEdge windowWidth mode) ∧
      (∀ m ∈ (layoutFrom windowWidth mode cx cy l).head?,
        m.y = cy ∨ m.y = cy + (LAYOUT_CONFIG mode).lineHeight) ∧
      List.Chain' (fun a b => b.y = a.y ∨ b.y = a.y + (LAYOUT_CONFIG mode).lineHeight)
        (layoutFrom windowWidth mode cx cy l) := by
  induction l with
  | nil => intro cx cy _; simp [layoutFrom]
  | cons n rest ih =>
    intro cx cy hcx
    have hwn := tokenWidth_pos mode n
    have hsp := wordSpacing_pos mode
    by_cases hw : cx + tokenWidth mode n > maxRightEdge windowWidth mode
    · rw [layoutFrom_cons_wrap windowWidth mode cx cy n rest hw]
      obtain ⟨h1, h2, h3⟩ := ih
        (startX windowWidth mode + tokenWidth mode n + (LAYOUT_CONFIG mode).wordSpacing)
        (cy + (LAYOUT_CONFIG mode).lineHeight) (by linarith)
      refine ⟨?_, ?_, ?_⟩
      · intro m hm hfit
        rcases List.mem_cons.mp hm with rfl | hm
        · simp only [tokenLeft, tokenRight, tokenWidth, maxRightEdge] at *
          constructor <;> linarith
        · exact h1 m hm hfit
      · intro m hm
        simp only [List.head?_cons, Option.mem_def, Option.some.injEq] at hm
        subst hm
        exact Or.inr rfl
      · rw [List.chain'_cons']
        exact ⟨fun m hm => h2 m hm, h3⟩
    · have hw1 : cx + tokenWidth mode n ≤ maxRightEdge windowWidth mode := not_lt.mp hw
      rw [layoutFrom_cons_noWrap windowWidth mode cx cy n rest hw1]
      obtain ⟨h1, h2, h3⟩ := ih
        (cx + tokenWidth mode n + (LAYOUT_CONFIG mode).wordSpacing) cy (by linarith)
      refine ⟨?_, ?_, ?_⟩
      · intro m hm hfit
        rcases List.mem_cons.mp hm with rfl | hm
        · simp only [tokenLeft, tokenRight, tokenWidth] at *
          constructor <;> linarith
        · exact h1 m hm hfit
      · intro m hm
        simp only [List.head?_cons, Option.mem_def, Option.some.injEq] at hm
        subst hm
        exact Or.inl rfl
      · rw [List.chain'_cons']
        exact ⟨fun m hm => h2 m hm, h3⟩

/-- C14: Wrapping keeps tokens inside the container. Every node placed by
`calculateLayout` whose estimated width is at most the container width has its left
edge at or right of `startX` and its right edge at or left of
`startX + containerWidth`; along the sequence `y` never decreases, and where it changes
(a wrap) it grows by exactly `lineHeight`. -/
theorem wrapped_layout_inside (windowWidth : ℚ) (mode : Mode) (nodes : List Node) :
    (∀ m ∈ calculateLayout windowWidth nodes mode,
      estimateWidth m.text (isBook mode) ≤ containerWidth windowWidth mode →
        startX windowWidth mode ≤ m.x - estimateWidth m.text (isBook mode) / 2 ∧
        m.x + estimateWidth m.text (isBook mode) / 2
          ≤ startX windowWidth mode + containerWidth windowWidth mode) ∧
    (∀ m ∈ (calculateLayout windowWidth nodes mode).head?,
      m.y = 160 ∨ m.y = 160 + (LAYOUT_CONFIG mode).lineHeight) ∧
    List.Chain' (fun a b => a.y ≤ b.y ∧ (b.y ≠ a.y → b.y = a.y + (LAYOUT_CONFIG mode).lineHeight))
      (calculateLayout windowWidth nodes mode) := by
  obtain ⟨h1, h2, h3⟩ := layoutFrom_inside windowWidth mode nodes (startX windowWidth mode) 160
    (le_refl _)
  refine ⟨h1, h2, ?_⟩
  refine List.Chain'.imp ?_ h3
  intro a b hab
  have := lineHeight_pos mode
  rcases hab with h | h
  · exact ⟨h.ge, fun hne => absurd h hne⟩
  · exact ⟨by linarith, fun _ => h⟩

/-- Instance of `wrapped_layout_inside` on `longRaw`: the tenth token `have` wraps to the
second line, where its left edge is at `startX = 225`. -/
theorem wrapped_layout_inside_witness :
    (calculateLayout 1000 longRaw .book)[9]? = some (mkNode "n" "have" 247 208) ∧
    startX 1000 .book = 225 ∧
    startX 1000 .book
      ≤ (mkNode "n" "have" 247 208).x
        - estimateWidth (mkNode "n" "have" 247 208).text (isBook .book) / 2 ∧
    (mkNode "n" "have" 247 208).x
        + estimateWidth (mkNode "n" "have" 247 208).text (isBook .book) / 2
      ≤ startX 1000 .book + containerWidth 1000 .book :=
  ⟨by decide!, by decide!,
   (wrapped_layout_inside 1000 .book longRaw).1 (mkNode "n" "have" 247 208) (by decide!)
     (by decide!)⟩

/-! ## Gap closer -/

theorem closeGaps_single_on_line (nodes : List Node) (item : MovedItem) (a : Node)
    (hwas : item.wasRoot = true) (ha : a ∈ nodes) (haroot : a.parentId = none)
    (hay : |a.y - item.oldY| < 15) :
    closeGaps nodes [item] .book = nodes.map (shiftForGap item) := by
  simp only [closeGaps, List.foldl_cons, List.foldl_nil, closeGapsItem, hwas, Bool.not_true]
  have hmap : (nodes.map (fun node =>
      if truthy node.parentId then node
      else if |node.y - item.oldY| < (LAYOUT_CONFIG .book).rowTolerance ∧ node.x > item.oldX then
        { node with x := node.x - (estimateWidth item.text (isBook .book)
            + (LAYOUT_CONFIG .book).wordSpacing) }
      else node)) = nodes.map (shiftForGap item) := rfl
  have hline : (nodes.map (shiftForGap item)).any (fun n =>
      !truthy n.parentId && decide (|n.y - item.oldY| < (LAYOUT_CONFIG .book).rowTolerance))
      = true := by
    rw [List.any_eq_true]
    refine ⟨shiftForGap item a, List.mem_map.mpr ⟨a, ha, rfl⟩, ?_⟩
    have hp : (shiftForGap item a).parentId = none := by
      unfold shiftForGap
      split
      · exact haroot
      · split <;> exact haroot
    have hy : (shiftForGap item a).y = a.y := by
      unfold shiftForGap
      split
      · rfl
      · split <;> rfl
    simp only [hp, hy, truthy, Bool.not_false, Bool.true_and, decide_eq_true_eq]
    exact hay
  simp only [Bool.false_eq_true, if_false, hmap, hline, Bool.not_true]

/-- C12: Gap closing on a three-node row. In book mode, let `a` and `b` be root nodes
with default scale of the forest, on the row of a vacated slot (their `y` within
`rowTolerance` of the slot's), such that the slot of the moved middle node, of the
estimated width of its text, was 6 after the right edge of `a` and 6 before the left edge
of `b`. Then `closeGaps` with the descriptor of the slot leaves `a` where it is, moves `b`
left so that the edge gap between `a` and `b` is exactly `minGap = 6`, and changes the
`y` of no node. -/
theorem gap_closing_three_nodes (nodes : List Node) (item : MovedItem) (a b : Node)
    (hwas : item.wasRoot = true) (ha : a ∈ nodes) (hb : b ∈ nodes)
    (haroot : a.parentId = none) (hbroot : b.parentId = none)
    (hascale : a.styles.scale = 1) (hbscale : b.styles.scale = 1)
    (hay : |a.y - item.oldY| < 15) (hby : |b.y - item.oldY| < 15)
    (hgap1 : (item.oldX - estimateWidth item.text true / 2) - rightEdge .book a = 6)
    (hgap2 : leftEdge .book b - (item.oldX + estimateWidth item.text true / 2) = 6) :
    closeGaps nodes [item] .book = nodes.map (shiftForGap item) ∧
    shiftForGap item a = a ∧
    shiftForGap item b = { b with x := b.x - (estimateWidth item.text true + 6) } ∧
    leftEdge .book (shiftForGap item b) - rightEdge .book (shiftForGap item a)
      = (LAYOUT_CONFIG .book).minGap ∧
    (∀ n : Node, (shiftForGap item n).y = n.y) ∧
    List.Forall₂ (fun n m : Node => m.y = n.y) nodes (closeGaps nodes [item] .book) ∧
    a ∈ closeGaps nodes [item] .book ∧
    { b with x := b.x - (estimateWidth item.text true + 6) } ∈ closeGaps nodes [item] .book := by
  have hwi := estimateWidth_nonneg item.text true
  have hwa := halfWidth_nonneg .book a (by rw [hascale]; norm_num)
  have hwb := halfWidth_nonneg .book b (by rw [hbscale]; norm_num)
  have hclose := closeGaps_single_on_line nodes item a hwas ha haroot hay
  have hfa : shiftForGap item a = a := by
    unfold shiftForGap
    rw [haroot]
    simp only [truthy, Bool.false_eq_true, if_false]
    have : ¬ a.x > item.oldX := by
      simp only [rightEdge] at hgap1
      linarith
    simp [this]
  have hfb : shiftForGap item b = { b with x := b.x - (estimateWidth item.text true + 6) } := by
    unfold shiftForGap
    rw [hbroot]
    simp only [truthy, Bool.false_eq_true, if_false]
    have : b.x > item.oldX := by
      simp only [leftEdge] at hgap2
      linarith
    simp [this, hby]
  have hy : ∀ n : Node, (shiftForGap item n).y = n.y := by
    intro n
    unfold shiftForGap
    split
    · rfl
    · split <;> rfl
  refine ⟨hclose, hfa, hfb, ?_, hy, ?_, ?_, ?_⟩
  · rw [hfa, hfb]
    simp only [leftEdge, rightEdge, halfWidth, scaleOr1, LAYOUT_CONFIG] at *
    linarith
  · rw [hclose]
    rw [List.forall₂_map_right_iff]
    exact List.forall₂_same.mpr (fun n _ => hy n)
  · rw [hclose]
    exact List.mem_map.mpr ⟨a, ha, hfa⟩
  · rw [hclose]
    exact List.mem_map.mpr ⟨b, hb, hfb⟩

/-- Instance of `gap_closing_three_nodes` on `threeRowForest`: after `shows` left the row
`God shows his`, `his` moves from 200 to 139.5, six units after `God`. -/
theorem gap_closing_three_nodes_witness :
    closeGaps threeRowForest [showsSlot] .book
      = [mkNode "g" "God" 100 160,
         { mkNode "s" "shows" 400 248 with parentId := some "l", relation := some "what" },
         mkNode "h" "his" (279 / 2) 160, mkNode "l" "love" 400 208] ∧
    leftEdge .book (shiftForGap showsSlot (mkNode "h" "his" 200 160))
        - rightEdge .book (shiftForGap showsSlot (mkNode "g" "God" 100 160))
      = (LAYOUT_CONFIG .book).minGap :=
  ⟨by decide!,
   (gap_closing_three_nodes threeRowForest showsSlot (mkNode "g" "God" 100 160)
     (mkNode "h" "his" 200 160) rfl (by decide!) (by decide!) rfl rfl rfl rfl (by decide!)
     (by decide!) (by decide!) (by decide!)).2.2.2.1⟩

/-! ## Selection rules of a pointer-down -/

theorem newSelectionOnDown_single (s : AppState) (nodeId : String) (clicked : Node)
    (hmode : s.multiSelectMode = false) (hnot : nodeId ∉ s.selection)
    (hfind : findNode s.nodes nodeId = some clicked) :
    newSelectionOnDown s false nodeId
      = nodeId :: (s.nodes.filter (fun n =>
          decide (norm n.text = norm clicked.text) && decide (n.id ≠ nodeId))).map Node.id := by
  unfold newSelectionOnDown
  simp only [hmode, Bool.or_false, Bool.false_eq_true, if_false, hnot, decide_False, hfind]
  congr 1
  rw [List.filter_map, List.filter_filter]
  congr 1
  apply List.filter_congr
  intro n _
  simp [Bool.and_comm]

/-- C16: Same-word selection. A pointer-down without multi-select modifier on a node that
is not selected sets the selection to the clicked id followed by the ids, in forest
order, of every other node whose normalized text equals that of the clicked node,
whatever the previous selection was; with distinct node ids the selection has no
duplicate; and when exactly two other nodes match, the selection has size 3 with the
clicked node first. -/
theorem same_word_selection (s : AppState) (e : PointerEvt) (nodeId : String) (clicked : Node)
    (hid : nodeId ≠ "") (hmode : s.multiSelectMode = false) (hshift : e.shiftKey = false)
    (hnot : nodeId ∉ s.selection) (hfind : findNode s.nodes nodeId = some clicked) :
    (handlePointerDown s e (some nodeId)).selection
      = nodeId :: (s.nodes.filter (fun n =>
          decide (norm n.text = norm clicked.text) && decide (n.id ≠ nodeId))).map Node.id ∧
    ((s.nodes.map Node.id).Nodup → (handlePointerDown s e (some nodeId)).selection.Nodup) ∧
    ((s.nodes.filter (fun n =>
        decide (norm n.text = norm clicked.text) && decide (n.id ≠ nodeId))).length = 2 →
      (handlePointerDown s e (some nodeId)).selection.length = 3 ∧
      (handlePointerDown s e (some nodeId)).selection.head? = some nodeId) := by
  obtain ⟨_, _, _, hsel, _⟩ := handlePointerDown_node s e nodeId hid
  have hnew := newSelectionOnDown_single s nodeId clicked hmode hnot hfind
  rw [hshift] at hsel
  rw [hsel, hnew]
  refine ⟨rfl, ?_, ?_⟩
  · intro hnd
    rw [List.nodup_cons]
    constructor
    · intro hmem
      obtain ⟨n, hn, hnid⟩ := List.mem_map.mp hmem
      have := (List.mem_filter.mp hn).2
      simp only [Bool.and_eq_true, decide_eq_true_eq] at this
      exact this.2 hnid
    · exact (hnd.sublist (List.Sublist.map _ (List.filter_sublist _)))
  · intro hlen
    exact ⟨by rw [List.length_cons, List.length_map, hlen], rfl⟩

/-- Instance of `same_word_selection` on `threeLoves`: a pointer-down on `c` selects `c`,
then `a` and `d`, the two other nodes whose normalized text is `love`. -/
theorem same_word_selection_witness :
    (handlePointerDown threeLoves { pointerId := 1, clientX := 200, clientY := 160 }
      (some "c")).selection = ["c", "a", "d"] ∧
    (handlePointerDown threeLoves { pointerId := 1, clientX := 200, clientY := 160 }
      (some "c")).selection.length = 3 :=
  ⟨by decide!,
   ((same_word_selection threeLoves { pointerId := 1, clientX := 200, clientY := 160 } "c"
     (mkNode "c" "love" 200 160) (by decide) rfl rfl (by decide!) (by decide!)).2.2
       (by decide!)).1⟩

theorem newSelectionOnDown_multi (s : AppState) (shiftKey : Bool) (nodeId : String)
    (hmulti : (s.multiSelectMode || shiftKey) = true) (hnot : nodeId ∉ s.selection) :
    newSelectionOnDown s shiftKey nodeId
      = if hasMultipleWordsOf s nodeId = true ∧ firstWordNormOf s ≠ "" then
          (s.selection ++ [nodeId]).filter (fun id =>
            decide (some id = s.selection.head?) || decide (normOfId s.nodes id ≠ firstWordNormOf s))
        else s.selection ++ [nodeId] := by
  unfold newSelectionOnDown
  simp only [hmulti, if_true, hnot, decide_False, Bool.false_eq_true, if_false]
  rfl

theorem newSelectionOnDown_selected (s : AppState) (shiftKey : Bool) (nodeId : String)
    (hsel : nodeId ∈ s.selection) : newSelectionOnDown s shiftKey nodeId = s.selection := by
  unfold newSelectionOnDown
  simp only [hsel, decide_True, if_true]
  split <;> rfl

theorem handlePointerDown_pending (s : AppState) (e : PointerEvt) (nodeId : String)
    (hid : nodeId ≠ "") :
    ∃ d : DragState,
      (handlePointerDown s e (some nodeId)).dragState = some d ∧
      d.type = .node ∧ d.mainNodeId = nodeId ∧ d.hasMoved = false ∧ d.pointerId = e.pointerId ∧
      d.startX = (getCanvasCoordinates s e).1 ∧ d.startY = (getCanvasCoordinates s e).2 ∧
      d.pendingDeselect = ((s.multiSelectMode || e.shiftKey) && decide (nodeId ∈ s.selection)) ∧
      d.pendingClearSelection
        = (!(s.multiSelectMode || e.shiftKey) && decide (nodeId ∈ s.selection)) := by
  have htr : truthy (some nodeId) = true := by simp [truthy, hid]
  unfold handlePointerDown
  rw [if_pos htr]
  exact ⟨_, rfl, rfl, rfl, rfl, rfl, rfl, rfl, rfl, rfl⟩

theorem handlePointerDown_view (s : AppState) (e : PointerEvt) (nodeId : String)
    (hid : nodeId ≠ "") :
    (handlePointerDown s e (some nodeId)).viewMode = s.viewMode ∧
    (handlePointerDown s e (some nodeId)).offsetX = s.offsetX ∧
    (handlePointerDown s e (some nodeId)).offsetY = s.offsetY ∧
    (handlePointerDown s e (some nodeId)).scale = s.scale := by
  have htr : truthy (some nodeId) = true := by simp [truthy, hid]
  unfold handlePointerDown
  rw [if_pos htr]
  exact ⟨rfl, rfl, rfl, rfl⟩

theorem handlePointerMove_deadZone (fuel : Nat) (vp : Viewport) (s : AppState) (d : DragState)
    (e : PointerEvt) (hd : s.dragState = some d) (hty : d.type = .node)
    (hmv : d.hasMoved = false)
    (hnear : ((getCanvasCoordinates s e).1 - d.startX) * ((getCanvasCoordinates s e).1 - d.startX)
      + ((getCanvasCoordinates s e).2 - d.startY) * ((getCanvasCoordinates s e).2 - d.startY)
      ≤ 3 * 3) :
    handlePointerMove fuel vp s e = some s := by
  unfold handlePointerMove
  simp only [hd, hty, hmv]
  split
  · rfl
  · simp only [Bool.not_false, true_and, hnear, if_true]

theorem handlePointerUp_click (fuel : Nat) (vp : Viewport) (s : AppState) (d : DragState)
    (e : PointerEvt) (hd : s.dragState = some d) (hty : d.type = .node)
    (hmv : d.hasMoved = false) (hp : e.pointerId = d.pointerId) :
    handlePointerUp fuel vp s e
      = some (endDrag { s with selection :=
          if d.pendingClearSelection then []
          else if d.pendingDeselect then s.selection.filter (fun id => id ≠ d.mainNodeId)
          else s.selection }) := by
  unfold handlePointerUp
  simp only [hd, hp, ne_eq, not_true_eq_false, if_false, hty, hmv, Bool.false_eq_true]

/-- C17 (counterexample): in `loveGodLove` the selection is `love1`, `god1`; a pointer-down
with the shift key on the unselected `love2` pushes it, finds two distinct words and
drops every match of the first word other than the primary, `love2` included: the
clicked node is not in the selection. -/
theorem multi_select_drops_clicked_node :
    "love2" ∉ loveGodLove.selection ∧
    (handlePointerDown loveGodLove
      { pointerId := 1, clientX := 200, clientY := 160, shiftKey := true }
      (some "love2")).selection = ["love1", "god1"] ∧
    "love2" ∉ (handlePointerDown loveGodLove
      { pointerId := 1, clientX := 200, clientY := 160, shiftKey := true }
      (some "love2")).selection := by
  refine ⟨by decide, by decide!, by decide!⟩

/-- C17 (amended): with the multi-select modifier active, a pointer-down on a node that
is not in the selection pushes it and leaves it in the selection, unless the pushed
selection spans more than one distinct normalized word and the node has the non-empty
normalized text of the primary, in which case it is dropped at once; the members that
stay keep their order. A click (pointer-down, moves inside the dead-zone, pointer-up)
on a node that is in the selection removes exactly that node and keeps the other
members in their order. -/
theorem multi_select_toggle (s : AppState) (e : PointerEvt) (nodeId : String)
    (hid : nodeId ≠ "") (hmulti : (s.multiSelectMode || e.shiftKey) = true) :
    (nodeId ∉ s.selection →
      (handlePointerDown s e (some nodeId)).selection.Sublist (s.selection ++ [nodeId]) ∧
      (nodeId ∈ (handlePointerDown s e (some nodeId)).selection ↔
        ¬ (hasMultipleWordsOf s nodeId = true ∧ firstWordNormOf s ≠ "" ∧
            normOfId s.nodes nodeId = firstWordNormOf s))) ∧
    (nodeId ∈ s.selection →
      (handlePointerDown s e (some nodeId)).selection = s.selection ∧
      (∀ (fuel : Nat) (vp : Viewport) (e2 : PointerEvt),
        ((getCanvasCoordinates s e2).1 - (getCanvasCoordinates s e).1)
            * ((getCanvasCoordinates s e2).1 - (getCanvasCoordinates s e).1)
          + ((getCanvasCoordinates s e2).2 - (getCanvasCoordinates s e).2)
            * ((getCanvasCoordinates s e2).2 - (getCanvasCoordinates s e).2) ≤ 3 * 3 →
        handlePointerMove fuel vp (handlePointerDown s e (some nodeId)) e2
          = some (handlePointerDown s e (some nodeId))) ∧
      (∀ (fuel : Nat) (vp : Viewport) (e2 : PointerEvt), e2.pointerId = e.pointerId →
        ∃ t, handlePointerUp fuel vp (handlePointerDown s e (some nodeId)) e2 = some t ∧
          t.selection = s.selection.filter (fun id => id ≠ nodeId) ∧
          t.nodes = s.nodes ∧ t.dragState = none)) := by
  obtain ⟨d, hd, hnodes, hsel, _, _⟩ := handlePointerDown_node s e nodeId hid
  obtain ⟨d1, hd1, hty, hmain, hmv, hpid, hsx, hsy, hpd, hpc⟩ :=
    handlePointerDown_pending s e nodeId hid
  obtain ⟨hv, hox, hoy, hsc⟩ := handlePointerDown_view s e nodeId hid
  constructor
  · intro hnot
    rw [hsel, newSelectionOnDown_multi s e.shiftKey nodeId hmulti hnot]
    have hne : ¬ (some nodeId = s.selection.head?) := by
      intro h
      exact hnot (List.mem_of_mem_head? h.symm)
    constructor
    · split
      · exact List.filter_sublist _
      · exact List.Sublist.refl _
    · split
      · rename_i hc
        simp only [List.mem_filter, List.mem_append, List.mem_singleton, or_true, true_and,
          hne, decide_False, Bool.false_or, decide_eq_true_eq]
        constructor
        · intro h1 h2
          exact h1 h2.2.2
        · intro h1 h2
          exact h1 ⟨hc.1, hc.2, h2⟩
      · rename_i hc
        simp only [List.mem_append, List.mem_singleton, or_true, true_iff]
        intro h
        exact hc ⟨h.1, h.2.1⟩
  · intro hin
    have hs1 : (handlePointerDown s e (some nodeId)).selection = s.selection := by
      rw [hsel, newSelectionOnDown_selected s e.shiftKey nodeId hin]
    have hcoords : ∀ e2, getCanvasCoordinates (handlePointerDown s e (some nodeId)) e2
        = getCanvasCoordinates s e2 := by
      intro e2
      simp only [getCanvasCoordinates, hv, hox, hoy, hsc]
    refine ⟨hs1, ?_, ?_⟩
    · intro fuel vp e2 hnear
      apply handlePointerMove_deadZone fuel vp _ d1 e2 hd1 hty hmv
      rw [hcoords, hsx, hsy]
      exact hnear
    · intro fuel vp e2 hp
      refine ⟨_, handlePointerUp_click fuel vp _ d1 e2 hd1 hty hmv (hp.trans hpid.symm),
        ?_, ?_, rfl⟩
      · simp only [endDrag, hpc, hpd, hmulti, hin, decide_True, Bool.not_true, Bool.false_and,
          Bool.false_eq_true, if_false, Bool.true_and, if_true, hs1, hmain]
      · simp only [endDrag, hnodes]

/-- Instance of `multi_select_toggle` on `loveGodLove`: a shift click on the selected
`god1` removes it and keeps `love1`. -/
theorem multi_select_toggle_witness :
    ∃ t, handlePointerUp 10 sampleViewport
        (handlePointerDown loveGodLove
          { pointerId := 1, clientX := 150, clientY := 160, shiftKey := true } (some "god1"))
        { pointerId := 1, clientX := 150, clientY := 160 } = some t ∧
      t.selection = loveGodLove.selection.filter (fun id => id ≠ "god1") ∧
      t.nodes = loveGodLove.nodes ∧ t.dragState = none :=
  ((multi_select_toggle loveGodLove
    { pointerId := 1, clientX := 150, clientY := 160, shiftKey := true } "god1" (by decide)
    rfl).2 (by decide)).2.2 10 sampleViewport { pointerId := 1, clientX := 150, clientY := 160 } rfl

/-- C18 (counterexample): in `loveGodGod` the selection is `love1`, `god1`; a pointer-down
with the shift key on `god2` adds it and leaves a selection of two distinct words in
which the distinct members `god1` and `god2` have the same normalized text. -/
theorem two_instances_of_second_word :
    (handlePointerDown loveGodGod
      { pointerId := 1, clientX := 200, clientY := 160, shiftKey := true }
      (some "god2")).selection = ["love1", "god1", "god2"] ∧
    ((["love1", "god1", "god2"].map (normOfId loveGodGod.nodes)).dedup.length > 1) ∧
    normOfId loveGodGod.nodes "god1" = normOfId loveGodGod.nodes "god2" := by
  refine ⟨by decide!, by decide!, by decide!⟩

/-- C18 (amended): after a multi-select pointer-down on a node that is not in the
selection, when the selection with the clicked node pushed spans more than one distinct
normalized word and the normalized text of the primary is not empty, the new selection
is the pushed selection without the matches of the primary's word other than the
primary: the primary stays first and no other member has the primary's normalized text.
Members that do not match the primary's word may share a normalized text. -/
theorem one_instance_of_first_word (s : AppState) (e : PointerEvt) (nodeId primary : String)
    (hid : nodeId ≠ "") (hmulti : (s.multiSelectMode || e.shiftKey) = true)
    (hnot : nodeId ∉ s.selection) (hprimary : s.selection.head? = some primary)
    (hpid : primary ≠ "") (hwords : hasMultipleWordsOf s nodeId = true)
    (hnorm : normOfId s.nodes primary ≠ "") :
    (handlePointerDown s e (some nodeId)).selection
      = (s.selection ++ [nodeId]).filter (fun id =>
          decide (id = primary) || decide (normOfId s.nodes id ≠ normOfId s.nodes primary)) ∧
    (handlePointerDown s e (some nodeId)).selection.head? = some primary ∧
    (∀ id ∈ (handlePointerDown s e (some nodeId)).selection, id ≠ primary →
      normOfId s.nodes id ≠ normOfId s.nodes primary) := by
  obtain ⟨d, _, _, hsel, _⟩ := handlePointerDown_node s e nodeId hid
  have hfw : firstWordNormOf s = normOfId s.nodes primary := by
    simp only [firstWordNormOf, hprimary, hpid, ne_eq, not_false_eq_true, if_true]
  have hnew := newSelectionOnDown_multi s e.shiftKey nodeId hmulti hnot
  rw [if_pos ⟨hwords, by rw [hfw]; exact hnorm⟩, hfw, hprimary] at hnew
  have hfilter : (s.selection ++ [nodeId]).filter (fun id =>
        decide (some id = some primary) || decide (normOfId s.nodes id ≠ normOfId s.nodes primary))
      = (s.selection ++ [nodeId]).filter (fun id =>
        decide (id = primary) || decide (normOfId s.nodes id ≠ normOfId s.nodes primary)) := by
    apply List.filter_congr
    intro id _
    simp
  rw [hfilter] at hnew
  rw [hsel, hnew]
  refine ⟨rfl, ?_, ?_⟩
  · obtain ⟨rest, hrest⟩ : ∃ rest, s.selection = primary :: rest := by
      cases hs : s.selection with
      | nil => rw [hs] at hprimary; simp at hprimary
      | cons a rest =>
        rw [hs] at hprimary
        simp only [List.head?_cons, Option.some.injEq] at hprimary
        exact ⟨rest, by rw [hprimary]⟩
    rw [hrest]
    simp [List.filter_cons]
  · intro id hmem hne
    have := (List.mem_filter.mp hmem).2
    simpa [hne] using this

/-- Instance of `one_instance_of_first_word` on `loveGodLove`: the shift pointer-down on
`love2` leaves `love1`, `god1`. -/
theorem one_instance_of_first_word_witness :
    (handlePointerDown loveGodLove
      { pointerId := 1, clientX := 200, clientY := 160, shiftKey := true }
      (some "love2")).selection.head? = some "love1" ∧
    (∀ id ∈ (handlePointerDown loveGodLove
        { pointerId := 1, clientX := 200, clientY := 160, shiftKey := true }
        (some "love2")).selection, id ≠ "love1" →
      normOfId loveGodLove.nodes id ≠ normOfId loveGodLove.nodes "love1") :=
  (one_instance_of_first_word loveGodLove
    { pointerId := 1, clientX := 200, clientY := 160, shiftKey := true } "love2" "love1"
    (by decide) rfl (by decide) rfl (by decide) (by decide!) (by decide!)).2

/-! ## Drop commit -/

theorem handlePointerUp_drop (fuel : Nat) (vp : Viewport) (s : AppState) (e : PointerEvt)
    (d : DragState) (target : Node) (hoverTarget satelliteHover : String)
    (hd : s.dragState = some d) (hty : d.type = .node) (hmv : d.hasMoved = true)
    (hp : e.pointerId = d.pointerId) (hh : s.hoverTarget = some hoverTarget)
    (hs : s.satelliteHover = some satelliteHover) (hne1 : hoverTarget ≠ "")
    (hne2 : satelliteHover ≠ "") (hfind : findNode s.nodes hoverTarget = some target) :
    handlePointerUp fuel vp s e
      = (updateNodes fuel vp s
          (closeGaps
            (nestNodes d s.nodes (idsToNestOf d s.nodes s.selection) hoverTarget satelliteHover
              target.x (target.y + snapGap s.viewMode))
            (movedRootsOf d s.nodes (idsToNestOf d s.nodes s.selection)) s.viewMode)
          true).map endDrag := by
  unfold handlePointerUp
  simp only [hd, hp, ne_eq, not_true_eq_false, if_false, hty, hmv, if_true]
  unfold releaseMoved
  have ht : truthy s.hoverTarget = true ∧ truthy s.satelliteHover = true := by
    simp [hh, hs, truthy, hne1, hne2]
  rw [if_pos ht]
  simp only [hh, hs, Option.getD_some, hfind, dropCommit, snapGap, Option.map_map]
  rfl

theorem nestNodes_nestedAs (d : DragState) (nodes : List Node) (idsToNest : List String)
    (hoverTarget satelliteHover : String) (snapX snapY : ℚ) :
    List.Forall₂ (NestedAs d idsToNest hoverTarget satelliteHover snapX snapY) nodes
      (nestNodes d nodes idsToNest hoverTarget satelliteHover snapX snapY) := by
  unfold nestNodes
  rw [List.forall₂_map_right_iff]
  refine List.forall₂_same.mpr (fun n _ => ?_)
  refine ⟨?_, ?_, ?_⟩
  · intro h1 h2
    simp only [h1, h2, if_true]
  · intro h1 h2 p hp
    simp only [h1, h2, if_true, if_false, hp]
  · intro h1
    simp only [h1, if_false]

/-- C19: Drop commit assignment. On pointer-up of a node drag that has moved, with an
active hover target `T` and relation `r`, the handler passes to gap closing and overlap
resolution the forest in which exactly the moving nodes whose id is in `idsToNest` (the
ids of the selected moving nodes, or only the dragged node `mainNodeId` when there are
selected moving nodes and they all share one normalized word) have `parentId = T.id`,
`relation = r` and the snap position `(T.x, T.y + 40)` in book mode or `(T.x, T.y + 120)`
in canvas mode, every other node of the moving set has the `x` and `y` recorded for it
at the start of the drag, and the nodes outside the moving set are unchanged. -/
theorem drop_commit_assignment (fuel : Nat) (vp : Viewport) (s : AppState) (e : PointerEvt)
    (d : DragState) (target : Node) (hoverTarget satelliteHover : String)
    (hd : s.dragState = some d) (hty : d.type = .node) (hmv : d.hasMoved = true)
    (hp : e.pointerId = d.pointerId) (hh : s.hoverTarget = some hoverTarget)
    (hs : s.satelliteHover = some satelliteHover) (hne1 : hoverTarget ≠ "")
    (hne2 : satelliteHover ≠ "") (hfind : findNode s.nodes hoverTarget = some target) :
    handlePointerUp fuel vp s e
      = (updateNodes fuel vp s
          (closeGaps
            (nestNodes d s.nodes (idsToNestOf d s.nodes s.selection) hoverTarget satelliteHover
              target.x (target.y + snapGap s.viewMode))
            (movedRootsOf d s.nodes (idsToNestOf d s.nodes s.selection)) s.viewMode)
          true).map endDrag ∧
    idsToNestOf d s.nodes s.selection
      = (if (selectedMovingOf d s.nodes s.selection).length > 0
            ∧ allSameWord (selectedMovingOf d s.nodes s.selection) = true
          then [d.mainNodeId] else (selectedMovingOf d s.nodes s.selection).map Node.id) ∧
    snapGap .book = 40 ∧ snapGap .canvas = 120 ∧
    List.Forall₂
      (NestedAs d (idsToNestOf d s.nodes s.selection) hoverTarget satelliteHover
        target.x (target.y + snapGap s.viewMode))
      s.nodes
      (nestNodes d s.nodes (idsToNestOf d s.nodes s.selection) hoverTarget satelliteHover
        target.x (target.y + snapGap s.viewMode)) := by
  refine ⟨handlePointerUp_drop fuel vp s e d target hoverTarget satelliteHover hd hty hmv hp hh hs
    hne1 hne2 hfind, ?_, by simp [snapGap], by simp [snapGap], nestNodes_nestedAs _ _ _ _ _ _ _⟩
  unfold idsToNestOf selectedMovingOf
  simp only [Bool.and_eq_true, decide_eq_true_eq]

/-- Instance of `drop_commit_assignment` on `sentenceDragged`: only `love` (`n3`) is nested,
under `God` (`n0`) with relation `when`, at the snap position 40 below `God`. -/
theorem drop_commit_assignment_witness :
    idsToNestOf sentenceDrag sentenceDragged.nodes sentenceDragged.selection = ["n3"] ∧
    (nestNodes sentenceDrag sentenceDragged.nodes ["n3"] "n0" "when" (967 / 4) (160 + 40)).map
        (fun n => (n.id, n.parentId, n.relation, n.x, n.y))
      = [("n0", none, none, 967 / 4, 160), ("n1", none, none, 1167 / 4, 160),
         ("n2", none, none, 1367 / 4, 160), ("n3", some "n0", some "when", 967 / 4, 200),
         ("n4", none, none, 1725 / 4, 160), ("n5", none, none, 931 / 2, 160)] ∧
    List.Forall₂
      (NestedAs sentenceDrag (idsToNestOf sentenceDrag sentenceDragged.nodes sentenceDragged.selection)
        "n0" "when" (mkNode "n0" "God" (967 / 4) 160).x
        ((mkNode "n0" "God" (967 / 4) 160).y + snapGap sentenceDragged.viewMode))
      sentenceDragged.nodes
      (nestNodes sentenceDrag sentenceDragged.nodes
        (idsToNestOf sentenceDrag sentenceDragged.nodes sentenceDragged.selection) "n0" "when"
        (mkNode "n0" "God" (967 / 4) 160).x
        ((mkNode "n0" "God" (967 / 4) 160).y + snapGap sentenceDragged.viewMode)) :=
  ⟨by decide!, by decide!,
   (drop_commit_assignment 10 sampleViewport sentenceDragged
     { pointerId := 1, clientX := 967 / 4, clientY := 170 } sentenceDrag
     (mkNode "n0" "God" (967 / 4) 160) "n0" "when" (by decide!) rfl rfl rfl rfl rfl (by decide)
     (by decide) (by decide!)).2.2.2.2⟩

/-! ## Same-word narrowing -/

theorem getDescendants_fold_total (fuel : Nat) (nodes : List Node) (cs : List Node)
    (h : ∀ c ∈ cs, ∃ more, getDescendants fuel c.id nodes = some more) :
    ∀ acc : List Node, ∃ res,
      cs.foldl
        (fun descendants child =>
          match descendants, getDescendants fuel child.id nodes with
          | some ds, some more => some (ds ++ more)
          | _, _ => none)
        (some acc) = some res := by
  induction cs with
  | nil => intro acc; exact ⟨acc, rfl⟩
  | cons c cs ih =>
    intro acc
    obtain ⟨more, hmore⟩ := h c (List.mem_cons_self _ _)
    simp only [List.foldl_cons, hmore]
    exact ih (fun c1 hc1 => h c1 (List.mem_cons_of_mem _ hc1)) (acc ++ more)

theorem getDescendants_ranked (nodes : List Node) (rank : String → Nat)
    (hrank : ∀ n ∈ nodes, ∀ p ∈ n.parentId, rank n.id < rank p) :
    ∀ (fuel : Nat) (nodeId : String), rank nodeId < fuel →
      ∃ ds, getDescendants fuel nodeId nodes = some ds := by
  intro fuel
  induction fuel with
  | zero => intro _ h; exact absurd h (Nat.not_lt_zero _)
  | succ fuel ih =>
    intro nodeId h
    simp only [getDescendants]
    apply getDescendants_fold_total
    intro c hc
    obtain ⟨hcn, hpar⟩ : c ∈ nodes ∧ c.parentId = some nodeId := by
      simpa using List.mem_filter.mp hc
    have := hrank c hcn nodeId (by rw [hpar]; rfl)
    exact ih c.id (by omega)

theorem getDescendants_ids (nodes : List Node) (fuel : Nat) (nodeId : String) (ds : List Node)
    (h : getDescendants fuel nodeId nodes = some ds) (id : String) :
    id ∈ ds.map Node.id ↔ DescendantOf nodes nodeId id := by
  obtain ⟨ha, hb, hc⟩ := getDescendants_spec nodes fuel nodeId ds h
  constructor
  · intro hid
    obtain ⟨m, hm, rfl⟩ := List.mem_map.mp hid
    exact (hc m hm).2
  · intro hdesc
    unfold DescendantOf at hdesc
    induction hdesc with
    | single hch =>
      obtain ⟨n, hn, hpar, rfl⟩ := hch
      exact List.mem_map.mpr ⟨n, ha n hn hpar, rfl⟩
    | tail _ hch ih =>
      obtain ⟨n, hn, hpar, rfl⟩ := hch
      obtain ⟨m, hm, hmid⟩ := List.mem_map.mp ih
      exact List.mem_map.mpr ⟨n, hb m hm n hn (by rw [hmid]; exact hpar), rfl⟩

theorem narrowDrag_narrowedAs (d : DragState) (nodes : List Node) (narrowedIds : List String)
    (dx dy : ℚ) :
    List.Forall₂ (NarrowedAs d narrowedIds dx dy) nodes
      (nodes.map (fun n =>
        if n.id ∈ d.idsToMove ∧ n.id ∉ narrowedIds then
          match lookupPos d.initialPositions n.id with
          | some init => { n with x := init.1, y := init.2 }
          | none => n
        else if n.id ∈ narrowedIds then
          match lookupPos d.initialPositions n.id with
          | some init => { n with x := init.1 + dx, y := init.2 + dy }
          | none => n
        else n)) := by
  rw [List.forall₂_map_right_iff]
  refine List.forall₂_same.mpr (fun n _ => ?_)
  refine ⟨?_, ?_, ?_, ?_⟩
  · intro h1 h2 p hp
    simp only [h1, h2, not_false_eq_true, and_self, if_true, hp]
  · intro h1 p hp
    simp only [h1, not_true_eq_false, and_false, if_false, if_true, hp]
  · intro h1 h2
    simp only [h1, h2, false_and, if_false]
  · intro h1
    simp only [h1]
    split
    · rfl
    · split <;> rfl

theorem narrowDrag_some (fuel : Nat) (s : AppState) (d : DragState) (dx dy : ℚ) (ds : List Node)
    (h : getDescendants fuel d.mainNodeId s.nodes = some ds) :
    narrowDrag fuel s d dx dy
      = some { s with
          nodes := s.nodes.map (fun n =>
            if n.id ∈ d.idsToMove ∧ n.id ∉ dedupKeepFirst (d.mainNodeId :: ds.map Node.id) then
              match lookupPos d.initialPositions n.id with
              | some init => { n with x := init.1, y := init.2 }
              | none => n
            else if n.id ∈ dedupKeepFirst (d.mainNodeId :: ds.map Node.id) then
              match lookupPos d.initialPositions n.id with
              | some init => { n with x := init.1 + dx, y := init.2 + dy }
              | none => n
            else n),
          selection := [d.mainNodeId],
          dragState := some { d with hasMoved := true,
                                     idsToMove := dedupKeepFirst (d.mainNodeId :: ds.map Node.id) } } := by
  unfold narrowDrag
  rw [h]

/-- C20 (counterexample): in `twoLoves` a click on `love1` selects `love1`, `love2` with
`love1` first; a pointer-down on the selected `love2` keeps that selection, and the first
move past the dead-zone narrows the moving set to the dragged node `love2`, not to the
first id of the selection `love1`: the selection becomes `love2` alone and `love2` moves. -/
theorem narrowing_follows_dragged_node :
    twoLovesPressed.map (fun t => t.selection) = some ["love1", "love2"] ∧
    twoLovesPressed.map (fun t => t.selection.head?) = some (some "love1") ∧
    twoLovesPressed.map (fun t => t.dragState.map (fun d => (d.mainNodeId, d.idsToMove)))
      = some (some ("love2", ["love1", "love2"])) ∧
    twoLovesPressed.map (fun t => t.dragState.map (fun d => d.hasMoved)) = some (some false) ∧
    twoLovesDragged.map (fun t => t.selection) = some ["love2"] ∧
    twoLovesDragged.map (fun t => t.dragState.map (fun d => d.idsToMove))
      = some (some ["love2"]) ∧
    twoLovesDragged.map (fun t => t.nodes.map (fun n => (n.id, n.x, n.y)))
      = some [("love1", 100, 160), ("god1", 150, 160), ("love2", 210, 160)] ∧
    twoLovesDragged.map (fun t => t.dragState.map (fun d => d.idsToMove))
      ≠ some (some ["love1"]) ∧
    twoLovesDragged.map (fun t => t.selection) ≠ some ["love1"] := by
  refine ⟨by decide!, by decide!, by decide!, by decide!, by decide!, by decide!, by decide!,
    by decide!, by decide!⟩

/-- C20 (amended): Same-word narrowing. In a node drag that has not yet moved, on a forest
whose child relation is well founded (ranked), a pointer-move whose displacement from the
drag start is at most 3 changes nothing; and the first pointer-move whose displacement
exceeds 3, when the moving set contains more than one root node, all with the same
normalized word, returns with the moving set narrowed to the dragged node `mainNodeId`
(the node under the pointer at pointer-down, whether or not it is the first id of the
selection) together with its transitive descendants, with every other node of the old
moving set at the position recorded for it at pointer-down, every node of the narrowed set
at its recorded position plus the displacement, every other node unchanged, the selection
equal to the single-element list holding `mainNodeId`, and no history entry added. -/
theorem same_word_narrowing (fuel : Nat) (vp : Viewport) (s : AppState) (d : DragState)
    (e : PointerEvt) (rank : String → Nat)
    (hd : s.dragState = some d) (hty : d.type = .node) (hmv : d.hasMoved = false)
    (hp : e.pointerId = d.pointerId)
    (hrank : ∀ n ∈ s.nodes, ∀ p ∈ n.parentId, rank n.id < rank p)
    (hfuel : rank d.mainNodeId < fuel) :
    (((getCanvasCoordinates s e).1 - d.startX) * ((getCanvasCoordinates s e).1 - d.startX)
        + ((getCanvasCoordinates s e).2 - d.startY) * ((getCanvasCoordinates s e).2 - d.startY)
        ≤ 3 * 3 →
      handlePointerMove fuel vp s e = some s) ∧
    (((getCanvasCoordinates s e).1 - d.startX) * ((getCanvasCoordinates s e).1 - d.startX)
        + ((getCanvasCoordinates s e).2 - d.startY) * ((getCanvasCoordinates s e).2 - d.startY)
        > 3 * 3 →
      (movingRootsOf s.nodes d).length > 1 → allSameWord (movingRootsOf s.nodes d) = true →
      ∃ t narrowedIds,
        handlePointerMove fuel vp s e = some t ∧
        t.dragState = some { d with hasMoved := true, idsToMove := narrowedIds } ∧
        (∀ id, id ∈ narrowedIds ↔ id = d.mainNodeId ∨ DescendantOf s.nodes d.mainNodeId id) ∧
        t.selection = [d.mainNodeId] ∧
        List.Forall₂
          (NarrowedAs d narrowedIds ((getCanvasCoordinates s e).1 - d.startX)
            ((getCanvasCoordinates s e).2 - d.startY))
          s.nodes t.nodes ∧
        t.hist = s.hist ∧ t.viewMode = s.viewMode) := by
  refine ⟨fun hnear => handlePointerMove_deadZone fuel vp s d e hd hty hmv hnear, ?_⟩
  intro hfar hmany hsame
  obtain ⟨ds, hds⟩ := getDescendants_ranked s.nodes rank hrank fuel d.mainNodeId hfuel
  have hnear : ¬ ((getCanvasCoordinates s e).1 - d.startX) * ((getCanvasCoordinates s e).1 - d.startX)
      + ((getCanvasCoordinates s e).2 - d.startY) * ((getCanvasCoordinates s e).2 - d.startY) ≤ 3 * 3 :=
    not_le.mpr hfar
  have hrun : handlePointerMove fuel vp s e
      = narrowDrag fuel s d ((getCanvasCoordinates s e).1 - d.startX)
          ((getCanvasCoordinates s e).2 - d.startY) := by
    unfold handlePointerMove
    simp only [hd, hp, ne_eq, not_true_eq_false, if_false, hty, hmv, Bool.not_false, true_and,
      hnear, hmany, decide_True, Bool.true_and, hsame, if_true]
  rw [hrun, narrowDrag_some fuel s d _ _ ds hds]
  refine ⟨_, dedupKeepFirst (d.mainNodeId :: ds.map Node.id), rfl, rfl, ?_, rfl, ?_, rfl, rfl⟩
  · intro id
    rw [mem_dedupKeepFirst, List.mem_cons, getDescendants_ids s.nodes fuel d.mainNodeId ds hds id]
  · exact narrowDrag_narrowedAs d s.nodes _ _ _

/-- Instance of `same_word_narrowing` on `nestedDown` (a pointer-down on `we1`, moving
`we1`, `we2`, `love`, `for`): a move of 10 units narrows the moving set to `we1`, `love`
and `for`, which move by 10, while `we2` stays at its recorded position. -/
theorem same_word_narrowing_witness :
    nestedDownDrag.idsToMove = ["we1", "we2", "love", "for"] ∧
    nestedMoved.nodes.map (fun n => (n.id, n.x, n.y))
      = [("we1", 310, 160), ("god", 350, 160), ("we2", 400, 160), ("love", 310, 200),
         ("for", 310, 240)] ∧
    ∃ t narrowedIds,
      handlePointerMove 10 sampleViewport nestedDown { pointerId := 1, clientX := 310, clientY := 160 }
        = some t ∧
      t.dragState = some { nestedDownDrag with hasMoved := true, idsToMove := narrowedIds } ∧
      (∀ id, id ∈ narrowedIds ↔
        id = nestedDownDrag.mainNodeId ∨ DescendantOf nestedDown.nodes nestedDownDrag.mainNodeId id) ∧
      t.selection = [nestedDownDrag.mainNodeId] ∧
      List.Forall₂
        (NarrowedAs nestedDownDrag narrowedIds
          ((getCanvasCoordinates nestedDown { pointerId := 1, clientX := 310, clientY := 160 }).1
            - nestedDownDrag.startX)
          ((getCanvasCoordinates nestedDown { pointerId := 1, clientX := 310, clientY := 160 }).2
            - nestedDownDrag.startY))
        nestedDown.nodes t.nodes ∧
      t.hist = nestedDown.hist ∧ t.viewMode = nestedDown.viewMode :=
  ⟨by decide!, by decide!,
   (same_word_narrowing 10 sampleViewport nestedDown nestedDownDrag
     { pointerId := 1, clientX := 310, clientY := 160 } nestedRank
     (by decide!) (by decide!) (by decide!) (by decide!) (by decide!) (by decide!)).2
     (by decide!) (by decide!) (by decide!)⟩

/-! ## Settled book-mode layouts are fixed points of the overlap resolver -/

theorem insertionSort_of_chain' {r : Node → Node → Prop} [DecidableRel r]
    (l : List Node) (h : List.Chain' r l) (hr : ∀ a b c, r a b → r b c → r a c) :
    l.insertionSort r = l := by
  haveI : IsTrans Node r := ⟨hr⟩
  exact List.Sorted.insertionSort_eq (List.chain'_iff_pairwise.mp h)

theorem spaceFrom_settled (windowWidth : ℚ) (l : List Node) :
    ∀ cur : Node, List.Chain (SameLine windowWidth) cur l → spaceFrom .book cur l = l := by
  induction l with
  | nil => intro _ _; rfl
  | cons next rest ih =>
    intro cur h
    obtain ⟨hcn, hrest⟩ := List.chain_cons.mp h
    have hx : ∀ v : ℚ, v = next.x → ({ next with x := v } : Node) = next := by
      intro v hv
      rw [hv]
    have hx := hx _ hcn.2.2.1.symm
    simp only [spaceFrom, isBook, decide_True, if_true]
    rw [hx, ih next hrest]

theorem applySpacing_settled (windowWidth : ℚ) (l : List Node)
    (h : List.Chain' (SameLine windowWidth) l) : applySpacing .book l = l := by
  cases l with
  | nil => rfl
  | cons a rest =>
    simp only [applySpacing]
    rw [spaceFrom_settled windowWidth rest a h]

theorem settled_last_alone (windowWidth : ℚ) (l : List Node) (last : Node)
    (h : List.Chain' (SameLine windowWidth) l) (hl : l.getLast? = some last)
    (hov : rightEdge .book last > maxRightEdge windowWidth .book) : l = [last] := by
  obtain ⟨ys, rfl⟩ := List.getLast?_eq_some_iff.mp hl
  rcases List.eq_nil_or_concat ys with rfl | ⟨zs, b, rfl⟩
  · rfl
  · exfalso
    have hj := (List.chain'_append.mp h).2.2 b (by simp) last (by simp)
    exact absurd hj.2.2.2.2 (not_le.mpr hov)

theorem processRow_settled (windowWidth : ℚ) (r : Row) (rest : List Row)
    (h : SettledRow windowWidth r) : processRow windowWidth .book r rest = (r, rest) := by
  obtain ⟨hne, _, hch⟩ := h
  have hch2 : List.Chain' (fun a b : Node => a.x ≤ b.x) r.nodes :=
    List.Chain'.imp (fun _ _ hab => hab.2.1) hch
  have hsort : r.nodes.insertionSort (fun a b => a.x ≤ b.x) = r.nodes :=
    insertionSort_of_chain' r.nodes hch2 (fun _ _ _ h1 h2 => le_trans h1 h2)
  have hsp : applySpacing .book r.nodes = r.nodes := applySpacing_settled windowWidth r.nodes hch
  unfold processRow
  simp only [hsort, hsp]
  cases hl : r.nodes.getLast? with
  | none => rfl
  | some lastNode =>
    simp only []
    by_cases hov : rightEdge .book lastNode > maxRightEdge windowWidth .book
    · have hone := settled_last_alone windowWidth r.nodes lastNode hch hl hov
      have hk : splitIndex windowWidth .book r.nodes = 0 := by
        rw [hone]
        simp [splitIndex, List.findIdx_cons, hov]
      have hlen : r.nodes.length = 1 := by rw [hone]; rfl
      simp [hk, hlen, isBook, hov]
    · simp [hov]

theorem resolveLoop_settled (windowWidth : ℚ) :
    ∀ (rows : List Row) (fuel : Nat), (∀ r ∈ rows, SettledRow windowWidth r) →
      rows.length ≤ fuel → resolveLoop windowWidth .book fuel rows = some rows := by
  intro rows
  induction rows with
  | nil => intro fuel _ _; cases fuel <;> rfl
  | cons r rest ih =>
    intro fuel h hf
    cases fuel with
    | zero => simp at hf
    | succ fuel =>
      simp only [resolveLoop, processRow_settled windowWidth r _ (h r (List.mem_cons_self _ _))]
      rw [ih fuel (fun q hq => h q (List.mem_cons_of_mem _ hq))
        (by simpa using hf)]

theorem mem_objectKeys (ks : List ℚ) (k : ℚ) : k ∈ objectKeys ks ↔ k ∈ ks := by
  unfold objectKeys
  rw [List.mem_append, List.mem_insertionSort, List.mem_filter, List.mem_filter]
  by_cases h : isArrayIndex k = true <;> simp [h]

theorem findRowKey_none (rows : List Row) (y : ℚ)
    (h : ∀ r ∈ rows, ¬ |r.y - y| < (LAYOUT_CONFIG .book).rowTolerance) :
    findRowKey .book rows y = none := by
  unfold findRowKey
  rw [List.find?_eq_none]
  intro k hk
  rw [mem_objectKeys] at hk
  obtain ⟨r, hr, rfl⟩ := List.mem_map.mp hk
  simpa using h r hr

theorem findRowKey_some (rows : List Row) (y : ℚ) (r : Row) (hr : r ∈ rows)
    (hnear : |r.y - y| < (LAYOUT_CONFIG .book).rowTolerance)
    (huniq : ∀ q ∈ rows, |q.y - y| < (LAYOUT_CONFIG .book).rowTolerance → q.y = r.y) :
    findRowKey .book rows y = some r.y := by
  unfold findRowKey
  cases hf : (objectKeys (rows.map Row.y)).find?
      (fun key => decide (|key - y| < (LAYOUT_CONFIG .book).rowTolerance)) with
  | none =>
    exfalso
    rw [List.find?_eq_none] at hf
    have := hf r.y ((mem_objectKeys _ _).mpr (List.mem_map.mpr ⟨r, hr, rfl⟩))
    simp at this
    exact absurd hnear (not_lt.mpr this)
  | some k =>
    have hk := List.mem_of_find?_eq_some hf
    have hp := List.find?_some hf
    rw [mem_objectKeys] at hk
    obtain ⟨q, hq, rfl⟩ := List.mem_map.mp hk
    rw [huniq q hq (by simpa using hp)]

theorem rowPush_last (rows : List Row) (r : Row) (n : Node) (h : ∀ q ∈ rows, q.y ≠ r.y) :
    rowPush (rows ++ [r]) r.y n = rows ++ [{ r with nodes := r.nodes ++ [n] }] := by
  induction rows with
  | nil => simp [rowPush]
  | cons q rest ih =>
    have hq : q.y ≠ r.y := h q (List.mem_cons_self _ _)
    simp only [List.cons_append, rowPush, hq, if_false, List.append_eq]
    rw [ih (fun p hp => h p (List.mem_cons_of_mem _ hp))]

theorem rowPush_new (rows : List Row) (key : ℚ) (n : Node) (h : ∀ q ∈ rows, q.y ≠ key) :
    rowPush rows key n = rows ++ [{ y := key, nodes := [n] }] := by
  induction rows with
  | nil => simp [rowPush]
  | cons q rest ih =>
    have hq : q.y ≠ key := h q (List.mem_cons_self _ _)
    simp only [List.cons_append, rowPush, hq, if_false, List.append_eq]
    rw [ih (fun p hp => h p (List.mem_cons_of_mem _ hp))]

theorem settledRow_single (windowWidth : ℚ) (n : Node) :
    SettledRow windowWidth { y := n.y, nodes := [n] } :=
  ⟨by simp, by simp, List.chain'_singleton n⟩

theorem bucketStep_sameLine (windowWidth : ℚ) (rows : List Row) (r : Row) (ns : List Node)
    (a n : Node) (hr : r.nodes = ns ++ [a]) (hrow : SettledRow windowWidth r)
    (hsep : ∀ q ∈ rows, q.y + (LAYOUT_CONFIG .book).rowTolerance ≤ r.y)
    (hstep : SameLine windowWidth a n) :
    bucketStep (rows ++ [r]) n = rows ++ [{ r with nodes := r.nodes ++ [n] }] ∧
    SettledRow windowWidth { r with nodes := r.nodes ++ [n] } := by
  have hay : a.y = r.y := hrow.2.1 a (by rw [hr]; simp)
  have hny : n.y = r.y := hstep.1.trans hay
  have htol : (LAYOUT_CONFIG .book).rowTolerance = 15 := rfl
  have hkey : findRowKey .book (rows ++ [r]) n.y = some r.y := by
    apply findRowKey_some (rows ++ [r]) n.y r (by simp)
    · rw [hny, htol]; simp
    · intro q hq hnear
      rcases List.mem_append.mp hq with hq | hq
      · exfalso
        have h1 := hsep q hq
        rw [hny, htol] at hnear
        rw [htol] at h1
        rw [abs_lt] at hnear
        linarith [hnear.1]
      · simp only [List.mem_singleton] at hq
        rw [hq]
  refine ⟨?_, ?_, ?_, ?_⟩
  · unfold bucketStep
    rw [hkey]
    apply rowPush_last
    intro q hq heq
    have h1 := hsep q hq
    rw [htol, heq] at h1
    linarith
  · simp
  · intro m hm
    rcases List.mem_append.mp hm with hm | hm
    · exact hrow.2.1 m hm
    · simp only [List.mem_singleton] at hm
      rw [hm]; exact hny
  · refine List.chain'_append.mpr ⟨hrow.2.2, List.chain'_singleton n, ?_⟩
    intro x hx y hy
    have hlast : r.nodes.getLast? = some a := by rw [hr]; simp
    rw [hlast] at hx
    simp only [Option.mem_def, Option.some.injEq] at hx
    simp only [List.head?_cons, Option.mem_def, Option.some.injEq] at hy
    rw [← hx, ← hy]
    exact hstep

theorem bucketStep_newLine (rows : List Row) (n : Node)
    (hsep : ∀ q ∈ rows, q.y + (LAYOUT_CONFIG .book).rowTolerance ≤ n.y) :
    bucketStep rows n = rows ++ [{ y := n.y, nodes := [n] }] := by
  have htol : (LAYOUT_CONFIG .book).rowTolerance = 15 := rfl
  have hkey : findRowKey .book rows n.y = none := by
    apply findRowKey_none
    intro q hq hnear
    have h1 := hsep q hq
    rw [htol] at h1 hnear
    rw [abs_lt] at hnear
    linarith [hnear.1]
  unfold bucketStep
  rw [hkey]
  apply rowPush_new
  intro q hq heq
  have h1 := hsep q hq
  rw [htol, heq] at h1
  linarith

theorem bucketFold_settled (windowWidth : ℚ) :
    ∀ (l : List Node) (rows : List Row) (r : Row) (ns : List Node) (a : Node),
      r.nodes = ns ++ [a] → List.Chain (LineStep windowWidth) a l →
      (∀ q ∈ rows ++ [r], SettledRow windowWidth q) →
      (rows ++ [r]).Pairwise (fun p q => p.y + (LAYOUT_CONFIG .book).rowTolerance ≤ q.y) →
      (∀ q ∈ l.foldl bucketStep (rows ++ [r]), SettledRow windowWidth q) ∧
      (l.foldl bucketStep (rows ++ [r])).Pairwise
        (fun p q => p.y + (LAYOUT_CONFIG .book).rowTolerance ≤ q.y) ∧
      (l.foldl bucketStep (rows ++ [r])).flatMap Row.nodes
        = (rows ++ [r]).flatMap Row.nodes ++ l := by
  intro l
  induction l with
  | nil => intro rows r ns a _ _ hall hpw; exact ⟨hall, hpw, by simp⟩
  | cons n rest ih =>
    intro rows r ns a hr hch hall hpw
    obtain ⟨hstep, hrest⟩ := List.chain_cons.mp hch
    have hrow : SettledRow windowWidth r := hall r (by simp)
    have hay : a.y = r.y := hrow.2.1 a (by rw [hr]; simp)
    have hsep : ∀ q ∈ rows, q.y + (LAYOUT_CONFIG .book).rowTolerance ≤ r.y := by
      intro q hq
      exact (List.pairwise_append.mp hpw).2.2 q hq r (by simp)
    have htol : (LAYOUT_CONFIG .book).rowTolerance = 15 := rfl
    simp only [List.foldl_cons]
    rcases hstep with hsame | hlow
    · obtain ⟨hb, hs⟩ := bucketStep_sameLine windowWidth rows r ns a n hr hrow hsep hsame
      rw [hb]
      have hall2 : ∀ q ∈ rows ++ [{ r with nodes := r.nodes ++ [n] }], SettledRow windowWidth q := by
        intro q hq
        rcases List.mem_append.mp hq with hq | hq
        · exact hall q (List.mem_append_left _ hq)
        · simp only [List.mem_singleton] at hq
          rw [hq]; exact hs
      have hpw2 : List.Pairwise (fun p q : Row => p.y + (LAYOUT_CONFIG .book).rowTolerance ≤ q.y)
          (rows ++ [{ r with nodes := r.nodes ++ [n] }]) := by
        rw [List.pairwise_append] at hpw ⊢
        refine ⟨hpw.1, List.pairwise_singleton _ _, ?_⟩
        intro p hp q hq
        simp only [List.mem_singleton] at hq
        rw [hq]
        exact hsep p hp
      obtain ⟨i1, i2, i3⟩ := ih rows { r with nodes := r.nodes ++ [n] } r.nodes n rfl hrest hall2 hpw2
      refine ⟨i1, i2, ?_⟩
      rw [i3]
      simp
    · have hsep2 : ∀ q ∈ rows ++ [r], q.y + (LAYOUT_CONFIG .book).rowTolerance ≤ n.y := by
        intro q hq
        rcases List.mem_append.mp hq with hq | hq
        · have := hsep q hq
          rw [htol] at this hlow ⊢
          linarith
        · simp only [List.mem_singleton] at hq
          rw [hq, ← hay]; exact hlow
      rw [bucketStep_newLine (rows ++ [r]) n hsep2]
      have hall2 : ∀ q ∈ (rows ++ [r]) ++ [{ y := n.y, nodes := [n] }], SettledRow windowWidth q := by
        intro q hq
        rcases List.mem_append.mp hq with hq | hq
        · exact hall q hq
        · simp only [List.mem_singleton] at hq
          rw [hq]; exact settledRow_single windowWidth n
      have hpw2 : List.Pairwise (fun p q : Row => p.y + (LAYOUT_CONFIG .book).rowTolerance ≤ q.y)
          ((rows ++ [r]) ++ [{ y := n.y, nodes := [n] }]) := by
        rw [List.pairwise_append]
        refine ⟨hpw, List.pairwise_singleton _ _, ?_⟩
        intro p hp q hq
        simp only [List.mem_singleton] at hq
        rw [hq]
        exact hsep2 p hp
      obtain ⟨i1, i2, i3⟩ := ih (rows ++ [r]) { y := n.y, nodes := [n] } [] n rfl hrest hall2 hpw2
      refine ⟨i1, i2, ?_⟩
      rw [i3]
      simp

theorem bucketRows_settled (windowWidth : ℚ) (l : List Node)
    (h : List.Chain' (LineStep windowWidth) l) :
    (∀ q ∈ bucketRows .book l, SettledRow windowWidth q) ∧
    (bucketRows .book l).Pairwise (fun p q => p.y + (LAYOUT_CONFIG .book).rowTolerance ≤ q.y) ∧
    (bucketRows .book l).flatMap Row.nodes = l := by
  have hfold : ∀ (rows : List Row) (k : List Node),
      k.foldl
        (fun rows node =>
          match findRowKey .book rows node.y with
          | some key => rowPush rows key node
          | none => rowPush rows node.y node) rows = k.foldl bucketStep rows := fun _ _ => rfl
  unfold bucketRows
  rw [hfold]
  cases l with
  | nil => simp
  | cons a rest =>
    have h0 : bucketStep [] a = [] ++ [{ y := a.y, nodes := [a] }] :=
      bucketStep_newLine [] a (by simp)
    simp only [List.foldl_cons]
    rw [h0]
    obtain ⟨i1, i2, i3⟩ := bucketFold_settled windowWidth rest [] { y := a.y, nodes := [a] } [] a
      rfl h (by simpa using settledRow_single windowWidth a) (by simp)
    refine ⟨i1, i2, ?_⟩
    rw [i3]
    simp

/-- A book-mode node list whose stable sort by `y` is settled is mapped by
`resolveOverlaps` to that sorted list. -/
theorem resolveOverlaps_settled (fuel : Nat) (windowWidth : ℚ) (nodes sorted : List Node)
    (hsort : nodes.insertionSort (fun a b => a.y ≤ b.y) = sorted)
    (h : List.Chain' (LineStep windowWidth) sorted) (hf : nodes.length ≤ fuel) :
    resolveOverlaps fuel windowWidth nodes .book = some sorted := by
  obtain ⟨i1, i2, i3⟩ := bucketRows_settled windowWidth sorted h
  have hrows : initialRows .book nodes = bucketRows .book sorted := by
    unfold initialRows
    rw [hsort]
    have hc : List.Pairwise (fun p q : Row => p.y ≤ q.y) (bucketRows .book sorted) := by
      refine List.Pairwise.imp ?_ i2
      intro p q hpq
      have htol : (LAYOUT_CONFIG .book).rowTolerance = 15 := rfl
      rw [htol] at hpq
      linarith
    exact List.Sorted.insertionSort_eq hc
  have hlen : (bucketRows .book sorted).length ≤ fuel := by
    rw [← hrows]
    exact le_trans (initialRows_length_le .book nodes) hf
  unfold resolveOverlaps resolveRows
  rw [hrows, resolveLoop_settled windowWidth _ fuel i1 hlen]
  simp only [Option.map_some', i3]

theorem layoutFrom_length (windowWidth : ℚ) (mode : Mode) (l : List Node) :
    ∀ cx cy : ℚ, (layoutFrom windowWidth mode cx cy l).length = l.length := by
  induction l with
  | nil => intro _ _; rfl
  | cons n rest ih => intro cx cy; simp only [layoutFrom, List.length_cons, ih]

theorem layoutFrom_lineStep (windowWidth : ℚ) (l : List Node) (hs : ∀ n ∈ l, scaleOr1 n = 1) :
    ∀ cx cy : ℚ,
      List.Chain' (LineStep windowWidth) (layoutFrom windowWidth .book cx cy l) ∧
      ∀ m ∈ (layoutFrom windowWidth .book cx cy l).head?,
        0 ≤ halfWidth .book m ∧
        ((m.y = cy ∧ m.x = cx + halfWidth .book m ∧
            rightEdge .book m ≤ maxRightEdge windowWidth .book) ∨
          cy + (LAYOUT_CONFIG .book).lineHeight ≤ m.y) := by
  induction l with
  | nil => intro cx cy; simp [layoutFrom]
  | cons n rest ih =>
    intro cx cy
    have hn1 : scaleOr1 n = 1 := hs n (List.mem_cons_self _ _)
    have hpos := tokenWidth_pos .book n
    have hw : ∀ x y : ℚ, halfWidth .book { n with x := x, y := y } = tokenWidth .book n / 2 := by
      intro x y
      show estimateWidth n.text (isBook .book) * scaleOr1 n / 2 = tokenWidth .book n / 2
      rw [hn1, mul_one]
      rfl
    have hrest : ∀ k ∈ rest, scaleOr1 k = 1 := fun k hk => hs k (List.mem_cons_of_mem _ hk)
    have hgap : (LAYOUT_CONFIG .book).minGap = 6 := rfl
    have hsp : (LAYOUT_CONFIG .book).wordSpacing = 6 := rfl
    have htol : (LAYOUT_CONFIG .book).rowTolerance = 15 := rfl
    have hlh : (LAYOUT_CONFIG .book).lineHeight = 48 := rfl
    have key : ∀ px py : ℚ,
        (∀ m ∈ (layoutFrom windowWidth .book (px + tokenWidth .book n
            + (LAYOUT_CONFIG .book).wordSpacing) py rest).head?,
          LineStep windowWidth { n with x := px + tokenWidth .book n / 2, y := py } m) := by
      intro px py m hm
      obtain ⟨hm0, hm1⟩ := (ih hrest _ py).2 m hm
      rcases hm1 with ⟨hy, hx, hr⟩ | hlow
      · left
        have hre : rightEdge .book { n with x := px + tokenWidth .book n / 2, y := py }
            = px + tokenWidth .book n := by
          unfold rightEdge
          rw [hw]
          show px + tokenWidth .book n / 2 + tokenWidth .book n / 2 = _
          ring
        unfold rightEdge at hr
        refine ⟨hy, ?_, ?_, ?_, ?_⟩
        · show px + tokenWidth .book n / 2 ≤ m.x
          rw [hx, hsp]
          linarith
        · rw [hre, hgap, hx, hsp]
        · rw [hre]
          rw [hx, hsp] at hr
          linarith
        · unfold rightEdge
          exact hr
      · right
        show py + (LAYOUT_CONFIG .book).rowTolerance ≤ m.y
        rw [htol]
        rw [hlh] at hlow
        linarith
    by_cases hwrap : cx + tokenWidth .book n ≤ maxRightEdge windowWidth .book
    · rw [layoutFrom_cons_noWrap windowWidth .book cx cy n rest hwrap]
      refine ⟨List.chain'_cons'.mpr ⟨key cx cy, (ih hrest _ _).1⟩, ?_⟩
      intro m hm
      simp only [List.head?_cons, Option.mem_def, Option.some.injEq] at hm
      subst hm
      rw [hw]
      refine ⟨by linarith, Or.inl ⟨rfl, rfl, ?_⟩⟩
      unfold rightEdge
      rw [hw]
      show cx + tokenWidth .book n / 2 + tokenWidth .book n / 2 ≤ _
      linarith
    · rw [layoutFrom_cons_wrap windowWidth .book cx cy n rest (not_le.mp hwrap)]
      refine ⟨List.chain'_cons'.mpr ⟨key _ _, (ih hrest _ _).1⟩, ?_⟩
      intro m hm
      simp only [List.head?_cons, Option.mem_def, Option.some.injEq] at hm
      subst hm
      rw [hw]
      exact ⟨by linarith, Or.inr (le_refl _)⟩

theorem lineStep_le (windowWidth : ℚ) (a b : Node) (h : LineStep windowWidth a b) : a.y ≤ b.y := by
  rcases h with h | h
  · exact h.1.ge
  · have htol : (LAYOUT_CONFIG .book).rowTolerance = 15 := rfl
    rw [htol] at h
    linarith

theorem settled_sorted (windowWidth : ℚ) (l : List Node)
    (h : List.Chain' (LineStep windowWidth) l) :
    l.insertionSort (fun a b => a.y ≤ b.y) = l := by
  have h2 : List.Chain' (fun a b : Node => a.y ≤ b.y) l :=
    List.Chain'.imp (fun a b hab => lineStep_le windowWidth a b hab) h
  exact insertionSort_of_chain' l h2 (fun _ _ _ h1 h2 => le_trans h1 h2)

theorem rawNodes_styles (genId : Nat → String) (words : List String) :
    ∀ n ∈ rawNodes genId words, n.styles = defaultStyles := by
  intro n hn
  unfold rawNodes at hn
  obtain ⟨i, w, rfl⟩ := mem_zipWith_exists _ _ _ _ hn
  rfl

theorem rawNodes_length (genId : Nat → String) (words : List String) :
    (rawNodes genId words).length = words.length := by
  simp [rawNodes]

/-- C15 (counterexample): after the initial load of `God shows his love for us` a switch
to canvas mode, which has no cached positions, installs the plain layout with edge gaps
of `wordSpacing` = 15; loading the same text in canvas mode runs `resolveOverlaps` on
that layout, which pushes the nodes apart to `minGap` = 25. The two differ in the `x` of
every node but the first. -/
theorem canvas_layout_differs_from_load :
    sentenceCanvas.map (fun s => s.nodes.map (fun n => (n.id, n.x, n.y)))
      = some [("n0", 251 / 2, 160), ("n1", 401 / 2, 160), ("n2", 551 / 2, 160),
              ("n3", 346, 160), ("n4", 833 / 2, 160), ("n5", 478, 160)] ∧
    sentenceReloaded.map (fun s => s.nodes.map (fun n => (n.id, n.x, n.y)))
      = some [("n0", 251 / 2, 160), ("n1", 421 / 2, 160), ("n2", 591 / 2, 160),
              ("n3", 376, 160), ("n4", 913 / 2, 160), ("n5", 528, 160)] ∧
    sentenceCanvas.map (fun s => s.nodes) = some (calculateLayout 1000 sentenceRaw .canvas) ∧
    resolveOverlaps 10 1000 (calculateLayout 1000 sentenceRaw .canvas) .canvas
      ≠ some (calculateLayout 1000 sentenceRaw .canvas) := by
  refine ⟨by decide!, by decide!, by decide!, by decide!⟩

/-- C15 (amended): in book mode the load path and the plain layout agree. For every
viewport width and every node list whose nodes have the default scale 1, in particular
for every token sequence made by `splitTextToNodes`, `resolveOverlaps` (with fuel for
one loop iteration per node) returns the book-mode result of `calculateLayout`
unchanged, in the same order and with the same `x` and `y` for every node. In canvas
mode the two differ: the layout spaces by `wordSpacing` = 15, the resolver by
`minGap` = 25. -/
theorem book_layout_same_on_load (fuel : Nat) (windowWidth : ℚ) (nodes : List Node)
    (hs : ∀ n ∈ nodes, n.styles.scale = 1) (hf : nodes.length ≤ fuel) :
    resolveOverlaps fuel windowWidth (calculateLayout windowWidth nodes .book) .book
      = some (calculateLayout windowWidth nodes .book) ∧
    (∀ (genId : Nat → String) (text : String), (jsSplitWhitespace text).length ≤ fuel →
      resolveOverlaps fuel windowWidth (splitTextToNodes windowWidth genId text .book) .book
        = some (splitTextToNodes windowWidth genId text .book)) ∧
    (LAYOUT_CONFIG .book).wordSpacing = (LAYOUT_CONFIG .book).minGap ∧
    (LAYOUT_CONFIG .canvas).wordSpacing < (LAYOUT_CONFIG .canvas).minGap := by
  have main : ∀ l : List Node, (∀ n ∈ l, n.styles.scale = 1) → l.length ≤ fuel →
      resolveOverlaps fuel windowWidth (calculateLayout windowWidth l .book) .book
        = some (calculateLayout windowWidth l .book) := by
    intro l hl hlen
    have hs1 : ∀ n ∈ l, scaleOr1 n = 1 := by
      intro n hn
      simp [scaleOr1, hl n hn]
    have hch := (layoutFrom_lineStep windowWidth l hs1 (startX windowWidth .book) 160).1
    refine resolveOverlaps_settled fuel windowWidth _ _ (settled_sorted windowWidth _ hch) hch ?_
    unfold calculateLayout
    rw [layoutFrom_length]
    exact hlen
  refine ⟨main nodes hs hf, ?_, rfl, by norm_num [LAYOUT_CONFIG]⟩
  intro genId text hlen
  unfold splitTextToNodes
  refine main _ ?_ (by rw [rawNodes_length]; exact hlen)
  intro n hn
  rw [rawNodes_styles genId _ n hn]
  rfl

/-- Instance of `book_layout_same_on_load` on the sentence `God shows his love for us`
at a viewport width of 1000. -/
theorem book_layout_same_on_load_witness :
    (calculateLayout 1000 sentenceRaw .book).map (fun n => (n.id, n.x, n.y))
      = [("n0", 967 / 4, 160), ("n1", 1167 / 4, 160), ("n2", 1367 / 4, 160),
         ("n3", 773 / 2, 160), ("n4", 1725 / 4, 160), ("n5", 931 / 2, 160)] ∧
    resolveOverlaps 10 1000 (calculateLayout 1000 sentenceRaw .book) .book
      = some (calculateLayout 1000 sentenceRaw .book) :=
  ⟨by decide!, (book_layout_same_on_load 10 1000 sentenceRaw (by decide!) (by decide!)).1⟩

/-! ## Drop of one node of a one-line layout -/

theorem findNode_of_mem (l : List Node) (t : Node) (hnd : (l.map Node.id).Nodup) (ht : t ∈ l) :
    findNode l t.id = some t := by
  induction l with
  | nil => simp at ht
  | cons a rest ih =>
    rw [List.map_cons, List.nodup_cons] at hnd
    rcases List.mem_cons.mp ht with rfl | ht
    · simp [findNode, List.find?_cons]
    · have hne : a.id ≠ t.id := fun h => hnd.1 (h ▸ List.mem_map.mpr ⟨t, ht, rfl⟩)
      have := ih hnd.2 ht
      unfold findNode at this ⊢
      simp only [List.find?_cons, hne, decide_False]
      exact this

theorem layoutFrom_map_id (windowWidth : ℚ) (mode : Mode) (l : List Node) :
    ∀ cx cy : ℚ, (layoutFrom windowWidth mode cx cy l).map Node.id = l.map Node.id := by
  induction l with
  | nil => intro _ _; rfl
  | cons n rest ih => intro cx cy; simp only [layoutFrom, List.map_cons, ih]

theorem layoutFrom_mem (windowWidth : ℚ) (mode : Mode) (l : List Node) :
    ∀ (cx cy : ℚ), ∀ m ∈ layoutFrom windowWidth mode cx cy l,
      ∃ n ∈ l, m.styles = n.styles ∧ m.parentId = n.parentId ∧ m.id = n.id := by
  induction l with
  | nil => intro _ _ m hm; simp [layoutFrom] at hm
  | cons n rest ih =>
    intro cx cy m hm
    simp only [layoutFrom, List.mem_cons] at hm
    rcases hm with rfl | hm
    · exact ⟨n, List.mem_cons_self _ _, rfl, rfl, rfl⟩
    · obtain ⟨k, hk, h⟩ := ih _ _ m hm
      exact ⟨k, List.mem_cons_of_mem _ hk, h⟩

theorem single_line_sameLine (windowWidth : ℚ) (tokens : List Node)
    (hs : ∀ n ∈ tokens, scaleOr1 n = 1)
    (hline : lineWidth .book tokens ≤ containerWidth windowWidth .book) :
    List.Chain' (SameLine windowWidth) (calculateLayout windowWidth tokens .book) := by
  have hfit : startX windowWidth .book + lineWidth .book tokens ≤ maxRightEdge windowWidth .book := by
    unfold maxRightEdge
    linarith
  have hy := (layoutFrom_single_line windowWidth .book tokens _ 160 hfit).1
  have hch := (layoutFrom_lineStep windowWidth tokens hs (startX windowWidth .book) 160).1
  unfold calculateLayout
  rw [List.Chain'.iff_mem] at hch
  refine List.Chain'.imp ?_ hch
  rintro a b ⟨ha, hb, h | h⟩
  · exact h
  · exfalso
    have htol : (LAYOUT_CONFIG .book).rowTolerance = 15 := rfl
    rw [hy a ha, hy b hb, htol] at h
    linarith

theorem orderedInsert_head (r : Node → Node → Prop) [DecidableRel r] (a : Node) (l : List Node)
    (h : ∀ b ∈ l.head?, r a b) : l.orderedInsert r a = a :: l := by
  cases l with
  | nil => rfl
  | cons b rest =>
    have := h b (by simp)
    simp [List.orderedInsert, this]

theorem orderedInsert_last (r : Node → Node → Prop) [DecidableRel r] (a : Node) (l : List Node)
    (h : ∀ b ∈ l, ¬ r a b) : l.orderedInsert r a = l ++ [a] := by
  induction l with
  | nil => rfl
  | cons b rest ih =>
    have hb := h b (List.mem_cons_self _ _)
    simp only [List.orderedInsert, hb, if_false, List.cons_append]
    rw [ih (fun c hc => h c (List.mem_cons_of_mem _ hc))]

theorem insertionSort_low_last (front back : List Node) (x : Node) (y0 : ℚ)
    (hf : ∀ a ∈ front, a.y = y0) (hb : ∀ b ∈ back, b.y = y0) (hx : y0 < x.y) :
    (front ++ x :: back).insertionSort (fun a b => a.y ≤ b.y) = front ++ back ++ [x] := by
  have hback : back.insertionSort (fun a b => a.y ≤ b.y) = back := by
    apply List.Sorted.insertionSort_eq
    rw [List.Sorted, List.pairwise_iff_forall_sublist]
    intro a b hab
    have ha := hb a (hab.subset (by simp))
    have hb2 := hb b (hab.subset (by simp))
    rw [ha, hb2]
  induction front with
  | nil =>
    simp only [List.nil_append, List.insertionSort, hback]
    apply orderedInsert_last
    intro b hb1 hle
    rw [hb b hb1] at hle
    exact absurd hx (not_lt.mpr hle)
  | cons a rest ih =>
    simp only [List.cons_append, List.insertionSort, List.append_eq]
    rw [ih (fun c hc => hf c (List.mem_cons_of_mem _ hc))]
    apply orderedInsert_head
    intro b hb1
    have hbm : b ∈ rest ++ back ++ [x] := List.mem_of_mem_head? hb1
    rw [hf a (List.mem_cons_self _ _)]
    rcases List.mem_append.mp hbm with h | h
    · rcases List.mem_append.mp h with h | h
      · exact (hf b (List.mem_cons_of_mem _ h)).ge
      · exact (hb b h).ge
    · simp only [List.mem_singleton] at h
      rw [h]; exact hx.le

theorem halfWidth_of_scale (n : Node) (h : scaleOr1 n = 1) :
    halfWidth .book n = estimateWidth n.text true / 2 := by
  unfold halfWidth
  rw [h, mul_one]
  rfl

theorem rightEdge_shiftLeftBy (d n : Node) :
    rightEdge .book (shiftLeftBy d n) = rightEdge .book n - (estimateWidth d.text true + 6) := by
  show n.x - (estimateWidth d.text true + 6) + halfWidth .book n
    = n.x + halfWidth .book n - (estimateWidth d.text true + 6)
  ring

theorem sameLine_shift (windowWidth : ℚ) (d a b : Node) (h : SameLine windowWidth a b) :
    SameLine windowWidth (shiftLeftBy d a) (shiftLeftBy d b) := by
  obtain ⟨h1, h2, h3, h4, h5⟩ := h
  have hd := estimateWidth_nonneg d.text true
  refine ⟨h1, ?_, ?_, ?_, ?_⟩
  · show a.x - (estimateWidth d.text true + 6) ≤ b.x - (estimateWidth d.text true + 6)
    linarith
  · rw [rightEdge_shiftLeftBy]
    show b.x - (estimateWidth d.text true + 6) = _ + halfWidth .book b
    rw [h3]
    ring
  · rw [rightEdge_shiftLeftBy]; linarith
  · rw [rightEdge_shiftLeftBy]; linarith

theorem sameLine_remove (windowWidth : ℚ) (front back : List Node) (d : Node)
    (hw : ∀ n ∈ front ++ d :: back, scaleOr1 n = 1)
    (h : List.Chain' (SameLine windowWidth) (front ++ d :: back)) :
    List.Chain' (SameLine windowWidth) (front ++ back.map (shiftLeftBy d)) := by
  obtain ⟨hA, hdB, hj⟩ := List.chain'_append.mp h
  obtain ⟨hdb, hB⟩ := List.chain'_cons'.mp hdB
  have hgap : (LAYOUT_CONFIG .book).minGap = 6 := rfl
  refine List.chain'_append.mpr ⟨hA, ?_, ?_⟩
  · rw [List.chain'_map]
    exact List.Chain'.imp (fun a b hab => sameLine_shift windowWidth d a b hab) hB
  · intro x hx y hy
    rw [List.head?_map] at hy
    simp only [Option.mem_def, Option.map_eq_some'] at hy
    obtain ⟨b, hb, rfl⟩ := hy
    obtain ⟨x1, x2, x3, x4, x5⟩ := hj x hx d (by simp)
    obtain ⟨b1, b2, b3, b4, b5⟩ := hdb b hb
    have hxm : x ∈ front := List.mem_of_mem_getLast? hx
    have hbm : b ∈ back := List.mem_of_mem_head? hb
    have hwx := halfWidth_of_scale x (hw x (List.mem_append_left _ hxm))
    have hwd := halfWidth_of_scale d (hw d (by simp))
    have hwb := halfWidth_of_scale b (hw b (by simp [hbm]))
    have ex := estimateWidth_nonneg x.text true
    have ed := estimateWidth_nonneg d.text true
    have eb := estimateWidth_nonneg b.text true
    unfold rightEdge at x3 x4 x5 b3 b4 b5
    rw [hgap] at x3 b3
    refine ⟨?_, ?_, ?_, ?_, ?_⟩
    · show b.y = x.y
      rw [b1, x1]
    · show x.x ≤ b.x - (estimateWidth d.text true + 6)
      linarith
    · show b.x - (estimateWidth d.text true + 6)
        = x.x + halfWidth .book x + (LAYOUT_CONFIG .book).minGap + halfWidth .book b
      rw [hgap]
      linarith
    · unfold rightEdge
      exact x4
    · rw [rightEdge_shiftLeftBy]
      unfold rightEdge
      linarith

theorem sameLine_right_of (windowWidth : ℚ) (back : List Node) :
    ∀ d : Node, List.Chain (SameLine windowWidth) d back →
      (∀ n ∈ d :: back, scaleOr1 n = 1) → ∀ b ∈ back, d.x < b.x := by
  induction back with
  | nil => intro d _ _ b hb; simp at hb
  | cons c rest ih =>
    intro d hch hw b hb
    obtain ⟨hdc, hrest⟩ := List.chain_cons.mp hch
    have hgap : (LAYOUT_CONFIG .book).minGap = 6 := rfl
    have hwd := halfWidth_of_scale d (hw d (by simp))
    have hwc := halfWidth_of_scale c (hw c (by simp))
    have ed := estimateWidth_nonneg d.text true
    have ec := estimateWidth_nonneg c.text true
    have hc : d.x < c.x := by
      have := hdc.2.2.1
      unfold rightEdge at this
      rw [hgap] at this
      linarith
    rcases List.mem_cons.mp hb with rfl | hb
    · exact hc
    · exact lt_trans hc (ih c hrest (fun n hn => hw n (List.mem_cons_of_mem _ hn)) b hb)

theorem sameLine_left_of (windowWidth : ℚ) (front back : List Node) (d : Node)
    (h : List.Chain' (SameLine windowWidth) (front ++ d :: back)) : ∀ a ∈ front, a.x ≤ d.x := by
  have h2 : List.Chain' (fun a b : Node => a.x ≤ b.x) (front ++ d :: back) :=
    List.Chain'.imp (fun _ _ hab => hab.2.1) h
  haveI : IsTrans Node (fun a b : Node => a.x ≤ b.x) := ⟨fun _ _ _ h1 h2 => le_trans h1 h2⟩
  have h3 := List.chain'_iff_pairwise.mp h2
  intro a ha
  exact (List.pairwise_append.mp h3).2.2 a ha d (by simp)

theorem sameLine_gapExact (windowWidth : ℚ) (a b : Node) (h : SameLine windowWidth a b) :
    GapExact .book a b := by
  unfold GapExact leftEdge
  rw [h.2.2.1]
  ring

theorem map_split (f g : Node → Node) (front back : List Node) (x y : Node)
    (hf : ∀ a ∈ front, f a = a) (hx : f x = y) (hb : ∀ b ∈ back, f b = g b) :
    (front ++ x :: back).map f = front ++ y :: back.map g := by
  rw [List.map_append, List.map_cons, hx, List.map_congr_left hb]
  congr 1
  conv_rhs => rw [← List.map_id front]
  exact List.map_congr_left hf

theorem map_only (f : Node → Node) (front back : List Node) (x y : Node)
    (hf : ∀ a ∈ front, f a = a) (hx : f x = y) (hb : ∀ b ∈ back, f b = b) :
    (front ++ x :: back).map f = front ++ y :: back := by
  rw [map_split f (fun n => n) front back x y hf hx hb, List.map_id']

theorem filter_only (p : Node → Bool) (front back : List Node) (x : Node)
    (hf : ∀ a ∈ front, p a = false) (hx : p x = true) (hb : ∀ b ∈ back, p b = false) :
    (front ++ x :: back).filter p = [x] := by
  have h1 : front.filter p = [] := List.filter_eq_nil_iff.mpr (fun a ha => by simp [hf a ha])
  have h2 : back.filter p = [] := List.filter_eq_nil_iff.mpr (fun a ha => by simp [hb a ha])
  rw [List.filter_append, List.filter_cons, h1, h2, hx]
  rfl

theorem nodup_split_ids (front back : List Node) (d : Node)
    (hnd : ((front ++ d :: back).map Node.id).Nodup) :
    (∀ a ∈ front, a.id ≠ d.id) ∧ (∀ b ∈ back, b.id ≠ d.id) := by
  rw [List.map_append, List.map_cons, List.nodup_append] at hnd
  obtain ⟨_, h2, h3⟩ := hnd
  rw [List.nodup_cons] at h2
  constructor
  · intro a ha heq
    exact h3 (List.mem_map.mpr ⟨a, ha, rfl⟩) (by rw [heq]; simp)
  · intro b hb heq
    exact h2.1 (by rw [← heq]; exact List.mem_map.mpr ⟨b, hb, rfl⟩)

/-- The node list left by the drop of the single dragged node `d` of a settled one-line
book layout `front ++ d :: back` onto another node `t` of it. -/
theorem handlePointerUp_drop_line (fuel : Nat) (vp : Viewport) (s : AppState) (e : PointerEvt)
    (ds : DragState) (front back : List Node) (d t : Node) (rel : String) (px py : ℚ)
    (hch : List.Chain' (SameLine vp.innerWidth) (front ++ d :: back))
    (hall : ∀ n ∈ front ++ d :: back, scaleOr1 n = 1 ∧ n.parentId = none ∧ n.y = 160)
    (hnd : ((front ++ d :: back).map Node.id).Nodup)
    (ht : t ∈ front ++ back) (htid : t.id ≠ "") (hrel : rel ≠ "")
    (hnodes : s.nodes = front ++ { d with x := px, y := py } :: back)
    (hview : s.viewMode = .book) (hsel : s.selection = [d.id])
    (hdrag : s.dragState = some ds) (hty : ds.type = .node) (hmv : ds.hasMoved = true)
    (hmain : ds.mainNodeId = d.id) (hmove : ds.idsToMove = [d.id])
    (hinit : lookupPos ds.initialPositions d.id = some (d.x, d.y))
    (hp : e.pointerId = ds.pointerId)
    (hhover : s.hoverTarget = some t.id) (hsat : s.satelliteHover = some rel)
    (hfuel : (front ++ d :: back).length ≤ fuel) :
    handlePointerUp fuel vp s e
      = some (endDrag { s with
          nodes := front ++ back.map (shiftLeftBy d)
            ++ [{ d with parentId := some t.id, relation := some rel, x := t.x, y := t.y + 40 }],
          hist := saveToHistory s.hist (front ++ back.map (shiftLeftBy d)
            ++ [{ d with parentId := some t.id, relation := some rel, x := t.x, y := t.y + 40 }]) }) := by
  obtain ⟨hA, hB⟩ := nodup_split_ids front back d hnd
  have htL : t ∈ front ++ d :: back := by
    rcases List.mem_append.mp ht with h | h
    · exact List.mem_append_left _ h
    · exact List.mem_append_right _ (List.mem_cons_of_mem _ h)
  obtain ⟨_, htroot, hty160⟩ := hall t htL
  obtain ⟨hd1, hdroot, hdy⟩ := hall d (by simp)
  have htin : t ∈ s.nodes := by
    rw [hnodes]
    rcases List.mem_append.mp ht with h | h
    · exact List.mem_append_left _ h
    · exact List.mem_append_right _ (List.mem_cons_of_mem _ h)
  have hnd_s : (s.nodes.map Node.id).Nodup := by
    rw [hnodes]
    simpa using hnd
  have hfind_t : findNode s.nodes t.id = some t := findNode_of_mem _ _ hnd_s htin
  have hfind_d : findNode s.nodes d.id = some { d with x := px, y := py } :=
    findNode_of_mem s.nodes { d with x := px, y := py } hnd_s (by rw [hnodes]; simp)
  rw [handlePointerUp_drop fuel vp s e ds t t.id rel hdrag hty hmv hp hhover hsat htid hrel hfind_t]
  have hfilter : s.nodes.filter (fun n => decide (n.id ∈ [d.id]) && decide (n.id ∈ [d.id]))
      = [{ d with x := px, y := py }] := by
    rw [hnodes]
    apply filter_only
    · intro a ha; simp [hA a ha]
    · simp
    · intro b hb; simp [hB b hb]
  have hids : idsToNestOf ds s.nodes s.selection = [d.id] := by
    unfold idsToNestOf
    rw [hsel, hmove, hmain]
    simp only [hfilter]
    split <;> rfl
  have hitems : movedRootsOf ds s.nodes [d.id]
      = [{ id := d.id, text := d.text, oldX := d.x, oldY := d.y, wasRoot := true }] := by
    simp [movedRootsOf, hfind_d, hinit, hdroot, truthy]
  have hnest : nestNodes ds s.nodes [d.id] t.id rel t.x (t.y + snapGap .book)
      = front ++ { d with parentId := some t.id, relation := some rel, x := t.x, y := t.y + 40 }
          :: back := by
    unfold nestNodes
    rw [hnodes, hmove]
    apply map_only
    · intro a ha; simp [hA a ha]
    · simp [snapGap]
    · intro b hb; simp [hB b hb]
  have hclose : closeGaps
      (front ++ { d with parentId := some t.id, relation := some rel, x := t.x, y := t.y + 40 }
        :: back)
      [{ id := d.id, text := d.text, oldX := d.x, oldY := d.y, wasRoot := true }] .book
      = front ++ { d with parentId := some t.id, relation := some rel, x := t.x, y := t.y + 40 }
          :: back.map (shiftLeftBy d) := by
    have htin2 : t ∈ front
        ++ { d with parentId := some t.id, relation := some rel, x := t.x, y := t.y + 40 } :: back := by
      rcases List.mem_append.mp ht with h | h
      · exact List.mem_append_left _ h
      · exact List.mem_append_right _ (List.mem_cons_of_mem _ h)
    rw [closeGaps_single_on_line _ _ t rfl htin2 htroot (by simp [hty160, hdy])]
    apply map_split
    · intro a ha
      have hax := sameLine_left_of vp.innerWidth front back d hch a ha
      simp [shiftForGap, not_lt.mpr hax]
    · simp [shiftForGap, truthy, htid]
    · intro b hb
      have hbx := sameLine_right_of vp.innerWidth back d (List.chain'_append.mp hch).2.1
        (fun n hn => (hall n (List.mem_append_right _ hn)).1) b hb
      obtain ⟨_, hbroot, hby⟩ := hall b (List.mem_append_right _ (List.mem_cons_of_mem _ hb))
      simp [shiftForGap, truthy, hbroot, hby, hdy, hbx, shiftLeftBy]
  have hback : ∀ b ∈ back.map (shiftLeftBy d), b.y = 160 := by
    intro b hb
    obtain ⟨c, hc, rfl⟩ := List.mem_map.mp hb
    exact (hall c (List.mem_append_right _ (List.mem_cons_of_mem _ hc))).2.2
  have hfront : ∀ a ∈ front, a.y = 160 := fun a ha => (hall a (List.mem_append_left _ ha)).2.2
  have hsort : (front
      ++ { d with parentId := some t.id, relation := some rel, x := t.x, y := t.y + 40 }
        :: back.map (shiftLeftBy d)).insertionSort (fun a b => a.y ≤ b.y)
      = front ++ back.map (shiftLeftBy d)
        ++ [{ d with parentId := some t.id, relation := some rel, x := t.x, y := t.y + 40 }] := by
    apply insertionSort_low_last front _ _ 160 hfront hback
    show 160 < t.y + 40
    rw [hty160]
    norm_num
  have hline : List.Chain' (LineStep vp.innerWidth) (front ++ back.map (shiftLeftBy d)
      ++ [{ d with parentId := some t.id, relation := some rel, x := t.x, y := t.y + 40 }]) := by
    refine List.chain'_append.mpr ⟨?_, List.chain'_singleton _, ?_⟩
    · exact List.Chain'.imp (fun _ _ hab => Or.inl hab)
        (sameLine_remove vp.innerWidth front back d (fun n hn => (hall n hn).1) hch)
    · intro x hx y hy
      simp only [List.head?_cons, Option.mem_def, Option.some.injEq] at hy
      subst hy
      right
      have hxm : x ∈ front ++ back.map (shiftLeftBy d) := List.mem_of_mem_getLast? hx
      have hxy : x.y = 160 := by
        rcases List.mem_append.mp hxm with h | h
        · exact hfront x h
        · exact hback x h
      show x.y + (LAYOUT_CONFIG .book).rowTolerance ≤ t.y + 40
      rw [hxy, hty160]
      norm_num [LAYOUT_CONFIG]
  have hres := resolveOverlaps_settled fuel vp.innerWidth _ _ hsort hline
    (by simpa using hfuel)
  rw [hids, hitems, hview, hnest, hclose]
  simp only [updateNodes, if_true, hview, hres, Option.map_some']

theorem findHover_zone (s : AppState) (idsToMove : List String) (nextNodes : List Node)
    (mainNode target : Node) (others : List Node) (coordX : ℚ) (k : Nat)
    (hcand : hoverCandidates s idsToMove nextNodes mainNode = target :: others) (hk : k < 6)
    (hlo : (k : ℚ) * (estimateWidth target.text (isBook s.viewMode) / 6)
      ≤ coordX - (target.x - estimateWidth target.text (isBook s.viewMode) / 2))
    (hhi : coordX - (target.x - estimateWidth target.text (isBook s.viewMode) / 2)
      < ((k : ℚ) + 1) * (estimateWidth target.text (isBook s.viewMode) / 6)) :
    findHover s idsToMove nextNodes mainNode coordX = (some target.id, SATELLITE_OPTIONS[k]?) := by
  have hw : 0 < estimateWidth target.text (isBook s.viewMode) := tokenWidth_pos s.viewMode target
  have hfl : ⌊(coordX - (target.x - estimateWidth target.text (isBook s.viewMode) / 2))
      / estimateWidth target.text (isBook s.viewMode) * 6⌋ = (k : ℤ) := by
    rw [Int.floor_eq_iff]
    have hrw : (coordX - (target.x - estimateWidth target.text (isBook s.viewMode) / 2))
        / estimateWidth target.text (isBook s.viewMode) * 6
        = (coordX - (target.x - estimateWidth target.text (isBook s.viewMode) / 2)) * 6
          / estimateWidth target.text (isBook s.viewMode) := by ring
    rw [hrw]
    constructor
    · rw [le_div_iff₀ hw]
      push_cast
      linarith
    · rw [div_lt_iff₀ hw]
      push_cast
      linarith
  have hzone : (max 0 (min 5 (k : ℤ))).toNat = k := by
    have h5 : (k : ℤ) ≤ 5 := by omega
    rw [min_eq_right h5, max_eq_right (by omega)]
    exact Int.toNat_natCast k
  have hc : (nextNodes.filter (fun n =>
      !(s.connectionMode = .hidden && truthy n.parentId) && !decide (n.id ∈ idsToMove)
        && decide (sqDist n mainNode < 120 * 120))).insertionSort
      (fun a b => sqDist a mainNode ≤ sqDist b mainNode) = target :: others := hcand
  unfold findHover
  simp only [hc, hfl, hzone]

theorem handlePointerMove_drag_line (fuel : Nat) (vp : Viewport) (s : AppState) (e : PointerEvt)
    (ds : DragState) (front back : List Node) (d t : Node) (others : List Node) (k : Nat)
    (px py : ℚ)
    (hnd : ((front ++ d :: back).map Node.id).Nodup)
    (hnodes : s.nodes = front ++ { d with x := px, y := py } :: back)
    (hview : s.viewMode = .book)
    (hdrag : s.dragState = some ds) (hty : ds.type = .node) (hmv : ds.hasMoved = true)
    (hmain : ds.mainNodeId = d.id) (hmove : ds.idsToMove = [d.id])
    (hinit : lookupPos ds.initialPositions d.id = some (d.x, d.y))
    (hp : e.pointerId = ds.pointerId)
    (hcand : hoverCandidates s [d.id]
      (front ++ { d with x := d.x + dragDx s ds e, y := d.y + dragDy s ds e } :: back)
      { d with x := d.x + dragDx s ds e, y := d.y + dragDy s ds e } = t :: others)
    (hk : k < 6)
    (hlo : (k : ℚ) * (estimateWidth t.text true / 6)
      ≤ (getCanvasCoordinates s e).1 - (t.x - estimateWidth t.text true / 2))
    (hhi : (getCanvasCoordinates s e).1 - (t.x - estimateWidth t.text true / 2)
      < ((k : ℚ) + 1) * (estimateWidth t.text true / 6)) :
    handlePointerMove fuel vp s e
      = some { s with
          nodes := front ++ { d with x := d.x + dragDx s ds e, y := d.y + dragDy s ds e } :: back,
          dragState := some { ds with hasMoved := true },
          hoverTarget := some t.id,
          satelliteHover := SATELLITE_OPTIONS[k]? } := by
  obtain ⟨hA, hB⟩ := nodup_split_ids front back d hnd
  have hbook : isBook s.viewMode = true := by rw [hview]; rfl
  have hhover := findHover_zone s [d.id]
    (front ++ { d with x := d.x + dragDx s ds e, y := d.y + dragDy s ds e } :: back)
    { d with x := d.x + dragDx s ds e, y := d.y + dragDy s ds e } t others
    (getCanvasCoordinates s e).1 k hcand hk (by rw [hbook]; exact hlo) (by rw [hbook]; exact hhi)
  have hany : s.nodes.any (fun n =>
      decide (n.id ∈ [d.id]) && (lookupPos ds.initialPositions n.id).isNone) = false := by
    rw [List.any_eq_false]
    intro n hn
    rw [hnodes] at hn
    rcases List.mem_append.mp hn with h | h
    · simp [hA n h]
    · rcases List.mem_cons.mp h with rfl | h
      · simp [hinit]
      · simp [hB n h]
  have hmap : s.nodes.map (fun n =>
      if n.id ∈ [d.id] then
        match lookupPos ds.initialPositions n.id with
        | some init => { n with x := init.1 + dragDx s ds e, y := init.2 + dragDy s ds e }
        | none => n
      else n)
      = front ++ { d with x := d.x + dragDx s ds e, y := d.y + dragDy s ds e } :: back := by
    rw [hnodes]
    apply map_only
    · intro a ha; simp [hA a ha]
    · simp [hinit]
    · intro b hb; simp [hB b hb]
  have hfind : findNode
      (front ++ { d with x := d.x + dragDx s ds e, y := d.y + dragDy s ds e } :: back) d.id
      = some { d with x := d.x + dragDx s ds e, y := d.y + dragDy s ds e } :=
    findNode_of_mem _ { d with x := d.x + dragDx s ds e, y := d.y + dragDy s ds e }
      (by simpa using hnd) (by simp)
  have hcanvas : ¬ s.viewMode = .canvas := by rw [hview]; decide
  unfold handlePointerMove
  simp only [hdrag, hp, ne_eq, not_true_eq_false, if_false, hty, hmv, Bool.not_true,
    Bool.false_eq_true, false_and]
  unfold moveDrag
  simp only [hmain, hinit, hcanvas, if_false, hmove, hany, Bool.false_eq_true]
  have hmap2 : s.nodes.map (fun n =>
      if n.id ∈ [d.id] then
        match lookupPos ds.initialPositions n.id with
        | some init => { n with x := init.1 + ((getCanvasCoordinates s e).1 - ds.startX),
                                y := init.2 + ((getCanvasCoordinates s e).2 - ds.startY) }
        | none => n
      else n)
      = front ++ { d with x := d.x + dragDx s ds e, y := d.y + dragDy s ds e } :: back := hmap
  rw [hmap2]
  simp only [hfind, hhover, hty]

theorem findNode_append_last (l : List Node) (x : Node) (h : ∀ n ∈ l, n.id ≠ x.id) :
    findNode (l ++ [x]) x.id = some x := by
  induction l with
  | nil => simp [findNode]
  | cons a rest ih =>
    have ha : a.id ≠ x.id := h a (List.mem_cons_self _ _)
    have := ih (fun n hn => h n (List.mem_cons_of_mem _ hn))
    unfold findNode at this ⊢
    simp only [List.cons_append, List.find?_cons, ha, decide_False]
    exact this

theorem satellite_option_nonempty (k : Nat) (rel : String)
    (h : SATELLITE_OPTIONS[k]? = some rel) : rel ≠ "" := by
  have hmem : rel ∈ SATELLITE_OPTIONS := List.getElem?_mem h
  have hall : ∀ x ∈ SATELLITE_OPTIONS, x ≠ "" := by decide
  exact hall rel hmem

/-- C11: End-to-end drop in book mode. Let `tokens` be a sequence of root nodes with
default scale and distinct non-empty ids that `calculateLayout` places on one line, `d` and
`t` two distinct nodes of the layout, and let a drag of `d` alone be under way (the drag
has left the dead-zone, `d` is the selection and the moving set, every other node is
where the layout put it). When the pointer moves so that `t` is the nearest hover
candidate and the pointer is in zone `k` of the six zones of `t`, the move handler sets
the hover target to `t` and the relation to `SATELLITE_OPTIONS[k]`, and the pointer-up
that follows returns with `d` nested: `parentId = t.id`, `relation = SATELLITE_OPTIONS[k]`,
snapped 40 below `t`; after `closeGaps` and `resolveOverlaps` the remaining root nodes are
the other nodes in their original order, all on the row `y = 160`, with every consecutive
edge gap equal to `minGap` = 6, and one history snapshot has been appended. -/
theorem end_to_end_drop (fuel : Nat) (vp : Viewport) (s : AppState) (e1 e2 : PointerEvt)
    (ds : DragState) (tokens : List Node) (d t : Node) (others : List Node) (k : Nat)
    (px py : ℚ)
    (htok : ∀ n ∈ tokens, n.styles.scale = 1 ∧ n.parentId = none ∧ n.id ≠ "")
    (hids : (tokens.map Node.id).Nodup)
    (hline : lineWidth .book tokens ≤ containerWidth vp.innerWidth .book)
    (hd : d ∈ calculateLayout vp.innerWidth tokens .book)
    (ht : t ∈ calculateLayout vp.innerWidth tokens .book) (hdt : d.id ≠ t.id)
    (hnodes : s.nodes = draggedTo (calculateLayout vp.innerWidth tokens .book) d.id px py)
    (hview : s.viewMode = .book) (hsel : s.selection = [d.id])
    (hdrag : s.dragState = some ds) (hty : ds.type = .node) (hmv : ds.hasMoved = true)
    (hmain : ds.mainNodeId = d.id) (hmove : ds.idsToMove = [d.id])
    (hinit : lookupPos ds.initialPositions d.id = some (d.x, d.y))
    (hp1 : e1.pointerId = ds.pointerId) (hp2 : e2.pointerId = ds.pointerId)
    (hcand : hoverCandidates s [d.id]
      (draggedTo (calculateLayout vp.innerWidth tokens .book) d.id
        (d.x + dragDx s ds e1) (d.y + dragDy s ds e1))
      { d with x := d.x + dragDx s ds e1, y := d.y + dragDy s ds e1 } = t :: others)
    (hk : k < 6)
    (hlo : (k : ℚ) * (estimateWidth t.text true / 6)
      ≤ (getCanvasCoordinates s e1).1 - (t.x - estimateWidth t.text true / 2))
    (hhi : (getCanvasCoordinates s e1).1 - (t.x - estimateWidth t.text true / 2)
      < ((k : ℚ) + 1) * (estimateWidth t.text true / 6))
    (hfuel : tokens.length ≤ fuel) :
    ∃ (s1 s2 : AppState) (rel : String),
      handlePointerMove fuel vp s e1 = some s1 ∧
      SATELLITE_OPTIONS[k]? = some rel ∧
      s1.hoverTarget = some t.id ∧ s1.satelliteHover = some rel ∧
      handlePointerUp fuel vp s1 e2 = some s2 ∧
      findNode s2.nodes d.id
        = some { d with parentId := some t.id, relation := some rel, x := t.x, y := t.y + 40 } ∧
      (rootsOf s2.nodes).map Node.id
        = ((calculateLayout vp.innerWidth tokens .book).filter (fun n => n.id ≠ d.id)).map Node.id ∧
      (∀ n ∈ rootsOf s2.nodes, n.y = 160) ∧
      List.Chain' (GapExact .book) (rootsOf s2.nodes) ∧
      s2.hist = saveToHistory s.hist s2.nodes ∧ s2.dragState = none := by
  obtain ⟨front, back, hL⟩ := List.append_of_mem hd
  have hs1 : ∀ n ∈ tokens, scaleOr1 n = 1 := by
    intro n hn
    simp [scaleOr1, (htok n hn).1]
  have hchain := single_line_sameLine vp.innerWidth tokens hs1 hline
  have hy := (single_line_layout vp.innerWidth .book tokens hline).1
  have hLid : (calculateLayout vp.innerWidth tokens .book).map Node.id = tokens.map Node.id :=
    layoutFrom_map_id vp.innerWidth .book tokens _ _
  have hprops : ∀ n ∈ calculateLayout vp.innerWidth tokens .book,
      scaleOr1 n = 1 ∧ n.parentId = none ∧ n.y = 160 ∧ n.id ≠ "" := by
    intro n hn
    obtain ⟨m, hm, hst, hpar, hid⟩ := layoutFrom_mem vp.innerWidth .book tokens _ _ n hn
    obtain ⟨h1, h2, h3⟩ := htok m hm
    refine ⟨?_, by rw [hpar, h2], hy n hn, by rw [hid]; exact h3⟩
    simp [scaleOr1, hst, h1]
  have hnd : ((calculateLayout vp.innerWidth tokens .book).map Node.id).Nodup := by
    rw [hLid]; exact hids
  have hlen : (calculateLayout vp.innerWidth tokens .book).length = tokens.length :=
    layoutFrom_length vp.innerWidth .book tokens _ _
  rw [hL] at hchain hprops hnd hnodes hcand hlen ht ⊢
  obtain ⟨hA, hB⟩ := nodup_split_ids front back d hnd
  have hdragged : ∀ x y : ℚ, draggedTo (front ++ d :: back) d.id x y
      = front ++ { d with x := x, y := y } :: back := by
    intro x y
    unfold draggedTo
    apply map_only
    · intro a ha; simp [hA a ha]
    · simp
    · intro b hb; simp [hB b hb]
  rw [hdragged] at hnodes hcand
  have htfb : t ∈ front ++ back := by
    rcases List.mem_append.mp ht with h | h
    · exact List.mem_append_left _ h
    · rcases List.mem_cons.mp h with rfl | h
      · exact absurd rfl hdt
      · exact List.mem_append_right _ h
  have htid : t.id ≠ "" := (hprops t ht).2.2.2
  obtain ⟨rel, hrel⟩ : ∃ rel, SATELLITE_OPTIONS[k]? = some rel := by
    have hk2 : k < SATELLITE_OPTIONS.length := hk
    exact ⟨_, List.getElem?_eq_getElem hk2⟩
  have hrelne := satellite_option_nonempty k rel hrel
  have hmove1 := handlePointerMove_drag_line fuel vp s e1 ds front back d t others k px py hnd
    hnodes hview hdrag hty hmv hmain hmove hinit hp1 hcand hk hlo hhi
  have hup := handlePointerUp_drop_line fuel vp
    { s with
      nodes := front ++ { d with x := d.x + dragDx s ds e1, y := d.y + dragDy s ds e1 } :: back,
      dragState := some { ds with hasMoved := true },
      hoverTarget := some t.id,
      satelliteHover := SATELLITE_OPTIONS[k]? }
    e2 { ds with hasMoved := true } front back d t rel
    (d.x + dragDx s ds e1) (d.y + dragDy s ds e1) hchain
    (fun n hn => ⟨(hprops n hn).1, (hprops n hn).2.1, (hprops n hn).2.2.1⟩) hnd htfb htid hrelne
    rfl hview hsel rfl hty rfl hmain hmove hinit hp2 rfl hrel (by rw [hlen]; exact hfuel)
  have hrootAll : ∀ n ∈ front ++ back.map (shiftLeftBy d), n.parentId = none ∧ n.y = 160 := by
    intro n hn
    rcases List.mem_append.mp hn with h | h
    · exact ⟨(hprops n (List.mem_append_left _ h)).2.1, (hprops n (List.mem_append_left _ h)).2.2.1⟩
    · obtain ⟨b, hb, rfl⟩ := List.mem_map.mp h
      have hbL : b ∈ front ++ d :: back := List.mem_append_right _ (List.mem_cons_of_mem _ hb)
      exact ⟨(hprops b hbL).2.1, (hprops b hbL).2.2.1⟩
  have hroots : rootsOf (front ++ back.map (shiftLeftBy d)
      ++ [{ d with parentId := some t.id, relation := some rel, x := t.x, y := t.y + 40 }])
      = front ++ back.map (shiftLeftBy d) := by
    unfold rootsOf
    rw [List.filter_append]
    have h1 : (front ++ back.map (shiftLeftBy d)).filter (fun n => !truthy n.parentId)
        = front ++ back.map (shiftLeftBy d) := by
      rw [List.filter_eq_self]
      intro n hn
      simp [(hrootAll n hn).1, truthy]
    rw [h1]
    simp [truthy, htid]
  have hnodes2 : (endDrag { ({ s with
      nodes := front ++ { d with x := d.x + dragDx s ds e1, y := d.y + dragDy s ds e1 } :: back,
      dragState := some { ds with hasMoved := true },
      hoverTarget := some t.id,
      satelliteHover := SATELLITE_OPTIONS[k]? } : AppState) with
      nodes := front ++ back.map (shiftLeftBy d)
        ++ [{ d with parentId := some t.id, relation := some rel, x := t.x, y := t.y + 40 }],
      hist := saveToHistory s.hist (front ++ back.map (shiftLeftBy d)
        ++ [{ d with parentId := some t.id, relation := some rel, x := t.x, y := t.y + 40 }]) }).nodes
      = front ++ back.map (shiftLeftBy d)
        ++ [{ d with parentId := some t.id, relation := some rel, x := t.x, y := t.y + 40 }] := rfl
  refine ⟨_, _, rel, hmove1, hrel, rfl, hrel, hup, ?_, ?_, ?_, ?_, rfl, rfl⟩
  · show findNode (front ++ back.map (shiftLeftBy d)
        ++ [{ d with parentId := some t.id, relation := some rel, x := t.x, y := t.y + 40 }]) d.id
      = _
    apply findNode_append_last _
      { d with parentId := some t.id, relation := some rel, x := t.x, y := t.y + 40 }
    intro n hn
    rcases List.mem_append.mp hn with h | h
    · exact hA n h
    · obtain ⟨b, hb, rfl⟩ := List.mem_map.mp h
      exact hB b hb
  · rw [hnodes2, hroots]
    have hf1 : front.filter (fun n => decide (n.id ≠ d.id)) = front := by
      rw [List.filter_eq_self]
      intro n hn
      simp [hA n hn]
    have hf2 : back.filter (fun n => decide (n.id ≠ d.id)) = back := by
      rw [List.filter_eq_self]
      intro n hn
      simp [hB n hn]
    rw [List.filter_append, List.filter_cons, hf1, hf2]
    simp [shiftLeftBy, Function.comp_def]
  · rw [hnodes2, hroots]
    exact fun n hn => (hrootAll n hn).2
  · rw [hnodes2, hroots]
    exact List.Chain'.imp (fun a b hab => sameLine_gapExact vp.innerWidth a b hab)
      (sameLine_remove vp.innerWidth front back d (fun n hn => (hprops n hn).1) hchain)

/-- Instance of `end_to_end_drop` on `God shows his love for us` at a viewport of 1000 by
800: `love` (`n3`) is dragged, the pointer reaches the third zone of `God` (`n0`) and is
released; `love` is nested under `God` with relation `when`, and `God shows his for us`
stay on the row 160 with edge gaps of 6. -/
theorem end_to_end_drop_witness :
    dropMove2.hoverTarget = some "n0" ∧ dropMove2.satelliteHover = some "when" ∧
    dropUp.nodes.map (fun n => (n.id, n.parentId, n.relation, n.x, n.y))
      = [("n0", none, none, 967 / 4, 160), ("n1", none, none, 1167 / 4, 160),
         ("n2", none, none, 1367 / 4, 160), ("n4", none, none, 1525 / 4, 160),
         ("n5", none, none, 831 / 2, 160), ("n3", some "n0", some "when", 967 / 4, 200)] ∧
    dropUp.hist.history.length = 2 ∧
    ∃ (s1 s2 : AppState) (rel : String),
      handlePointerMove 10 sampleViewport dropMove1 { pointerId := 1, clientX := 240, clientY := 170 }
        = some s1 ∧
      SATELLITE_OPTIONS[2]? = some rel ∧
      s1.hoverTarget = some (mkNode "n0" "God" (967 / 4) 160).id ∧ s1.satelliteHover = some rel ∧
      handlePointerUp 10 sampleViewport s1 { pointerId := 1, clientX := 240, clientY := 170 }
        = some s2 ∧
      findNode s2.nodes (mkNode "n3" "love" (773 / 2) 160).id
        = some { mkNode "n3" "love" (773 / 2) 160 with
            parentId := some (mkNode "n0" "God" (967 / 4) 160).id, relation := some rel,
            x := (mkNode "n0" "God" (967 / 4) 160).x,
            y := (mkNode "n0" "God" (967 / 4) 160).y + 40 } ∧
      (rootsOf s2.nodes).map Node.id
        = ((calculateLayout sampleViewport.innerWidth sentenceRaw .book).filter
            (fun n => n.id ≠ (mkNode "n3" "love" (773 / 2) 160).id)).map Node.id ∧
      (∀ n ∈ rootsOf s2.nodes, n.y = 160) ∧
      List.Chain' (GapExact .book) (rootsOf s2.nodes) ∧
      s2.hist = saveToHistory dropMove1.hist s2.nodes ∧ s2.dragState = none :=
  ⟨by decide!, by decide!, by decide!, by decide!,
   end_to_end_drop 10 sampleViewport dropMove1
     { pointerId := 1, clientX := 240, clientY := 170 }
     { pointerId := 1, clientX := 240, clientY := 170 } dropDrag sentenceRaw
     (mkNode "n3" "love" (773 / 2) 160) (mkNode "n0" "God" (967 / 4) 160)
     [mkNode "n1" "shows" (1167 / 4) 160, mkNode "n2" "his" (1367 / 4) 160] 2 (673 / 2) 165
     (by decide!) (by decide!) (by decide!) (by decide!) (by decide!) (by decide!) (by decide!)
     (by decide!) (by decide!) (by decide!) (by decide!) (by decide!) (by decide!) (by decide!)
     (by decide!) (by decide!) (by decide!) (by decide!) (by decide!) (by decide!) (by decide!)
     (by decide!)⟩

/-! ## Relation zones -/

theorem specZone_range (x w p : ℚ) : 0 ≤ specZone x w p ∧ specZone x w p ≤ 5 := by
  unfold specZone
  constructor
  · exact le_max_left _ _
  · exact max_le (by norm_num) (min_le_left _ _)

theorem findHover_specZone (s : AppState) (idsToMove : List String) (nextNodes : List Node)
    (mainNode target : Node) (others : List Node) (coordX : ℚ)
    (hcand : hoverCandidates s idsToMove nextNodes mainNode = target :: others) :
    findHover s idsToMove nextNodes mainNode coordX
      = (some target.id,
          SATELLITE_OPTIONS[(specZone target.x (estimateWidth target.text (isBook s.viewMode))
            coordX).toNat]?) := by
  have hc : (nextNodes.filter (fun n =>
      !(s.connectionMode = .hidden && truthy n.parentId) && !decide (n.id ∈ idsToMove)
        && decide (sqDist n mainNode < 120 * 120))).insertionSort
      (fun a b => sqDist a mainNode ≤ sqDist b mainNode) = target :: others := hcand
  have hrw : (coordX - (target.x - estimateWidth target.text (isBook s.viewMode) / 2))
      / estimateWidth target.text (isBook s.viewMode) * 6
      = 6 * (coordX - (target.x - estimateWidth target.text (isBook s.viewMode) / 2))
        / estimateWidth target.text (isBook s.viewMode) := by ring
  unfold findHover specZone
  simp only [hc, hrw]

/-- C21: Relation zones. When the hover detection of a pointer-move finds the target
`target` (the nearest candidate), centred at `x` with estimated width
`w = estimateWidth(target.text, mode)`, and the pointer is at `p`, the hover target is
`target.id` and the pending relation is `SATELLITE_OPTIONS[k]` with
`k = floor(6 * (p - (x - w/2)) / w)` clamped to 0..5, which is always one of the six
options `who, what, when, where, why, how`; a pointer inside the `k`-th of the six equal
zones of the width of the target (counted from 0, left to right) gives option `k`, so
the third zone gives `when`; a pointer left of the target gives `who` and a pointer
right of it gives `how`. -/
theorem relation_zones (s : AppState) (idsToMove : List String) (nextNodes : List Node)
    (mainNode target : Node) (others : List Node) (coordX : ℚ)
    (hcand : hoverCandidates s idsToMove nextNodes mainNode = target :: others) :
    (findHover s idsToMove nextNodes mainNode coordX).1 = some target.id ∧
    (findHover s idsToMove nextNodes mainNode coordX).2
      = SATELLITE_OPTIONS[(specZone target.x (estimateWidth target.text (isBook s.viewMode))
          coordX).toNat]? ∧
    (specZone target.x (estimateWidth target.text (isBook s.viewMode)) coordX).toNat
      < SATELLITE_OPTIONS.length ∧
    SATELLITE_OPTIONS = ["who", "what", "when", "where", "why", "how"] ∧
    (∀ k : Nat, k < 6 →
      target.x - estimateWidth target.text (isBook s.viewMode) / 2
        + (k : ℚ) * (estimateWidth target.text (isBook s.viewMode) / 6) ≤ coordX →
      coordX < target.x - estimateWidth target.text (isBook s.viewMode) / 2
        + ((k : ℚ) + 1) * (estimateWidth target.text (isBook s.viewMode) / 6) →
      (findHover s idsToMove nextNodes mainNode coordX).2 = SATELLITE_OPTIONS[k]?) ∧
    (coordX < target.x - estimateWidth target.text (isBook s.viewMode) / 2 →
      (findHover s idsToMove nextNodes mainNode coordX).2 = some "who") ∧
    (target.x + estimateWidth target.text (isBook s.viewMode) / 2 ≤ coordX →
      (findHover s idsToMove nextNodes mainNode coordX).2 = some "how") := by
  have hw : 0 < estimateWidth target.text (isBook s.viewMode) := tokenWidth_pos s.viewMode target
  have hf := findHover_specZone s idsToMove nextNodes mainNode target others coordX hcand
  obtain ⟨hr0, hr5⟩ := specZone_range target.x (estimateWidth target.text (isBook s.viewMode)) coordX
  refine ⟨by rw [hf], by rw [hf], ?_, rfl, ?_, ?_, ?_⟩
  · have : SATELLITE_OPTIONS.length = 6 := rfl
    rw [this]
    omega
  · intro k hk hlo hhi
    rw [findHover_zone s idsToMove nextNodes mainNode target others coordX k hcand hk
      (by linarith) (by linarith)]
  · intro hleft
    rw [hf]
    have hneg : ⌊6 * (coordX - (target.x - estimateWidth target.text (isBook s.viewMode) / 2))
        / estimateWidth target.text (isBook s.viewMode)⌋ < 0 := by
      rw [Int.floor_lt]
      push_cast
      apply div_neg_of_neg_of_pos _ hw
      linarith
    have hz : specZone target.x (estimateWidth target.text (isBook s.viewMode)) coordX = 0 := by
      unfold specZone
      rw [min_eq_right (by omega), max_eq_left (by omega)]
    rw [hz]
    rfl
  · intro hright
    rw [hf]
    have hbig : (6 : ℤ) ≤ ⌊6 * (coordX - (target.x - estimateWidth target.text (isBook s.viewMode) / 2))
        / estimateWidth target.text (isBook s.viewMode)⌋ := by
      rw [Int.le_floor]
      push_cast
      rw [le_div_iff₀ hw]
      linarith
    have hz : specZone target.x (estimateWidth target.text (isBook s.viewMode)) coordX = 5 := by
      unfold specZone
      rw [min_eq_left (by omega), max_eq_right (by norm_num)]
    rw [hz]
    rfl

/-- Instance of `relation_zones` on the drag of `love` towards `God` in `dropMove1`: `God`
is centred at 241.75 with width 33.5; a pointer at 240 is in the third zone and gives
`when`, a pointer at 220 is left of `God` and gives `who`, one at 260 gives `how`. -/
theorem relation_zones_witness :
    hoverCandidates dropMove1 ["n3"] dropMove2.nodes (mkNode "n3" "love" 240 170)
      = [mkNode "n0" "God" (967 / 4) 160, mkNode "n1" "shows" (1167 / 4) 160,
         mkNode "n2" "his" (1367 / 4) 160] ∧
    (findHover dropMove1 ["n3"] dropMove2.nodes (mkNode "n3" "love" 240 170) 240).2
      = some "when" ∧
    (findHover dropMove1 ["n3"] dropMove2.nodes (mkNode "n3" "love" 240 170) 220).2
      = some "who" ∧
    (findHover dropMove1 ["n3"] dropMove2.nodes (mkNode "n3" "love" 240 170) 260).2
      = some "how" :=
  ⟨by decide!,
   (relation_zones dropMove1 ["n3"] dropMove2.nodes (mkNode "n3" "love" 240 170)
     (mkNode "n0" "God" (967 / 4) 160)
     [mkNode "n1" "shows" (1167 / 4) 160, mkNode "n2" "his" (1367 / 4) 160] 240
     (by decide!)).2.2.2.2.1 2 (by decide) (by decide!) (by decide!),
   (relation_zones dropMove1 ["n3"] dropMove2.nodes (mkNode "n3" "love" 240 170)
     (mkNode "n0" "God" (967 / 4) 160)
     [mkNode "n1" "shows" (1167 / 4) 160, mkNode "n2" "his" (1367 / 4) 160] 220
     (by decide!)).2.2.2.2.2.1 (by decide!),
   (relation_zones dropMove1 ["n3"] dropMove2.nodes (mkNode "n3" "love" 240 170)
     (mkNode "n0" "God" (967 / 4) 160)
     [mkNode "n1" "shows" (1167 / 4) 160, mkNode "n2" "his" (1367 / 4) 160] 260
     (by decide!)).2.2.2.2.2.2 (by decide!)⟩

/-! ## Canvas-pan sessions -/

theorem handlePointerMove_pan (fuel : Nat) (vp : Viewport) (t : AppState) (d : DragState)
    (e : PointerEvt) (hd : t.dragState = some d) (hty : d.type = .canvas) :
    handlePointerMove fuel vp t e
      = some (if e.pointerId = d.pointerId then
          { t with offsetX := d.initialOffsetX + (e.clientX - d.startX),
                   offsetY := d.initialOffsetY + (e.clientY - d.startY) }
        else t) := by
  unfold handlePointerMove
  simp only [hd, hty]
  by_cases h : e.pointerId = d.pointerId
  · simp [h]
  · simp [h]

theorem runMoves_pan (fuel : Nat) (vp : Viewport) (d : DragState) (e0 : PointerEvt)
    (start : ℚ × ℚ) (hty : d.type = .canvas) (hp : d.pointerId = e0.pointerId)
    (hx : d.startX = e0.clientX) (hy : d.startY = e0.clientY)
    (hox : d.initialOffsetX = start.1) (hoy : d.initialOffsetY = start.2)
    (moves : List PointerEvt) :
    ∀ (t : AppState) (cur : ℚ × ℚ), t.dragState = some d →
      runMoves fuel vp { t with offsetX := cur.1, offsetY := cur.2 } moves
        = some { t with
            offsetX := (moves.foldl
              (fun off m =>
                if m.pointerId = e0.pointerId then
                  (start.1 + (m.clientX - e0.clientX), start.2 + (m.clientY - e0.clientY))
                else off) cur).1,
            offsetY := (moves.foldl
              (fun off m =>
                if m.pointerId = e0.pointerId then
                  (start.1 + (m.clientX - e0.clientX), start.2 + (m.clientY - e0.clientY))
                else off) cur).2 } := by
  induction moves with
  | nil => intro t cur _; rfl
  | cons e es ih =>
    intro t cur hd
    simp only [runMoves, List.foldl_cons]
    rw [handlePointerMove_pan fuel vp { t with offsetX := cur.1, offsetY := cur.2 } d e hd hty,
      hp, hx, hy, hox, hoy]
    by_cases h : e.pointerId = e0.pointerId
    · simp only [h, if_true, Option.some_bind]
      exact ih t (start.1 + (e.clientX - e0.clientX), start.2 + (e.clientY - e0.clientY)) hd
    · simp only [h, if_false, Option.some_bind]
      exact ih t cur hd

theorem panOffset_last (start : ℚ × ℚ) (e0 : PointerEvt) (moves : List PointerEvt)
    (m : PointerEvt) (hlast : moves.getLast? = some m) (hown : m.pointerId = e0.pointerId) :
    panOffset start e0 moves
      = (start.1 + (m.clientX - e0.clientX), start.2 + (m.clientY - e0.clientY)) := by
  obtain ⟨ys, rfl⟩ := List.getLast?_eq_some_iff.mp hlast
  unfold panOffset
  rw [List.foldl_append]
  simp [hown]

/-- C22 (counterexample): `canvasSelected` is in canvas mode with the selection `n3`. A
canvas-pan session (pointer 1 down on the empty canvas without modifier, three moves,
pointer 1 up) leaves the forest and the history as they were and moves the offset by the
displacement (30, 20), but the selection is empty afterwards. -/
theorem canvas_pan_clears_selection :
    canvasSelected.viewMode = .canvas ∧ canvasSelected.selection = ["n3"] ∧
    (panSession 10 sampleViewport canvasSelected { pointerId := 1, clientX := 500, clientY := 500 }
      [{ pointerId := 1, clientX := 510, clientY := 505 }, { pointerId := 2, clientX := 0, clientY := 0 },
       { pointerId := 1, clientX := 530, clientY := 520 }]
      { pointerId := 1, clientX := 530, clientY := 520 }).map (fun t => t.selection) = some [] ∧
    (panSession 10 sampleViewport canvasSelected { pointerId := 1, clientX := 500, clientY := 500 }
      [{ pointerId := 1, clientX := 510, clientY := 505 }, { pointerId := 2, clientX := 0, clientY := 0 },
       { pointerId := 1, clientX := 530, clientY := 520 }]
      { pointerId := 1, clientX := 530, clientY := 520 }).map (fun t => t.selection)
      ≠ some canvasSelected.selection := by
  refine ⟨by decide!, by decide!, by decide!, by decide!⟩

/-- C22 (amended): a complete canvas-pan session (pointer-down on the empty canvas without
multi-select modifier, any pointer-moves, pointer-up of the same pointer) returns; it
empties the selection at the pointer-down, sets the offset to the offset before the
session plus the displacement of the pointer between the pointer-down and its last move
(moves of other pointers are ignored, without a move the offset stays), ends the drag
session and the hover state, and changes nothing else: every node of the forest, the
history entries and the history cursor, the scale and the view mode are as before. -/
theorem canvas_pan_session (fuel : Nat) (vp : Viewport) (s : AppState) (e0 eUp : PointerEvt)
    (moves : List PointerEvt)
    (hmode : s.multiSelectMode = false) (hshift : e0.shiftKey = false)
    (hup : eUp.pointerId = e0.pointerId) :
    panSession fuel vp s e0 moves eUp
      = some { s with
          selection := [], dragState := none, hoverTarget := none, satelliteHover := none,
          offsetX := (panOffset (s.offsetX, s.offsetY) e0 moves).1,
          offsetY := (panOffset (s.offsetX, s.offsetY) e0 moves).2 } ∧
    (∀ t, panSession fuel vp s e0 moves eUp = some t →
      t.nodes = s.nodes ∧ t.hist = s.hist ∧ t.selection = [] ∧ t.scale = s.scale ∧
      t.viewMode = s.viewMode) ∧
    (∀ m, moves.getLast? = some m → m.pointerId = e0.pointerId →
      panOffset (s.offsetX, s.offsetY) e0 moves
        = (s.offsetX + (m.clientX - e0.clientX), s.offsetY + (m.clientY - e0.clientY))) ∧
    (moves = [] → panOffset (s.offsetX, s.offsetY) e0 moves = (s.offsetX, s.offsetY)) := by
  have hdown : handlePointerDown s e0 none
      = { s with selection := [],
                 dragState := some
                   { type := .canvas, startX := e0.clientX, startY := e0.clientY,
                     initialOffsetX := s.offsetX, initialOffsetY := s.offsetY, hasMoved := false,
                     pointerId := e0.pointerId } } := by
    simp [handlePointerDown, truthy, pointerDownOnCanvas, hmode, hshift]
  have hrun := runMoves_pan fuel vp
    { type := .canvas, startX := e0.clientX, startY := e0.clientY,
      initialOffsetX := s.offsetX, initialOffsetY := s.offsetY, hasMoved := false,
      pointerId := e0.pointerId } e0 (s.offsetX, s.offsetY) rfl rfl rfl rfl rfl rfl moves
    (handlePointerDown s e0 none) (s.offsetX, s.offsetY) (by rw [hdown])
  have hsame : ({ handlePointerDown s e0 none with offsetX := s.offsetX, offsetY := s.offsetY }
      : AppState) = handlePointerDown s e0 none := by
    rw [hdown]
  rw [hsame] at hrun
  have hmain : panSession fuel vp s e0 moves eUp
      = some { s with
          selection := [], dragState := none, hoverTarget := none, satelliteHover := none,
          offsetX := (panOffset (s.offsetX, s.offsetY) e0 moves).1,
          offsetY := (panOffset (s.offsetX, s.offsetY) e0 moves).2 } := by
    unfold panSession
    rw [hrun, hdown]
    simp [handlePointerUp, hup, endDrag, panOffset]
  refine ⟨hmain, ?_, fun m h1 h2 => panOffset_last _ e0 moves m h1 h2, ?_⟩
  · intro t ht
    rw [hmain] at ht
    simp only [Option.some.injEq] at ht
    subst ht
    exact ⟨rfl, rfl, rfl, rfl, rfl⟩
  · intro h
    rw [h]
    rfl

/-- Instance of `canvas_pan_session` on `canvasSelected`: the offset goes from (0, 0) to
(30, 20), the displacement of pointer 1 at its last move; the move of pointer 2 is
ignored. -/
theorem canvas_pan_session_witness :
    (canvasSelected.offsetX, canvasSelected.offsetY) = (0, 0) ∧
    panOffset (canvasSelected.offsetX, canvasSelected.offsetY)
      { pointerId := 1, clientX := 500, clientY := 500 }
      [{ pointerId := 1, clientX := 510, clientY := 505 }, { pointerId := 2, clientX := 0, clientY := 0 },
       { pointerId := 1, clientX := 530, clientY := 520 }] = (30, 20) ∧
    panSession 10 sampleViewport canvasSelected { pointerId := 1, clientX := 500, clientY := 500 }
      [{ pointerId := 1, clientX := 510, clientY := 505 }, { pointerId := 2, clientX := 0, clientY := 0 },
       { pointerId := 1, clientX := 530, clientY := 520 }]
      { pointerId := 1, clientX := 530, clientY := 520 }
      = some { canvasSelected with
          selection := [], dragState := none, hoverTarget := none, satelliteHover := none,
          offsetX := (panOffset (canvasSelected.offsetX, canvasSelected.offsetY)
            { pointerId := 1, clientX := 500, clientY := 500 }
            [{ pointerId := 1, clientX := 510, clientY := 505 },
             { pointerId := 2, clientX := 0, clientY := 0 },
             { pointerId := 1, clientX := 530, clientY := 520 }]).1,
          offsetY := (panOffset (canvasSelected.offsetX, canvasSelected.offsetY)
            { pointerId := 1, clientX := 500, clientY := 500 }
            [{ pointerId := 1, clientX := 510, clientY := 505 },
             { pointerId := 2, clientX := 0, clientY := 0 },
             { pointerId := 1, clientX := 530, clientY := 520 }]).2 } :=
  ⟨by decide!, by decide!,
   (canvas_pan_session 10 sampleViewport canvasSelected
     { pointerId := 1, clientX := 500, clientY := 500 }
     { pointerId := 1, clientX := 530, clientY := 520 }
     [{ pointerId := 1, clientX := 510, clientY := 505 }, { pointerId := 2, clientX := 0, clientY := 0 },
      { pointerId := 1, clientX := 530, clientY := 520 }]
     (by decide!) rfl rfl).1⟩

/-! ## Ownership of a drag session -/

theorem foreign_pointer_ignored (fuel : Nat) (vp : Viewport) (s : AppState) (d : DragState)
    (e : PointerEvt) (hd : s.dragState = some d) (hp : e.pointerId ≠ d.pointerId) :
    handlePointerMove fuel vp s e = some s ∧ handlePointerUp fuel vp s e = some s := by
  constructor
  · unfold handlePointerMove
    simp only [hd, hp, ne_eq, not_false_eq_true, if_true]
  · unfold handlePointerUp
    simp only [hd, hp, ne_eq, not_false_eq_true, if_true]

/-- C23: the pointer-move and pointer-up handlers ignore every event of a pointer that
does not own the active drag session, but the pointer-down handler does not: in
`dropMove1` pointer 1 owns a node drag of `love` (`n3`) that has moved; a pointer-down of
pointer 2 on `us` (`n5`) replaces the drag session by one owned by pointer 2 and changes
the selection, and the release of pointer 1 is then ignored, so `love` stays at its
dragged position (336.5, 165), which is in no history entry. -/
theorem pointer_down_takes_over_session :
    (∀ (fuel : Nat) (vp : Viewport) (s : AppState) (d : DragState) (e : PointerEvt),
      s.dragState = some d → e.pointerId ≠ d.pointerId →
        handlePointerMove fuel vp s e = some s ∧ handlePointerUp fuel vp s e = some s) ∧
    dropMove1.dragState.map (fun d => (d.pointerId, d.mainNodeId, d.hasMoved))
      = some (1, "n3", true) ∧
    dropMove1.selection = ["n3"] ∧
    stolenDown.dragState.map (fun d => (d.pointerId, d.mainNodeId, d.hasMoved))
      = some (2, "n5", false) ∧
    stolenDown.selection = ["n5"] ∧
    stolenDown.dragState ≠ dropMove1.dragState ∧
    handlePointerUp 10 sampleViewport stolenDown { pointerId := 1, clientX := 673 / 2, clientY := 165 }
      = some stolenDown ∧
    (findNode stolenDown.nodes "n3").map (fun n => (n.x, n.y)) = some (673 / 2, 165) ∧
    stolenDown.hist.history = [sentenceState.nodes] ∧
    (findNode sentenceState.nodes "n3").map (fun n => (n.x, n.y)) = some (773 / 2, 160) := by
  refine ⟨fun fuel vp s d e hd hp => foreign_pointer_ignored fuel vp s d e hd hp, by decide!,
    by decide!, by decide!, by decide!, by decide!, by decide!, by decide!, by decide!, by decide!⟩

/-- Instance of the guard of `pointer_down_takes_over_session` on `dropMove1`: a move and a
release of pointer 2 while pointer 1 owns the session change nothing. -/
theorem pointer_down_takes_over_session_witness :
    handlePointerMove 10 sampleViewport dropMove1 { pointerId := 2, clientX := 0, clientY := 0 }
      = some dropMove1 ∧
    handlePointerUp 10 sampleViewport dropMove1 { pointerId := 2, clientX := 0, clientY := 0 }
      = some dropMove1 :=
  pointer_down_takes_over_session.1 10 sampleViewport dropMove1 dropDrag
    { pointerId := 2, clientX := 0, clientY := 0 } (by decide!) (by decide!)

/-! ## Tokenization -/

theorem endsInGap_cons (c : Char) (cs : List Char) :
    endsInGap (c :: cs) = if cs = [] then isJsSpace c else endsInGap cs := by
  cases cs with
  | nil => rfl
  | cons d ds => simp [endsInGap, List.getLast?_cons_cons]

theorem splitWords_runs (cs : List Char) :
    (∀ cur : List Char, cur ≠ [] →
      splitWords cur false cs = wordRuns cur cs ++ (if endsInGap cs then [""] else [])) ∧
    splitWords [] true cs
      = wordRuns [] cs ++ (if cs = [] ∨ endsInGap cs then [""] else []) := by
  induction cs with
  | nil =>
    constructor
    · intro cur hcur
      simp [splitWords, wordRuns, hcur, endsInGap]
    · simp [splitWords, wordRuns]
  | cons c cs ih =>
    obtain ⟨ihA, ihB⟩ := ih
    constructor
    · intro cur hcur
      by_cases hc : isJsSpace c = true
      · simp only [splitWords, wordRuns, hc, if_true, hcur, if_false, Bool.false_eq_true, ihB,
          endsInGap_cons, List.cons_append]
        by_cases hcs : cs = []
        · simp [hcs]
        · simp [hcs]
      · simp only [splitWords, wordRuns, hc, if_false, endsInGap_cons]
        rw [ihA (cur ++ [c]) (by simp)]
        by_cases hcs : cs = []
        · simp [hcs, hc, endsInGap]
        · simp [hcs]
    · by_cases hc : isJsSpace c = true
      · simp only [splitWords, wordRuns, hc, if_true, ihB, endsInGap_cons]
        by_cases hcs : cs = []
        · simp [hcs]
        · simp [hcs]
      · simp only [splitWords, wordRuns, hc, if_false, endsInGap_cons, List.nil_append]
        rw [ihA [c] (by simp)]
        by_cases hcs : cs = []
        · simp [hcs, hc, endsInGap]
        · simp [hcs]

theorem jsSplitWhitespace_runs (text : String) :
    jsSplitWhitespace text
      = (if startsInGap text.toList then [""] else []) ++ wordRuns [] text.toList
        ++ (if text.toList = [] ∨ endsInGap text.toList then [""] else []) := by
  unfold jsSplitWhitespace
  cases hcs : text.toList with
  | nil =>
    simp [splitWords, wordRuns, startsInGap]
  | cons c cs =>
    by_cases hc : isJsSpace c = true
    · simp only [splitWords, hc, if_true, Bool.false_eq_true, if_false, (splitWords_runs cs).2,
        startsInGap, List.head?_cons, wordRuns, endsInGap_cons]
      by_cases h : cs = []
      · simp [h]
      · simp [h]
    · simp only [splitWords, hc, if_false, List.nil_append, startsInGap, List.head?_cons, wordRuns,
        endsInGap_cons]
      rw [(splitWords_runs cs).1 [c] (by simp)]
      by_cases h : cs = []
      · simp [h, hc, endsInGap]
      · simp [h]

theorem wordRuns_spec (cs : List Char) :
    ∀ cur : List Char, (∀ c ∈ cur, isJsSpace c = false) →
      ∀ w ∈ wordRuns cur cs, w ≠ "" ∧ ∀ c ∈ w.toList, isJsSpace c = false := by
  induction cs with
  | nil =>
    intro cur hcur w hw
    by_cases h : cur = []
    · simp [wordRuns, h] at hw
    · simp only [wordRuns, h, if_false, List.mem_singleton] at hw
      subst hw
      refine ⟨?_, hcur⟩
      intro he
      exact h (by simpa using congrArg String.toList he)
  | cons c cs ih =>
    intro cur hcur w hw
    by_cases hc : isJsSpace c = true
    · by_cases h : cur = []
      · simp only [wordRuns, hc, if_true, h] at hw
        exact ih [] (by simp) w hw
      · simp only [wordRuns, hc, if_true, h, if_false, List.mem_cons] at hw
        rcases hw with rfl | hw
        · refine ⟨?_, hcur⟩
          intro he
          exact h (by simpa using congrArg String.toList he)
        · exact ih [] (by simp) w hw
    · simp only [wordRuns, hc, if_false] at hw
      refine ih (cur ++ [c]) ?_ w hw
      intro d hd
      rcases List.mem_append.mp hd with hd | hd
      · exact hcur d hd
      · simp only [List.mem_singleton] at hd
        rw [hd]
        simpa using hc

theorem zipWith_second {α β : Type} (l2 : List β) :
    ∀ l1 : List α, l1.length = l2.length → List.zipWith (fun _ b => b) l1 l2 = l2 := by
  induction l2 with
  | nil => intro l1 _; simp
  | cons b rest ih =>
    intro l1 h
    cases l1 with
    | nil => simp at h
    | cons a l1 =>
      simp only [List.zipWith_cons_cons]
      rw [ih l1 (by simpa using h)]

theorem rawNodes_text (genId : Nat → String) (words : List String) :
    (rawNodes genId words).map Node.text = words := by
  unfold rawNodes
  rw [List.map_zipWith]
  exact zipWith_second words (List.range words.length) (by simp)

theorem layoutFrom_map_text (windowWidth : ℚ) (mode : Mode) (l : List Node) :
    ∀ cx cy : ℚ, (layoutFrom windowWidth mode cx cy l).map Node.text = l.map Node.text := by
  induction l with
  | nil => intro _ _; rfl
  | cons n rest ih => intro cx cy; simp only [layoutFrom, List.map_cons, ih]

theorem layoutFrom_mem_eq (windowWidth : ℚ) (mode : Mode) (l : List Node) :
    ∀ (cx cy : ℚ), ∀ m ∈ layoutFrom windowWidth mode cx cy l,
      ∃ n ∈ l, m = { n with x := m.x, y := m.y } := by
  induction l with
  | nil => intro _ _ m hm; simp [layoutFrom] at hm
  | cons n rest ih =>
    intro cx cy m hm
    simp only [layoutFrom, List.mem_cons] at hm
    rcases hm with rfl | hm
    · exact ⟨n, List.mem_cons_self _ _, rfl⟩
    · obtain ⟨k, hk, h⟩ := ih _ _ m hm
      exact ⟨k, List.mem_cons_of_mem _ hk, h⟩

theorem splitTextToNodes_fresh (windowWidth : ℚ) (genId : Nat → String) (text : String)
    (mode : Mode) : ∀ n ∈ splitTextToNodes windowWidth genId text mode,
      n.parentId = none ∧ n.relation = none ∧ n.styles = defaultStyles ∧ n.collapsed = false := by
  intro n hn
  obtain ⟨m, hm, hnm⟩ := layoutFrom_mem_eq windowWidth mode _ _ _ n hn
  unfold rawNodes at hm
  obtain ⟨i, w, rfl⟩ := mem_zipWith_exists _ _ _ _ hm
  rw [hnm]
  exact ⟨rfl, rfl, rfl, rfl⟩

/-- C24: `splitTextToNodes` makes one node per piece of `text.split(/\s+/)`, in order, each
a root (`parentId` and `relation` null) with default styles. The pieces are the maximal
runs of non-whitespace characters of the text, which are non-empty and free of whitespace,
preceded by one empty piece when the text starts with whitespace and followed by one empty
piece when the text ends with whitespace or is empty: such a text yields nodes whose text
is empty. `God shows his love for us` yields 6 nodes; the same two first words followed
by a line break yield three nodes, the last with empty text; the empty text yields one
node with empty text. -/
theorem tokenization_keeps_empty_pieces :
    (∀ (windowWidth : ℚ) (genId : Nat → String) (text : String) (mode : Mode),
      (splitTextToNodes windowWidth genId text mode).map Node.text
        = (if startsInGap text.toList then [""] else []) ++ wordRuns [] text.toList
          ++ (if text.toList = [] ∨ endsInGap text.toList then [""] else [])) ∧
    (∀ (text : String), ∀ w ∈ wordRuns [] text.toList,
      w ≠ "" ∧ ∀ c ∈ w.toList, isJsSpace c = false) ∧
    (∀ (windowWidth : ℚ) (genId : Nat → String) (text : String) (mode : Mode),
      ∀ n ∈ splitTextToNodes windowWidth genId text mode,
        n.parentId = none ∧ n.relation = none ∧ n.styles = defaultStyles ∧ n.collapsed = false) ∧
    (splitTextToNodes 1000 sampleIds "God shows his love for us" .book).map Node.text
      = ["God", "shows", "his", "love", "for", "us"] ∧
    (splitTextToNodes 1000 sampleIds "God shows\n" .book).map Node.text = ["God", "shows", ""] ∧
    (splitTextToNodes 1000 sampleIds " God shows" .book).map Node.text = ["", "God", "shows"] ∧
    (splitTextToNodes 1000 sampleIds "" .book).map Node.text = [""] := by
  refine ⟨?_, fun text => wordRuns_spec text.toList [] (by simp), splitTextToNodes_fresh,
    by decide!, by decide!, by decide!, by decide!⟩
  intro windowWidth genId text mode
  unfold splitTextToNodes calculateLayout
  rw [layoutFrom_map_text, rawNodes_text, jsSplitWhitespace_runs]

/-- Instance of `tokenization_keeps_empty_pieces`: the runs of the text `God shows` with a
space before and after are `God` and `shows`, and each node made from that text is a root
with default styles, the node with empty text included. -/
theorem tokenization_keeps_empty_pieces_witness :
    wordRuns [] " God shows ".toList = ["God", "shows"] ∧
    ("God" ≠ "" ∧ ∀ c ∈ "God".toList, isJsSpace c = false) ∧
    ((mkNode "n0" "" 226 160).parentId = none ∧ (mkNode "n0" "" 226 160).relation = none ∧
      (mkNode "n0" "" 226 160).styles = defaultStyles ∧ (mkNode "n0" "" 226 160).collapsed = false) :=
  ⟨by decide,
   tokenization_keeps_empty_pieces.2.1 " God shows " "God" (by decide),
   tokenization_keeps_empty_pieces.2.2.1 1000 sampleIds " God shows " .book
     (mkNode "n0" "" 226 160) (by decide!)⟩

/-! ## Overlap resolution and nested nodes -/

/-- C25: `resolveOverlaps` does not leave nested nodes alone. In `secondMove` the node `us`
is dropped onto `his` (centred at 341.75 on the row 160) while `love` is already nested
under `God` at (241.75, 200). The drop commit passes to `updateNodes` a forest with `us`
nested at the snap position (341.75, 200), directly below `his`; `resolveOverlaps` puts
`love` and `us` into one row and respaces it, so after the commit `us`, whose `parentId`
is `n2`, is at x = 281.25, not at its snap position. -/
theorem resolve_moves_nested_node :
    secondMove.hoverTarget = some "n2" ∧ secondMove.satelliteHover = some "when" ∧
    (findNode secondMove.nodes "n2").map (fun n => (n.x, n.y)) = some (1367 / 4, 160) ∧
    handlePointerUp 10 sampleViewport secondMove { pointerId := 1, clientX := 340, clientY := 170 }
      = (updateNodes 10 sampleViewport secondMove secondDropInput true).map endDrag ∧
    secondDropInput.map (fun n => (n.id, n.parentId, n.x, n.y))
      = [("n0", none, 967 / 4, 160), ("n1", none, 1167 / 4, 160), ("n2", none, 1367 / 4, 160),
         ("n4", none, 1525 / 4, 160), ("n5", some "n2", 1367 / 4, 200),
         ("n3", some "n0", 967 / 4, 200)] ∧
    (resolveOverlaps 10 1000 secondDropInput .book).map
        (fun l => l.map (fun n => (n.id, n.parentId, n.x, n.y)))
      = some [("n0", none, 967 / 4, 160), ("n1", none, 1167 / 4, 160), ("n2", none, 1367 / 4, 160),
              ("n4", none, 1525 / 4, 160), ("n3", some "n0", 967 / 4, 200),
              ("n5", some "n2", 1125 / 4, 200)] ∧
    (findNode secondDropInput "n5").map (fun n => (n.parentId, n.x, n.y))
      = some (some "n2", 1367 / 4, 200) ∧
    (findNode secondUp.nodes "n5").map (fun n => (n.parentId, n.x, n.y))
      = some (some "n2", 1125 / 4, 200) := by
  refine ⟨by decide!, by decide!, by decide!, by decide!, by decide!, by decide!, by decide!,
    by decide!⟩

/-! ## Gap closer against its reference definition -/

theorem truthy_parent_iff (n : Node) (h : n.parentId ≠ some "") :
    truthy n.parentId = true ↔ n.parentId ≠ none := by
  cases hp : n.parentId with
  | none => simp [truthy]
  | some p =>
    have : p ≠ "" := fun he => h (by rw [hp, he])
    simp [truthy, this]

theorem gapShift_frame (c : Prop) [Decidable c] (n : Node) (v : ℚ) :
    (if truthy n.parentId then n else if c then { n with x := v } else n).parentId = n.parentId ∧
    (if truthy n.parentId then n else if c then { n with x := v } else n).y = n.y := by
  split
  · exact ⟨rfl, rfl⟩
  · split <;> exact ⟨rfl, rfl⟩

theorem closeGapsItem_eq_ref (mode : Mode) (nodes : List Node) (item : MovedItem)
    (hpar : ∀ n ∈ nodes, n.parentId ≠ some "") :
    closeGapsItem mode nodes item = closeGapsRef mode nodes item := by
  unfold closeGapsItem closeGapsRef
  cases hw : item.wasRoot with
  | false => simp
  | true =>
    have hany : (nodes.map (fun node =>
        if truthy node.parentId then node
        else if |node.y - item.oldY| < (LAYOUT_CONFIG mode).rowTolerance ∧ node.x > item.oldX then
          { node with x := node.x - (estimateWidth item.text (isBook mode)
              + (LAYOUT_CONFIG mode).wordSpacing) }
        else node)).any (fun n =>
          !truthy n.parentId && decide (|n.y - item.oldY| < (LAYOUT_CONFIG mode).rowTolerance))
        = true ↔ ¬ ∀ n ∈ nodes,
            ¬ (n.parentId = none ∧ |n.y - item.oldY| < (LAYOUT_CONFIG mode).rowTolerance) := by
      rw [List.any_eq_true]
      constructor
      · rintro ⟨m, hm, hc⟩ hall
        obtain ⟨n, hn, rfl⟩ := List.mem_map.mp hm
        obtain ⟨f1, f2⟩ := gapShift_frame
          (|n.y - item.oldY| < (LAYOUT_CONFIG mode).rowTolerance ∧ n.x > item.oldX) n
          (n.x - (estimateWidth item.text (isBook mode) + (LAYOUT_CONFIG mode).wordSpacing))
        rw [f1, f2] at hc
        simp only [Bool.and_eq_true, Bool.not_eq_true', decide_eq_true_eq] at hc
        have hnone : n.parentId = none := by
          by_contra hne
          have ht := (truthy_parent_iff n (hpar n hn)).mpr hne
          rw [ht] at hc
          exact absurd hc.1 (by simp)
        exact hall n hn ⟨hnone, hc.2⟩
      · intro hex
        push_neg at hex
        obtain ⟨n, hn, h1, h2⟩ := hex
        refine ⟨_, List.mem_map.mpr ⟨n, hn, rfl⟩, ?_⟩
        obtain ⟨f1, f2⟩ := gapShift_frame
          (|n.y - item.oldY| < (LAYOUT_CONFIG mode).rowTolerance ∧ n.x > item.oldX) n
          (n.x - (estimateWidth item.text (isBook mode) + (LAYOUT_CONFIG mode).wordSpacing))
        rw [f1, f2]
        simp [h1, truthy, h2]
    simp only [Bool.not_true, Bool.false_eq_true, if_false]
    by_cases hrow : ∀ n ∈ nodes,
        ¬ (n.parentId = none ∧ |n.y - item.oldY| < (LAYOUT_CONFIG mode).rowTolerance)
    · have hfalse := (not_congr hany).mpr (not_not.mpr hrow)
      rw [Bool.not_eq_true] at hfalse
      rw [hfalse, if_pos (show (!false) = true from rfl),
        if_neg (show ¬ (true = false) by decide), List.map_map]
      have hdec : ∀ n ∈ nodes, n.parentId = none →
          (LAYOUT_CONFIG mode).rowTolerance ≤ |n.y - item.oldY| :=
        fun n hn hp => not_lt.mp (fun h => hrow n hn ⟨hp, h⟩)
      apply List.map_congr_left
      intro n hn
      by_cases hp : n.parentId = none
      · have ht : truthy n.parentId = false := by simp [hp, truthy]
        by_cases hc : |n.y - item.oldY| < (LAYOUT_CONFIG mode).rowTolerance ∧ n.x > item.oldX <;>
          by_cases hy : n.y > item.oldY <;>
          (simp [Function.comp, truthy, hp, hc, hy] <;> rw [if_pos hdec])
      · have ht := (truthy_parent_iff n (hpar n hn)).mpr hp
        simp [Function.comp, ht, hp]
    · have htrue := hany.mpr hrow
      rw [htrue, if_neg (show ¬ ((!true) = true) by decide),
        if_neg (show ¬ (true = false) by decide)]
      have hdec : ¬ ∀ n ∈ nodes, n.parentId = none →
          (LAYOUT_CONFIG mode).rowTolerance ≤ |n.y - item.oldY| :=
        fun h => hrow (fun n hn hc => absurd hc.2 (not_lt.mpr (h n hn hc.1)))
      apply List.map_congr_left
      intro n hn
      by_cases hp : n.parentId = none
      · have ht : truthy n.parentId = false := by simp [hp, truthy]
        by_cases hc : |n.y - item.oldY| < (LAYOUT_CONFIG mode).rowTolerance ∧ n.x > item.oldX
        · simp [truthy, hp, hc]
          rw [if_neg (fun h => hdec h.1)]
        · simp [truthy, hp, hc]
          rw [if_neg (fun h => hdec h.1)]
      · have ht := (truthy_parent_iff n (hpar n hn)).mpr hp
        simp [ht, hp]

/-- C26: `closeGaps` equals its reference definition for one descriptor. On a forest in
which no `parentId` is the empty string, `closeGaps(nodes, [item], mode)` is
`closeGapsRef`: for a descriptor flagged `wasRoot` with text `t` and old position
`(gx, gy)`, `x` is reduced by `estimateWidth(t, mode) + wordSpacing(mode)` for exactly the
nodes without parent with `|y - gy| < rowTolerance` and `x > gx`; then, only if no node
without parent has `|y - gy| < rowTolerance`, `y` is reduced by `lineHeight` for exactly
the nodes without parent with `y > gy`; every node with a parent is returned unchanged,
and a descriptor not flagged `wasRoot` changes nothing. -/
theorem closeGaps_matches_reference (mode : Mode) (nodes : List Node) (item : MovedItem)
    (hpar : ∀ n ∈ nodes, n.parentId ≠ some "") :
    closeGaps nodes [item] mode = closeGapsRef mode nodes item ∧
    (item.wasRoot = false → closeGaps nodes [item] mode = nodes) ∧
    List.Forall₂ (fun n m : Node => n.parentId ≠ none → m = n) nodes
      (closeGaps nodes [item] mode) := by
  have heq : closeGaps nodes [item] mode = closeGapsRef mode nodes item := by
    simp only [closeGaps, List.foldl_cons, List.foldl_nil]
    exact closeGapsItem_eq_ref mode nodes item hpar
  refine ⟨heq, ?_, ?_⟩
  · intro hw
    rw [heq]
    simp [closeGapsRef, hw]
  · rw [heq]
    unfold closeGapsRef
    split
    · exact List.forall₂_same.mpr (fun _ _ _ => rfl)
    · rw [List.forall₂_map_right_iff]
      refine List.forall₂_same.mpr (fun n _ hp => ?_)
      simp only [hp, ne_eq, not_false_eq_true, if_true]

/-- Instance of `closeGaps_matches_reference`: in `threeRowForest` the slot of `shows` is
closed by moving `his` left; in `lastOfRowForest` the row of the slot of `God` has no root
left, so the roots below move up by one line height, and the nested `God` stays. -/
theorem closeGaps_matches_reference_witness :
    (closeGapsRef .book threeRowForest showsSlot).map (fun n => (n.id, n.x, n.y))
      = [("g", 100, 160), ("s", 400, 248), ("h", 279 / 2, 160), ("l", 400, 208)] ∧
    (closeGapsRef .book lastOfRowForest godSlot).map (fun n => (n.id, n.x, n.y))
      = [("g", 400, 248), ("l", 400, 160), ("h", 300, 208)] ∧
    closeGaps threeRowForest [showsSlot] .book = closeGapsRef .book threeRowForest showsSlot ∧
    closeGaps lastOfRowForest [godSlot] .book = closeGapsRef .book lastOfRowForest godSlot :=
  ⟨by decide!, by decide!,
   (closeGaps_matches_reference .book threeRowForest showsSlot (by decide)).1,
   (closeGaps_matches_reference .book lastOfRowForest godSlot (by decide)).1⟩

/-! ## The overlap resolver only rearranges and repositions -/

theorem unplaced_respaced {l out : List Node}
    (h : List.Forall₂ (fun n m : Node => m = { n with x := m.x }) l out) :
    out.map unplaced = l.map unplaced := by
  induction h with
  | nil => rfl
  | cons hab _ ih =>
    rename_i a b _ _
    simp only [List.map_cons, ih]
    congr 1
    rw [hab]
    rfl

theorem spaceRow_unplaced (mode : Mode) (row : Row) :
    ((spaceRow mode row).nodes.map unplaced).Perm (row.nodes.map unplaced) := by
  unfold spaceRow
  rw [unplaced_respaced (applySpacing_respaced mode _)]
  exact (List.perm_insertionSort _ _).map _

theorem unplaced_moved (l : List Node) (x : Node → ℚ) (y : ℚ) :
    (l.map (fun n => { n with y := y, x := x n })).map unplaced = l.map unplaced := by
  rw [List.map_map]
  apply List.map_congr_left
  intro n _
  rfl

theorem createdRow_unplaced (windowWidth : ℚ) (mode : Mode) (nextY : ℚ) (l : List Node) :
    (createdRow windowWidth mode nextY l).nodes.map unplaced = l.map unplaced :=
  unplaced_moved l (fun _ => startX windowWidth mode) nextY

theorem mergedRow_unplaced (windowWidth : ℚ) (mode : Mode) (nextRow : Row) (l : List Node) :
    (mergedRow windowWidth mode nextRow l).nodes.map unplaced
      = nextRow.nodes.map unplaced ++ l.map unplaced := by
  unfold mergedRow
  rw [List.map_append]
  congr 1
  exact unplaced_moved l (fun n => startX windowWidth mode - 10000 + n.x) nextRow.y

theorem processRow_unplaced (windowWidth : ℚ) (mode : Mode) (row : Row) (rest : List Row) :
    ((((processRow windowWidth mode row rest).1
        :: (processRow windowWidth mode row rest).2).flatMap Row.nodes).map unplaced).Perm
      (((row :: rest).flatMap Row.nodes).map unplaced) := by
  have hsplit : ∀ k : Nat,
      (((spaceRow mode row).nodes.take k).map unplaced
        ++ ((spaceRow mode row).nodes.drop k).map unplaced).Perm (row.nodes.map unplaced) := by
    intro k
    rw [← List.map_append, List.take_append_drop]
    exact spaceRow_unplaced mode row
  rcases processRow_cases windowWidth mode row rest with h | ⟨k, _, h | h⟩
  · rw [h]
    simp only [List.flatMap_cons, List.map_append]
    exact (spaceRow_unplaced mode row).append_right _
  · obtain ⟨nextRow, rest1, hrest, _, h⟩ := h
    rw [h, hrest]
    simp only [List.flatMap_cons, List.map_append, mergedRow_unplaced]
    have hk : (keptRow mode row k).nodes = (spaceRow mode row).nodes.take k := rfl
    rw [hk]
    have h2 : (List.map unplaced (List.take k (spaceRow mode row).nodes)
        ++ (List.map unplaced nextRow.nodes
          ++ List.map unplaced (List.drop k (spaceRow mode row).nodes)
          ++ List.map unplaced (rest1.flatMap Row.nodes))).Perm
        ((List.map unplaced (List.take k (spaceRow mode row).nodes)
          ++ List.map unplaced (List.drop k (spaceRow mode row).nodes))
          ++ (List.map unplaced nextRow.nodes ++ List.map unplaced (rest1.flatMap Row.nodes))) := by
      rw [List.append_assoc, List.append_assoc]
      refine List.Perm.append_left _ ?_
      rw [← List.append_assoc, ← List.append_assoc]
      exact List.Perm.append_right _ List.perm_append_comm
    exact h2.trans ((hsplit k).append_right _)
  · rw [h]
    simp only [List.flatMap_cons, List.map_append, createdRow_unplaced]
    have hk : (keptRow mode row k).nodes = (spaceRow mode row).nodes.take k := rfl
    rw [hk, ← List.append_assoc]
    exact (hsplit k).append_right _

theorem resolveLoop_unplaced (windowWidth : ℚ) (mode : Mode) (fuel : Nat) :
    ∀ rows out : List Row, resolveLoop windowWidth mode fuel rows = some out →
      ((out.flatMap Row.nodes).map unplaced).Perm ((rows.flatMap Row.nodes).map unplaced) := by
  induction fuel with
  | zero =>
    intro rows out h
    cases rows with
    | nil => simp only [resolveLoop, Option.some.injEq] at h; subst h; exact List.Perm.refl _
    | cons row rest => simp [resolveLoop] at h
  | succ fuel ih =>
    intro rows out h
    cases rows with
    | nil => simp only [resolveLoop, Option.some.injEq] at h; subst h; exact List.Perm.refl _
    | cons row rest =>
      simp only [resolveLoop] at h
      split at h
      · rename_i done hdone
        simp only [Option.some.injEq] at h
        subst h
        have h1 := ih _ _ hdone
        have h2 := processRow_unplaced windowWidth mode row rest
        simp only [List.flatMap_cons, List.map_append] at h2 ⊢
        exact (List.Perm.append_left _ h1).trans h2
      · simp at h

theorem resolveOverlaps_unplaced (fuel : Nat) (windowWidth : ℚ) (nodes : List Node) (mode : Mode)
    (out : List Node) (h : resolveOverlaps fuel windowWidth nodes mode = some out) :
    (out.map unplaced).Perm (nodes.map unplaced) := by
  unfold resolveOverlaps resolveRows at h
  cases hr : resolveLoop windowWidth mode fuel (initialRows mode nodes) with
  | none => rw [hr] at h; simp at h
  | some rows =>
    rw [hr] at h
    simp only [Option.map_some', Option.some.injEq] at h
    subst h
    exact (resolveLoop_unplaced windowWidth mode fuel _ _ hr).trans
      ((initialRows_perm mode nodes).map _)

theorem unplaced_eq_iff (n m : Node) : unplaced n = unplaced m ↔ m = { n with x := m.x, y := m.y } := by
  cases n
  cases m
  simp only [unplaced, Node.mk.injEq]
  constructor
  · rintro ⟨h1, h2, h3, h4, h5, h6, _, _⟩
    exact ⟨h1.symm, h2.symm, h3.symm, h4.symm, h5.symm, h6.symm, trivial, trivial⟩
  · rintro ⟨h1, h2, h3, h4, h5, h6, _, _⟩
    exact ⟨h1.symm, h2.symm, h3.symm, h4.symm, h5.symm, h6.symm, trivial, trivial⟩

/-- C27: `resolveOverlaps` only rearranges and repositions. Whenever it returns, in either
mode, the output has the length of the input and is, up to `x` and `y`, a permutation of
it: every node id occurs in the output as often as in the input (exactly once when the
input ids are distinct), every output node is an input node with possibly another `x`
and `y` (same id, text, `parentId`, `relation`, styles and collapsed flag), and every
input node occurs in the output in this way. -/
theorem resolveOverlaps_rearranges (fuel : Nat) (windowWidth : ℚ) (nodes : List Node)
    (mode : Mode) (out : List Node)
    (h : resolveOverlaps fuel windowWidth nodes mode = some out) :
    out.length = nodes.length ∧
    (out.map unplaced).Perm (nodes.map unplaced) ∧
    (∀ id : String, (out.map Node.id).count id = (nodes.map Node.id).count id) ∧
    ((nodes.map Node.id).Nodup → (out.map Node.id).Nodup) ∧
    (∀ m ∈ out, ∃ n ∈ nodes, m = { n with x := m.x, y := m.y }) ∧
    (∀ n ∈ nodes, ∃ m ∈ out, m = { n with x := m.x, y := m.y }) := by
  have hperm := resolveOverlaps_unplaced fuel windowWidth nodes mode out h
  have hid : ∀ l : List Node, (l.map unplaced).map Node.id = l.map Node.id := by
    intro l
    rw [List.map_map]
    rfl
  have hids : (out.map Node.id).Perm (nodes.map Node.id) := by
    rw [← hid out, ← hid nodes]
    exact hperm.map _
  refine ⟨?_, hperm, fun id => hids.count_eq id, fun hnd => hids.nodup_iff.mpr hnd, ?_, ?_⟩
  · simpa using hperm.length_eq
  · intro m hm
    have hmem : unplaced m ∈ nodes.map unplaced :=
      hperm.mem_iff.mp (List.mem_map.mpr ⟨m, hm, rfl⟩)
    obtain ⟨n, hn, hnm⟩ := List.mem_map.mp hmem
    exact ⟨n, hn, (unplaced_eq_iff n m).mp hnm⟩
  · intro n hn
    have hmem : unplaced n ∈ out.map unplaced :=
      hperm.mem_iff.mpr (List.mem_map.mpr ⟨n, hn, rfl⟩)
    obtain ⟨m, hm, hmn⟩ := List.mem_map.mp hmem
    exact ⟨m, hm, (unplaced_eq_iff n m).mp hmn.symm⟩

/-- Instance of `resolveOverlaps_rearranges` on `enlargedInput`, where the last node of the
first row overflows and is merged into the second row: the output has the 8 nodes of
the input, in the same order of ids. -/
theorem resolveOverlaps_rearranges_witness :
    (resolveOverlaps 10 1000 enlargedInput .book).map (fun l => l.map Node.id)
      = some ["n0", "n1", "n2", "n3", "n4", "n5", "n6", "n7"] ∧
    (resolveOverlaps 10 1000 enlargedInput .book).map
        (fun l => (l.filter (fun n => n.id = "n5")).map (fun n => (n.text, n.y)))
      = some [("for", 208)] ∧
    twoLineEnlarged.nodes.length = enlargedInput.length ∧
    (twoLineEnlarged.nodes.map unplaced).Perm (enlargedInput.map unplaced) :=
  ⟨by decide!, by decide!,
   (resolveOverlaps_rearranges 10 1000 enlargedInput .book twoLineEnlarged.nodes (by decide!)).1,
   (resolveOverlaps_rearranges 10 1000 enlargedInput .book twoLineEnlarged.nodes (by decide!)).2.1⟩
/-! ## Book-mode reflow and the left edge of the column -/

/-- C28: a merged overflow leaves the page. `twoLineSelected` holds two book-mode lines as
laid out at a viewport width of 1000 (text column from 225 to 775), the first line filled
up to 4 units, with its first word `n0` selected. Raising the font size of the selection
by one step passes to `resolveOverlaps` a forest in which every node has `x` at or right
of `startX` = 225; the last word `n5` of the first row overflows and is merged into the
existing second row with `x = startX - 10000 + x`, the spacing of that row starts from it,
and the result has all three nodes of the second row at `x` below -8852. -/
theorem merged_overflow_leaves_page :
    startX 1000 .book = 225 ∧
    enlargedInput.all (fun n => decide (startX 1000 .book ≤ n.x)) = true ∧
    changeFontSize 10 sampleViewport twoLineSelected (1 / 10)
      = updateNodes 10 sampleViewport twoLineSelected enlargedInput true ∧
    enlargedInput.map (fun n => (n.id, n.x, n.y))
      = [("n0", 557 / 2, 160), ("n1", 1545 / 4, 160), ("n2", 1997 / 4, 160),
         ("n3", 2491 / 4, 160), ("n4", 1419 / 2, 160), ("n5", 3017 / 4, 160),
         ("n6", 1093 / 4, 208), ("n7", 1461 / 4, 208)] ∧
    (resolveOverlaps 10 1000 enlargedInput .book).map (fun l => l.map (fun n => (n.id, n.x, n.y)))
      = some [("n0", 557 / 2, 160), ("n1", 1958 / 5, 160), ("n2", 2523 / 5, 160),
              ("n3", 6281 / 10, 160), ("n4", 14297 / 20, 160), ("n5", -45077 / 5, 208),
              ("n6", -44722 / 5, 208), ("n7", -44262 / 5, 208)] ∧
    twoLineEnlarged.nodes.map (fun n => (n.id, n.x, n.y))
      = [("n0", 557 / 2, 160), ("n1", 1958 / 5, 160), ("n2", 2523 / 5, 160),
         ("n3", 6281 / 10, 160), ("n4", 14297 / 20, 160), ("n5", -45077 / 5, 208),
         ("n6", -44722 / 5, 208), ("n7", -44262 / 5, 208)] ∧
    (∃ m ∈ twoLineEnlarged.nodes, m.x < startX 1000 .book) := by
  refine ⟨by decide!, by decide!, by decide!, by decide!, by decide!, by decide!, by decide!⟩

/-! ## The start position of the lead node of a drag -/

theorem lookupPos_isSome (obj : List (String × ℚ × ℚ)) (id : String)
    (h : ∃ entry ∈ obj, entry.1 = id) : (lookupPos obj id).isSome = true := by
  obtain ⟨entry, hmem, hid⟩ := h
  unfold lookupPos
  rw [Option.isSome_map', List.find?_isSome]
  exact ⟨entry, List.mem_reverse.mpr hmem, by simpa using hid⟩

theorem lead_has_start_of_selected (s : AppState) (e : PointerEvt) (c : String) (hc : c ≠ "")
    (hsel : c ∈ newSelectionOnDown s e.shiftKey c) (hnode : ∃ n ∈ s.nodes, n.id = c) :
    ∃ d, (handlePointerDown s e (some c)).dragState = some d ∧ d.mainNodeId = c ∧
      c ∈ d.idsToMove ∧ (lookupPos d.initialPositions c).isSome = true := by
  obtain ⟨d, h1, _, _, _, _, h6, _, _, h9, h10⟩ := handlePointerDown_node s e c hc
  have hin : c ∈ d.idsToMove := by
    rw [h9]
    exact (gatherAll_spec s.nodes _).1 c hsel
  refine ⟨d, h1, h6, hin, ?_⟩
  obtain ⟨n, hn, hid⟩ := hnode
  apply lookupPos_isSome
  rw [h10]
  refine ⟨(n.id, n.x, n.y), ?_, hid⟩
  exact List.mem_map.mpr ⟨n, List.mem_filter.mpr ⟨hn, by simpa [hid] using hin⟩, rfl⟩

/-- C29: a node drag session can lack the start position of its lead node. When the node
`c` under the pointer stays in the selection computed by the pointer-down, `c` is in
`idsToMove` and has an entry in `initialPositions`. But after a click on `love` (`n0`,
which also selects `Love`, `n2`) and a shift-click on `God` (`n1`), the selection is
`n0`, `n1`; a pointer-down with the shift key on `n2` pushes `n2` and drops it again as a
duplicate of the first word, so the drag session has the lead node `n2` with
`idsToMove` = `n0`, `n1` and no entry for `n2` in `initialPositions`. The next
pointer-move past the dead-zone reads `mainInitPos.x` of a missing entry: the handler ends
there, having only set `hasMoved`, and no node moves. -/
theorem lead_node_without_start_position :
    (∀ (s : AppState) (e : PointerEvt) (c : String), c ≠ "" →
      c ∈ newSelectionOnDown s e.shiftKey c → (∃ n ∈ s.nodes, n.id = c) →
      ∃ d, (handlePointerDown s e (some c)).dragState = some d ∧ d.mainNodeId = c ∧
        c ∈ d.idsToMove ∧ (lookupPos d.initialPositions c).isSome = true) ∧
    leadClick1.selection = ["n0", "n2"] ∧
    leadClick2.selection = ["n0", "n1"] ∧
    leadDown.selection = ["n0", "n1"] ∧
    leadDown.dragState.map (fun d => (d.mainNodeId, d.idsToMove)) = some ("n2", ["n0", "n1"]) ∧
    leadDown.dragState.map (fun d => d.initialPositions)
      = some [("n0", 247, 160), ("n1", 1167 / 4, 160)] ∧
    leadDown.dragState.map (fun d => decide (d.mainNodeId ∈ d.idsToMove)) = some false ∧
    leadDown.dragState.map (fun d => lookupPos d.initialPositions d.mainNodeId) = some none ∧
    handlePointerMove 10 sampleViewport leadDown
        { pointerId := 1, clientX := 1545 / 4, clientY := 160, shiftKey := true }
      = some { leadDown with dragState := some { leadDrag with hasMoved := true } } := by
  refine ⟨fun s e c hc hsel hnode => lead_has_start_of_selected s e c hc hsel hnode,
    by decide!, by decide!, by decide!, by decide!, by decide!, by decide!, by decide!, by decide!⟩

/-- Instance of the first part of `lead_node_without_start_position`: the plain
pointer-down on `n0` in `leadLoaded` gives a drag session whose lead node `n0` is in
`idsToMove` and has a start position. -/
theorem lead_node_without_start_position_witness :
    newSelectionOnDown leadLoaded false "n0" = ["n0", "n2"] ∧
    ∃ d, (handlePointerDown leadLoaded { pointerId := 1, clientX := 247, clientY := 160 }
        (some "n0")).dragState = some d ∧ d.mainNodeId = "n0" ∧
      "n0" ∈ d.idsToMove ∧ (lookupPos d.initialPositions "n0").isSome = true :=
  ⟨by decide!,
   lead_node_without_start_position.1 leadLoaded { pointerId := 1, clientX := 247, clientY := 160 }
     "n0" (by decide) (by decide!) ⟨mkNode "n0" "love" 247 160, by decide!, rfl⟩⟩

/-! ## Book-mode layout as a fixed point of the overlap resolver -/

/-- C30: Book-mode layout is a fixed point of overlap resolution. For every viewport width
and every node list whose nodes have scale 1, whatever the widths of the tokens,
`resolveOverlaps(calculateLayout(nodes, 'book'), 'book')` returns, with fuel for one loop
iteration per node or more, and its result is `calculateLayout(nodes, 'book')` as a list:
same order, same `x` and `y`; so resolving the result again changes nothing either. -/
theorem book_layout_fixed_point (windowWidth : ℚ) (nodes : List Node)
    (hs : ∀ n ∈ nodes, n.styles.scale = 1) :
    resolveOverlaps nodes.length windowWidth (calculateLayout windowWidth nodes .book) .book
      = some (calculateLayout windowWidth nodes .book) ∧
    (∀ fuel : Nat, nodes.length ≤ fuel →
      resolveOverlaps fuel windowWidth (calculateLayout windowWidth nodes .book) .book
        = some (calculateLayout windowWidth nodes .book)) ∧
    (∀ fuel : Nat, nodes.length ≤ fuel →
      (resolveOverlaps fuel windowWidth (calculateLayout windowWidth nodes .book) .book).bind
          (fun out => resolveOverlaps fuel windowWidth out .book)
        = some (calculateLayout windowWidth nodes .book)) := by
  have hs1 : ∀ n ∈ nodes, scaleOr1 n = 1 := by
    intro n hn
    simp [scaleOr1, hs n hn]
  have hch := (layoutFrom_lineStep windowWidth nodes hs1 (startX windowWidth .book) 160).1
  have hlen : (calculateLayout windowWidth nodes .book).length = nodes.length :=
    layoutFrom_length windowWidth .book nodes _ _
  have main : ∀ fuel : Nat, nodes.length ≤ fuel →
      resolveOverlaps fuel windowWidth (calculateLayout windowWidth nodes .book) .book
        = some (calculateLayout windowWidth nodes .book) := by
    intro fuel hf
    exact resolveOverlaps_settled fuel windowWidth _ _ (settled_sorted windowWidth _ hch) hch
      (by rw [hlen]; exact hf)
  refine ⟨main _ (le_refl _), main, ?_⟩
  intro fuel hf
  rw [main fuel hf, Option.some_bind, main fuel hf]

/-- Instance of `book_layout_fixed_point` at a viewport width of 200, where the text
column is 110 wide (from 45 to 155) and the token `reconciled,` (width 117.5) does not fit:
the layout puts each of the three tokens on its own line and `resolveOverlaps` returns
it unchanged. -/
theorem book_layout_fixed_point_witness :
    containerWidth 200 .book = 110 ∧
    estimateWidth "reconciled," true = 235 / 2 ∧
    (calculateLayout 200 wideTokenRaw .book).map (fun n => (n.text, n.x, n.y))
      = [("we", 113 / 2, 160), ("reconciled,", 415 / 4, 208), ("us", 113 / 2, 256)] ∧
    resolveOverlaps wideTokenRaw.length 200 (calculateLayout 200 wideTokenRaw .book) .book
      = some (calculateLayout 200 wideTokenRaw .book) :=
  ⟨by decide!, by decide!, by decide!,
   (book_layout_fixed_point 200 wideTokenRaw (by decide!)).1⟩

end VerseAxis
